import Mathlib

/-!
Verification of the avito_monitor crawler/classifier core.

Strings are modelled as lists of Unicode codepoints (`List Nat`), so that
Python's text pipeline (lowercasing, character translation, regex-style
substitution) becomes plain natural-number arithmetic.  Each definition is a
shallow embedding of the function of the same (Python) name in the repository;
the source file and line are given in the doc comment.
-/

/-- Codepoints of a Lean string literal, used to transcribe the Python string
constants of the repository. -/
def String.cp (s : String) : List Nat := s.toList.map Char.toNat

/-- Python `str.lower` restricted to the character repertoire the program
manipulates: ASCII letters, Latin-1/Latin-extended letters and Cyrillic.
Other codepoints are left unchanged. -/
def pyLowerChar (n : Nat) : Nat :=
  if 65 ≤ n ∧ n ≤ 90 then n + 32
  else if 0xC0 ≤ n ∧ n ≤ 0xDE ∧ n ≠ 0xD7 then n + 32
  else if 0x400 ≤ n ∧ n ≤ 0x40F then n + 80
  else if 0x410 ≤ n ∧ n ≤ 0x42F then n + 32
  else n

/-- Python `str.lower` on a whole string. -/
def pyLower (s : List Nat) : List Nat := s.map pyLowerChar

/-- Python regex `\w` (word character) on the Latin/Cyrillic repertoire:
ASCII alphanumerics, underscore, Latin-1/Latin-extended letters (excluding
the × and ÷ signs, which are not letters) and the Cyrillic block. -/
def isWordChar (n : Nat) : Bool :=
  (48 ≤ n && n ≤ 57) || (65 ≤ n && n ≤ 90) || (97 ≤ n && n ≤ 122) || n == 95 ||
  (0xC0 ≤ n && n ≤ 0x24F && n != 0xD7 && n != 0xF7) ||
  (0x400 ≤ n && n ≤ 0x4FF)

/-- Python regex `\s` (whitespace): ASCII whitespace, the C1/Unicode space
characters recognised by CPython's `re` module. -/
def isPySpace (n : Nat) : Bool :=
  n == 32 || n == 9 || n == 10 || n == 13 || n == 11 || n == 12 ||
  (0x1C ≤ n && n ≤ 0x1F) || n == 0x85 || n == 0xA0 || n == 0x1680 ||
  (0x2000 ≤ n && n ≤ 0x200A) || n == 0x2028 || n == 0x2029 ||
  n == 0x202F || n == 0x205F || n == 0x3000

/-- Case-insensitive prefix test: does `pat` (already lowercase) match the
head of `s` after lowering each char of `s`?  This models matching one of the
lowercase `_HUMAN_REPLACEMENTS` patterns under `re.I` (classifier.py:15-27),
given that the input has already been lowercased by `_norm_text`. -/
def matchLower : List Nat → List Nat → Bool
  | [], _ => true
  | _ :: _, [] => false
  | p :: ps, c :: cs => p == pyLowerChar c && matchLower ps cs

/-- Is the first character of the list a word character (false for the empty
list, i.e. at the end of the string there is always a `\b` boundary)? -/
def headIsWord : List Nat → Bool
  | [] => false
  | c :: _ => isWordChar c

/-- One `re.sub` pass replacing every non-overlapping, word-bounded (`\b...\b`),
case-insensitive occurrence of `pat` by `repl`, scanning left to right exactly
as CPython's regex engine does.  `prevWord` says whether the character just
before the current position is a word character (start of string: `false`). -/
def wbReplaceGo (pat repl : List Nat) : Nat → Bool → List Nat → List Nat
  | _, _, [] => []
  | skip + 1, _, c :: t => wbReplaceGo pat repl skip (isWordChar c) t
  | 0, prevWord, c :: t =>
    if pat ≠ [] ∧ prevWord = false ∧ matchLower pat (c :: t) = true ∧
        headIsWord ((c :: t).drop pat.length) = false then
      repl ++ wbReplaceGo pat repl (pat.length - 1) (isWordChar c) t
    else
      c :: wbReplaceGo pat repl 0 (isWordChar c) t

/-- Entry point of the word-bounded replacement (start-of-string boundary).
After a match the replacement is emitted once and the matched region is then
skipped via the counter state (`skip`), during which no new match is
attempted — exactly the non-overlapping scan of `re.sub`. -/
def wbReplace (pat repl s : List Nat) : List Nat :=
  wbReplaceGo pat repl 0 false s

/-- The `_HUMAN_REPLACEMENTS` table (classifier.py:15-27), in source order. -/
def humanReplacements : List (List Nat × List Nat) :=
  [("самсунг".cp, "samsung".cp),
   ("асер".cp, "acer".cp),
   ("aser".cp, "acer".cp),
   ("эйсер".cp, "acer".cp),
   ("асус".cp, "asus".cp),
   ("леново".cp, "lenovo".cp),
   ("макбук".cp, "apple macbook".cp),
   ("macbook".cp, "apple macbook".cp),
   ("инфиникс".cp, "infinix".cp),
   ("нетбук".cp, "netbook".cp),
   ("нэтбук".cp, "netbook".cp)]

/-- `_replace_human_spellings` (classifier.py:30-35): apply the replacement
table in order, each pattern substituted over the whole evolving string. -/
def replace_human_spellings (s : List Nat) : List Nat :=
  humanReplacements.foldl (fun acc pr => wbReplace pr.1 pr.2 acc) s

/-- The `str.maketrans` confusable table of `_norm_text` (classifier.py:64-68):
visually similar Cyrillic letters mapped onto Latin letters. -/
def translateChar (n : Nat) : Nat :=
  if n = 0x430 then 97        -- а → a
  else if n = 0x432 then 98   -- в → b
  else if n = 0x441 then 99   -- с → c
  else if n = 0x435 then 101  -- е → e
  else if n = 0x43A then 107  -- к → k
  else if n = 0x43C then 109  -- м → m
  else if n = 0x43D then 104  -- н → h
  else if n = 0x43E then 111  -- о → o
  else if n = 0x440 then 112  -- р → p
  else if n = 0x442 then 116  -- т → t
  else if n = 0x443 then 121  -- у → y
  else if n = 0x445 then 120  -- х → x
  else n

/-- `s.replace("ё", "е")` of `_norm_text` (classifier.py:62). -/
def yoRepChar (n : Nat) : Nat := if n = 0x451 then 0x435 else n

/-- `s.replace("×", "x")` of `_norm_text` (classifier.py:70). -/
def timesRepChar (n : Nat) : Nat := if n = 0xD7 then 120 else n

/-- Character class `[\t\r\n]` (classifier.py:69). -/
def isTRN (n : Nat) : Bool := n == 9 || n == 13 || n == 10

/-- Character class `[|/\\]` (classifier.py:71). -/
def isBarSlash (n : Nat) : Bool := n == 124 || n == 47 || n == 92

/-- Character class `[-_]` (classifier.py:72). -/
def isDashU (n : Nat) : Bool := n == 45 || n == 95

/-- `re.sub(cls+, r, s)`: replace every maximal run of characters satisfying
`p` by the fixed string `r`.  `inRun` records whether the previous character
was part of a run (whose replacement has already been emitted). -/
def subRunsGo (p : Nat → Bool) (r : List Nat) : Bool → List Nat → List Nat
  | _, [] => []
  | inRun, c :: t =>
    if p c then
      if inRun then subRunsGo p r true t
      else r ++ subRunsGo p r true t
    else c :: subRunsGo p r false t

/-- `re.sub(cls+, r, s)` whole-string entry point: at the start of the string
no run is open. -/
def subRuns (p : Nat → Bool) (r : List Nat) (s : List Nat) : List Nat :=
  subRunsGo p r false s

/-- Python `str.strip()`: drop whitespace from both ends. -/
def stripWs (s : List Nat) : List Nat :=
  ((s.dropWhile isPySpace).reverse.dropWhile isPySpace).reverse

/-- `_norm_text` (classifier.py:59-74): lowercase, apply the human-spelling
table, fold ё into е, translate confusable Cyrillic letters to Latin, then
collapse `[\t\r\n]+`, `×`, `[|/\\]+`, `[-_]+` and `\s+`, and strip. -/
def norm_text (s : List Nat) : List Nat :=
  stripWs
    (subRuns isPySpace (" ".cp)
      (subRuns isDashU ("-".cp)
        (subRuns isBarSlash (" ".cp)
          ((subRuns isTRN (" ".cp)
            (((replace_human_spellings (pyLower s)).map yoRepChar).map translateChar)).map
            timesRepChar))))

/-- Character class `[a-zа-я0-9]` of `_compact` and `_tokenize`
(classifier.py:79,85). -/
def isTokChar (n : Nat) : Bool :=
  (97 ≤ n && n ≤ 122) || (48 ≤ n && n ≤ 57) || (0x430 ≤ n && n ≤ 0x44F)

/-- Letter class `[a-zа-я]` of the glued-code regex (classifier.py:91). -/
def isLetTok (n : Nat) : Bool :=
  (97 ≤ n && n ≤ 122) || (0x430 ≤ n && n ≤ 0x44F)

/-- ASCII digit class (`\d` of the glued-code regex, on the repertoire the
normalised text can contain). -/
def isDigitCh (n : Nat) : Bool := 48 ≤ n && n ≤ 57

/-- `_compact` (classifier.py:77-79): lowercase and keep only `[a-zа-я0-9]`. -/
def compactText (s : List Nat) : List Nat := (pyLower s).filter isTokChar

/-- `re.findall(r"[a-zа-я0-9]+(?:-[a-zа-я0-9]+)?", s)` (classifier.py:85):
non-overlapping, left-to-right, greedy token matches. -/
def findTokensGo : Nat → List Nat → List (List Nat)
  | _, [] => []
  | 0, _ :: _ => []
  | fuel + 1, c :: t =>
    if isTokChar c then
      let r1 := c :: t.takeWhile isTokChar
      match t.dropWhile isTokChar with
      | d :: u =>
        if d = 45 ∧ (u.takeWhile isTokChar) ≠ [] then
          (r1 ++ [45] ++ u.takeWhile isTokChar) :: findTokensGo fuel (u.dropWhile isTokChar)
        else r1 :: findTokensGo fuel (d :: u)
      | [] => [r1]
    else findTokensGo fuel t

/-- Whole-string token scan (fuel `s.length` always suffices: every step of
the scanner consumes at least one character). -/
def findTokens (s : List Nat) : List (List Nat) := findTokensGo s.length s

/-- `re.findall(r"(?:[a-zа-я]{1,8}\s*\d{2,5}[a-zа-я]{0,4})", s)`
(classifier.py:91), with the spaces of each match already removed as done by
`g.replace(" ", "")` (classifier.py:93).  A match at a position requires the
maximal letter run there to be at most 8 long (a longer run makes every
backtracking attempt hit a further letter instead of a digit). -/
def findGluedGo : Nat → List Nat → List (List Nat)
  | _, [] => []
  | 0, _ :: _ => []
  | fuel + 1, c :: t =>
    if isLetTok c then
      let letters := c :: t.takeWhile isLetTok
      if letters.length ≤ 8 then
        let rest2 := (t.dropWhile isLetTok).dropWhile isPySpace
        let digs := rest2.takeWhile isDigitCh
        if 2 ≤ digs.length then
          let d := digs.take 5
          let rest3 := rest2.drop d.length
          let tailL := (rest3.takeWhile isLetTok).take 4
          (letters ++ d ++ tailL) :: findGluedGo fuel (rest3.drop tailL.length)
        else findGluedGo fuel t
      else findGluedGo fuel t
    else findGluedGo fuel t

/-- Whole-string glued-code scan (fuel `s.length` always suffices). -/
def findGlued (s : List Nat) : List (List Nat) := findGluedGo s.length s

/-- Insert a token into the accumulated token list unless already present
(modelling insertion into the Python `set`, with a deterministic
first-insertion order). -/
def insertUniq (l : List (List Nat)) (x : List Nat) : List (List Nat) :=
  if x ∈ l then l else l ++ [x]

/-- Split a codepoint list on a separator character (Python `str.split(sep)`
semantics: keeps empty chunks). -/
def splitOnChar (c : Nat) : List Nat → List (List Nat)
  | [] => [[]]
  | a :: t =>
    let r := splitOnChar c t
    if a = c then [] :: r
    else
      match r with
      | [] => [[a]]
      | h :: tl => (a :: h) :: tl

/-- `_tokenize` (classifier.py:82-99): normalise, collect regex tokens, add
the compact form of the whole string, add glued letter–digit codes, and add
the hyphen-split parts of every hyphenated token.  The Python function returns
a `set`; it is modelled as a duplicate-free list in first-insertion order. -/
def tokenizeText (s : List Nat) : List (List Nat) :=
  let n := norm_text s
  let base := (findTokens n).foldl insertUniq []
  let cm := compactText n
  let withCompact := if cm = [] then base else insertUniq base cm
  let withGlued := (findGlued n).foldl insertUniq withCompact
  withGlued.foldl
    (fun acc tok =>
      if 45 ∈ tok then ((splitOnChar 45 tok).filter (· ≠ [])).foldl insertUniq acc
      else acc)
    withGlued

/-- Exact prefix test on codepoint lists. -/
def startsWith : List Nat → List Nat → Bool
  | [], _ => true
  | _ :: _, [] => false
  | p :: ps, c :: cs => p == c && startsWith ps cs

/-- Python's substring test `needle in hay` on codepoint lists. -/
def hasSub (needle : List Nat) : List Nat → Bool
  | [] => needle.isEmpty
  | c :: t => startsWith needle (c :: t) || hasSub needle t

/-! ## Classifier data model (classifier.py:39-119) -/

/-- The `match_type` column of `model_aliases` (`token|phrase|regex`). -/
inductive MatchType
  | token
  | phrase
  | regex
deriving DecidableEq

/-- `AliasRow` (classifier.py:39-46). -/
structure AliasRow where
  brand_id : Option Nat
  family_id : Option Nat
  variant_id : Option Nat
  match_type : MatchType
  pattern : List Nat
  weight : Int
deriving DecidableEq

/-- `FamilyRow` (classifier.py:49-57). -/
structure FamilyRow where
  family_id : Nat
  brand_id : Nat
  norm : List Nat
  compact : List Nat
deriving DecidableEq

/-- Association-list lookup, modelling Python `dict.get` (dicts are modelled
as association lists in insertion order). -/
def alook {α β : Type} [DecidableEq α] : List (α × β) → α → Option β
  | [], _ => none
  | (k, v) :: t, x => if k = x then some v else alook t x

/-- The in-memory state a loaded `ModelClassifier` carries
(classifier.py:105-118).  A compiled regex is modelled as its match predicate
on the normalised text (`rx.search(text)` at classifier.py:289). -/
structure ClassifierIndex where
  token_index : List (List Nat × List AliasRow)
  phrase_aliases : List AliasRow
  regex_aliases : List (AliasRow × (List Nat → Bool))
  family_to_brand : List (Nat × Nat)
  variant_to_family : List (Nat × Nat)
  variant_to_brand : List (Nat × Nat)
  brand_norm_to_id : List (List Nat × Nat)
  family_rows : List FamilyRow

/-- `bucket[key] = bucket.get(key, 0) + weight` keeping dict insertion order
(`add_score`, classifier.py:259-261, for a non-null key). -/
def bumpScore : List (Nat × Int) → Nat → Int → List (Nat × Int)
  | [], key, w => [(key, w)]
  | (k, v) :: t, key, w =>
    if k = key then (k, v + w) :: t else (k, v) :: bumpScore t key w

/-- `add_score` (classifier.py:259-261): a `None` key adds nothing. -/
def addScore (b : List (Nat × Int)) (k : Option Nat) (w : Int) : List (Nat × Int) :=
  match k with
  | none => b
  | some key => bumpScore b key w

/-- Python `max(d, key=d.get)`: the first key (in insertion order) holding the
maximal value (classifier.py:293-295). -/
def maxKeyGo (best : Nat × Int) : List (Nat × Int) → Nat
  | [] => best.1
  | (k, v) :: t => if v > best.2 then maxKeyGo (k, v) t else maxKeyGo best t

/-- Arg-max over a score dict; `none` for the empty dict
(classifier.py:293-295 use `if variant_scores else None` etc.). -/
def maxKey : List (Nat × Int) → Option Nat
  | [] => none
  | (k, v) :: t => some (maxKeyGo (k, v) t)

/-- One entry of the `debug["hits"]` list built by `add_hit`
(classifier.py:263-277). -/
structure DebugHit where
  type : MatchType
  pattern : List Nat
  w : Int
  why : List Nat
  brand_id : Option Nat
  family_id : Option Nat
  variant_id : Option Nat
deriving DecidableEq

/-- Build one debug entry from an alias row (`add_hit`, classifier.py:263-277). -/
def mkHit (a : AliasRow) (why : List Nat) : DebugHit :=
  ⟨a.match_type, a.pattern, a.weight, why, a.brand_id, a.family_id, a.variant_id⟩

/-- The three matching loops of `classify` (classifier.py:279-290): token hits
per token of the token set, then phrase hits (non-empty pattern occurring in
the text), then regex hits, in that order. -/
def collectHits (idx : ClassifierIndex) (text : List Nat) (tokens : List (List Nat)) :
    List (AliasRow × List Nat) :=
  (tokens.flatMap fun t => ((alook idx.token_index t).getD []).map (fun a => (a, "token".cp)))
    ++ (idx.phrase_aliases.filter
        (fun a => !a.pattern.isEmpty && hasSub a.pattern text)).map (fun a => (a, "phrase".cp))
    ++ (idx.regex_aliases.filter (fun p => p.2 text)).map (fun p => (p.1, "regex".cp))

/-- `_fallback_brand` (classifier.py:223-230): first canonical brand whose
normalised name is a token, a substring of the text, or whose compact form is
a substring of the compact text. -/
def fallback_brand (dict : List (List Nat × Nat)) (text : List Nat)
    (tokens : List (List Nat)) : Option Nat :=
  match dict with
  | [] => none
  | (bnorm, bid) :: t =>
    if bnorm ∈ tokens ∨ hasSub bnorm text = true ∨
        hasSub (compactText bnorm) (compactText text) = true then some bid
    else fallback_brand t text tokens

/-- `_fallback_family` (classifier.py:232-239): first family row (the loaded
list is pre-sorted by compact length, classifier.py:189) that is consistent
with the brand (if known) and occurs in the text. -/
def fallback_family (rows : List FamilyRow) (text compact_text : List Nat)
    (brand_id : Option Nat) : Option Nat :=
  match rows with
  | [] => none
  | fam :: t =>
    if brand_id.isSome ∧ some fam.brand_id ≠ brand_id then
      fallback_family t text compact_text brand_id
    else if hasSub fam.norm text = true ∨
        (fam.compact ≠ [] ∧ hasSub fam.compact compact_text = true) then
      some fam.family_id
    else fallback_family t text compact_text brand_id

/-- Step 3 of `classify` (classifier.py:299-315): complete and repair the
family/brand from the canonical ancestry of the chosen variant and family.
Returns the new brand, new family, and the `inferred` entries added, in dict
insertion order.  The variant id is never changed. -/
def resolveAncestry (idx : ClassifierIndex) (b f v : Option Nat) :
    Option Nat × Option Nat × List (List Nat × Nat) :=
  let fStep : Option Nat × List (List Nat × Nat) :=
    match v with
    | some vv =>
      match alook idx.variant_to_family vv with
      | some vf =>
        if f ≠ some vf then (some vf, [("family_id_from_variant".cp, vf)]) else (f, [])
      | none => (f, [])
    | none => (f, [])
  let bStep : Option Nat × List (List Nat × Nat) :=
    match v with
    | some vv =>
      match alook idx.variant_to_brand vv with
      | some vb =>
        if b ≠ some vb then (some vb, [("brand_id_from_variant".cp, vb)]) else (b, [])
      | none => (b, [])
    | none => (b, [])
  let bStep2 : Option Nat × List (List Nat × Nat) :=
    match fStep.1 with
    | some ff =>
      match alook idx.family_to_brand ff with
      | some fb =>
        if bStep.1 ≠ some fb then (some fb, [("brand_id_from_family".cp, fb)])
        else (bStep.1, [])
      | none => (bStep.1, [])
    | none => (bStep.1, [])
  (bStep2.1, fStep.1, fStep.2 ++ bStep.2 ++ bStep2.2)

/-- Step 4 of `classify` (classifier.py:317-334): dictionary fallback for a
missing brand and/or family.  Returns the new brand, new family and the
`inferred` entries added. -/
def fallbackFill (idx : ClassifierIndex) (text compact_text : List Nat)
    (tokens : List (List Nat)) (b f : Option Nat) :
    Option Nat × Option Nat × List (List Nat × Nat) :=
  let bStep : Option Nat × List (List Nat × Nat) :=
    match b with
    | none =>
      match fallback_brand idx.brand_norm_to_id text tokens with
      | some fb => (some fb, [("brand_id_from_dictionary".cp, fb)])
      | none => (none, [])
    | some _ => (b, [])
  let fStep : Option Nat × Option Nat × List (List Nat × Nat) :=
    match f with
    | none =>
      match fallback_family idx.family_rows text compact_text bStep.1 with
      | some ffam =>
        match bStep.1 with
        | none =>
          match alook idx.family_to_brand ffam with
          | some fb =>
            (some fb, some ffam,
              [("family_id_from_dictionary".cp, ffam),
               ("brand_id_from_dictionary_family".cp, fb)])
          | none => (none, some ffam, [("family_id_from_dictionary".cp, ffam)])
        | some _ => (bStep.1, some ffam, [("family_id_from_dictionary".cp, ffam)])
      | none => (bStep.1, none, [])
    | some _ => (bStep.1, f, [])
  (fStep.1, fStep.2.1, bStep.2 ++ fStep.2.2)

/-- Key-membership test on the `inferred` dict (`"..." in inferred`). -/
def hasKey (l : List (List Nat × Nat)) (k : List Nat) : Bool := (alook l k).isSome

/-- Stable descending insertion by score (Python `sorted(..., key=value,
reverse=True)` is stable; equal scores keep insertion order). -/
def insertDesc (x : Nat × Int) : List (Nat × Int) → List (Nat × Int)
  | [] => [x]
  | y :: t => if x.2 > y.2 then x :: y :: t else y :: insertDesc x t

/-- `dict(sorted(bucket.items(), key=lambda x: x[1], reverse=True)[:5])`
(classifier.py:369-371). -/
def top5 (l : List (Nat × Int)) : List (Nat × Int) :=
  (l.foldl (fun acc x => insertDesc x acc) []).take 5

/-- The per-scope score tables of the debug payload (classifier.py:368-372). -/
structure ScoreTables where
  brand : List (Nat × Int)
  family : List (Nat × Int)
  variant : List (Nat × Int)
deriving DecidableEq

/-- The `debug` dict of a classification result (classifier.py:251,364-373).
The miss branch (classifier.py:336-339) returns the initial payload, which has
no `scores` entry — modelled with `scores = none`. -/
structure DebugInfo where
  hits : List DebugHit
  scope : List Nat
  inferred : List (List Nat × Nat)
  scores : Option ScoreTables
deriving DecidableEq

/-- A classification result (the dict built at classifier.py:246-252 and
updated at classifier.py:358-375). -/
structure ClassifyResult where
  brand_id : Option Nat
  family_id : Option Nat
  variant_id : Option Nat
  confidence : Int
  debug : DebugInfo
deriving DecidableEq

/-- The initial `best` value (classifier.py:246-252), returned unchanged on a
classification miss. -/
def defaultResult : ClassifyResult :=
  ⟨none, none, none, 0, ⟨[], "none".cp, [], none⟩⟩

/-- Body of `ModelClassifier.classify` (classifier.py:241-386) as a function
of the normalised text (classifier.py:242); the compact text and the token
set are derived from it exactly as in the source. -/
def classifyCore (idx : ClassifierIndex) (text : List Nat) : ClassifyResult :=
  let compact_text := compactText text
  let tokens := tokenizeText text
  let hits := collectHits idx text tokens
  let brand_scores := hits.foldl (fun b h => addScore b h.1.brand_id h.1.weight) []
  let family_scores := hits.foldl (fun b h => addScore b h.1.family_id h.1.weight) []
  let variant_scores := hits.foldl (fun b h => addScore b h.1.variant_id h.1.weight) []
  let debug_hits := hits.map (fun h => mkHit h.1 h.2)
  let variant_id := maxKey variant_scores
  let family_id0 := maxKey family_scores
  let brand_id0 := maxKey brand_scores
  let step3 := resolveAncestry idx brand_id0 family_id0 variant_id
  let step4 := fallbackFill idx text compact_text tokens step3.1 step3.2.1
  let brand_id := step4.1
  let family_id := step4.2.1
  let inferred := step3.2.2 ++ step4.2.2
  if brand_id = none ∧ family_id = none ∧ variant_id = none then defaultResult
  else
    let base0 : Int :=
      match brand_id with
      | some bb => (alook brand_scores bb).getD 0
      | none => 0
    let scopeBase1 : List Nat × Int :=
      match family_id with
      | some ff =>
        ("family".cp,
          max base0 (max ((alook family_scores ff).getD 0)
            (if hasKey inferred ("family_id_from_dictionary".cp) then 3 else 0)))
      | none => ("brand".cp, base0)
    let scopeBase2 : List Nat × Int :=
      match variant_id with
      | some vv => ("variant".cp, max scopeBase1.2 ((alook variant_scores vv).getD 0))
      | none => scopeBase1
    let base3 : Int :=
      if hasKey inferred ("brand_id_from_dictionary".cp) then max scopeBase2.2 2
      else scopeBase2.2
    let base4 : Int :=
      if hasKey inferred ("family_id_from_dictionary".cp) then max base3 3 else base3
    let scope := scopeBase2.1
    let confidence : Int :=
      min 100 (base4 * 5 +
        (if scope = "variant".cp then 10 else if scope = "family".cp then 5 else 0))
    ⟨brand_id, family_id, variant_id, confidence,
      ⟨debug_hits.take 40, scope, inferred,
        some ⟨top5 brand_scores, top5 family_scores, top5 variant_scores⟩⟩⟩

/-- `ModelClassifier.classify` (classifier.py:241-386): normalise
`f"{title or ''} {description or ''}"` and run the core. -/
def classify (idx : ClassifierIndex) (title : List Nat)
    (description : Option (List Nat)) : ClassifyResult :=
  classifyCore idx (norm_text (title ++ " ".cp ++ description.getD []))

/-! ## Page fetcher (client.py:26-185) -/

/-- `_BLOCK_STATUSES` (client.py:42). -/
def blockStatuses : List Nat := [401, 403, 429]

/-- The redirect statuses handled by `fetch_page` (client.py:139). -/
def redirectStatuses : List Nat := [301, 302, 303, 307, 308]

/-- `_BLOCK_REDIRECT_MARKERS` (client.py:31-39). -/
def blockRedirectMarkers : List (List Nat) :=
  [("captcha").cp, ("blocked").cp, ("security").cp, ("check").cp,
   ("verify").cp, ("antibot").cp, ("challenge").cp]

/-- `_USER_AGENT_POOL` (client.py:47-58). -/
def userAgentPool : List (List Nat) :=
  [("Mozilla/5.0 (Windows NT 10.0; Win64; x64) AppleWebKit/537.36 (KHTML, like Gecko) Chrome/133.0.0.0 Safari/537.36").cp,
   ("Mozilla/5.0 (Macintosh; Intel Mac OS X 14_4) AppleWebKit/537.36 (KHTML, like Gecko) Chrome/132.0.0.0 Safari/537.36").cp,
   ("Mozilla/5.0 (X11; Linux x86_64) AppleWebKit/537.36 (KHTML, like Gecko) Chrome/131.0.0.0 Safari/537.36").cp,
   ("Mozilla/5.0 (Windows NT 10.0; Win64; x64; rv:135.0) Gecko/20100101 Firefox/135.0").cp,
   ("Mozilla/5.0 (Macintosh; Intel Mac OS X 13.6; rv:134.0) Gecko/20100101 Firefox/134.0").cp,
   ("Mozilla/5.0 (X11; Linux x86_64; rv:133.0) Gecko/20100101 Firefox/133.0").cp,
   ("Mozilla/5.0 (Macintosh; Intel Mac OS X 14_2) AppleWebKit/605.1.15 (KHTML, like Gecko) Version/18.2 Safari/605.1.15").cp,
   ("Mozilla/5.0 (Windows NT 10.0; Win64; x64) AppleWebKit/537.36 (KHTML, like Gecko) Edg/133.0.3065.69").cp,
   ("Mozilla/5.0 (Windows NT 10.0; Win64; x64) AppleWebKit/537.36 (KHTML, like Gecko) Opera/116.0.5366.71").cp,
   ("Mozilla/5.0 (X11; Linux x86_64) AppleWebKit/537.36 (KHTML, like Gecko) Brave/1.75.181 Chrome/132.0.0.0 Safari/537.36").cp]

/-- The candidate list of `_rotate_user_agent` (client.py:69): every pool
entry different from the current user agent, or the whole pool if that list
is empty. -/
def pickCandidates (current : List Nat) : List (List Nat) :=
  let cands := userAgentPool.filter (fun ua => ua != current)
  if cands.isEmpty then userAgentPool else cands

/-- `_rotate_user_agent` (client.py:61-72).  `random.choice` is modelled by
the function `choice`, assumed (where needed) to pick a member of the list it
is given. -/
def rotate_user_agent (choice : List (List Nat) → List Nat) (current : List Nat) :
    List Nat :=
  choice (pickCandidates current)

/-- The outcome of one `session.get` attempt: a response with status,
`Location` header and body, or a network/timeout error
(`aiohttp.ClientError`/`asyncio.TimeoutError`, client.py:171). -/
inductive FetchOutcome
  | resp (status : Nat) (location : Option (List Nat)) (body : List Nat)
  | netErr
deriving DecidableEq

/-- Observable side effects of one attempt of `fetch_page`: a user-agent
rotation (mutating the session headers) or an `asyncio.sleep`. -/
inductive FetchEv
  | rotated (newUA : List Nat)
  | slept (secs : ℚ)
deriving DecidableEq

/-- The possible terminations of `fetch_page`: the 200 body, the three
`AvitoBlockedError` raise sites (each carrying what the corresponding f-string
carries: client.py:132-134, 160-162, 179-181), the immediate generic failure
(client.py:167) and the trailing unreachable raise (client.py:185). -/
inductive FetchRes
  | success (body : List Nat)
  | blockedStatus (status : Nat) (url : List Nat) (location : Option (List Nat))
  | blockedRedirect (status : Nat) (url : List Nat) (location : List Nat)
  | blockedNet (url : List Nat) (lastStatus : Option Nat) (lastLocation : Option (List Nat))
  | httpError (status : Nat) (url : List Nat)
  | unreachable (url : List Nat) (lastStatus : Option Nat) (lastLocation : Option (List Nat))
deriving DecidableEq

/-- Environment of a `fetch_page` call: the response of each attempt
(`outcomes i` is what attempt `i` receives), the random choice used by
user-agent rotation, the `_jitter` draw of each attempt, the URL and the
keyword parameters (client.py:85-92). -/
structure FetchEnv where
  outcomes : Nat → FetchOutcome
  choice : List (List Nat) → List Nat
  jit : Nat → ℚ
  url : List Nat
  maxTries : Nat
  baseSleep : ℚ
  maxSleep : ℚ

/-- Is the stripped, lowercased `Location` header an anti-bot redirect
(client.py:140-143)? -/
def looksLikeBlockLoc (loc : List Nat) : Bool :=
  blockRedirectMarkers.any (fun m => hasSub m (pyLower (stripWs loc)))

/-- The retry loop of `fetch_page` (client.py:104-185), one fuel unit per
attempt (`attempt` runs over `1..max_tries`).  Returns the result and the
list of side-effect groups, one group per attempt performed. -/
def fetchGo (env : FetchEnv) :
    Nat → Nat → List Nat → Option Nat → Option (List Nat) →
      FetchRes × List (List FetchEv)
  | 0, _, _, lastS, lastL => (.unreachable env.url lastS lastL, [])
  | fuel + 1, attempt, ua, lastS, lastL =>
    match env.outcomes attempt with
    | .netErr =>
      if attempt = env.maxTries then (.blockedNet env.url lastS lastL, [[]])
      else
        let d := min (env.baseSleep * (attempt : ℚ) + env.jit attempt) env.maxSleep
        let r := fetchGo env fuel (attempt + 1) ua lastS lastL
        (r.1, [FetchEv.slept d] :: r.2)
    | .resp status loc _body =>
      if status = 200 then (.success _body, [[]])
      else if status ∈ blockStatuses then
        let newUA := rotate_user_agent env.choice ua
        if attempt = env.maxTries then
          (.blockedStatus status env.url loc, [[FetchEv.rotated newUA]])
        else
          let r := fetchGo env fuel (attempt + 1) newUA (some status) loc
          (r.1, [FetchEv.rotated newUA, FetchEv.slept 60] :: r.2)
      else if status ∈ redirectStatuses then
        let locS := stripWs (loc.getD [])
        if looksLikeBlockLoc (loc.getD []) then
          let newUA := rotate_user_agent env.choice ua
          if attempt = env.maxTries then
            (.blockedRedirect status env.url locS, [[FetchEv.rotated newUA]])
          else
            let r := fetchGo env fuel (attempt + 1) newUA (some status) loc
            (r.1, [FetchEv.rotated newUA, FetchEv.slept 60] :: r.2)
        else
          if attempt = env.maxTries then (.blockedRedirect status env.url locS, [[]])
          else
            let d := min (env.baseSleep * (attempt : ℚ) + env.jit attempt) env.maxSleep
            let r := fetchGo env fuel (attempt + 1) ua (some status) loc
            (r.1, [FetchEv.slept d] :: r.2)
      else (.httpError status env.url, [[]])

/-- `fetch_page` (client.py:85-185): run the attempt loop from attempt 1 with
the session's initial user agent and no last status/location. -/
def fetch_page (env : FetchEnv) (initialUA : List Nat) :
    FetchRes × List (List FetchEv) :=
  fetchGo env env.maxTries 1 initialUA none none

/-! ## Card extractor (parser.py) -/

/-- `_norm` (parser.py:179-180): `" ".join(s.split())`, i.e. collapse every
whitespace run to a single space and trim the ends. -/
def norm_join (s : List Nat) : List Nat := stripWs (subRuns isPySpace (" ".cp) s)

/-- One `div[data-marker='item'][data-item-id]` card as the extractor sees it
through its xpath probes (parser.py:36-60, 141-164): the `data-item-id`
attribute, the text contents of the `itemprop=name` nodes, all link `href`s,
the machine-readable price `content` attributes, the price display texts, the
location/address texts and the description attribute/texts. -/
structure CardNode where
  dataItemId : Option (List Nat)
  nameTexts : List (List Nat)
  hrefs : List (List Nat)
  priceMeta : List (List Nat)
  priceTexts : List (List Nat)
  locationTexts : List (List Nat)
  addressTexts : List (List Nat)
  descContent : List (List Nat)
  descTexts : List (List Nat)
deriving DecidableEq

/-- The free-form metadata map built at parser.py:70-75. -/
structure RawMeta where
  delivery_text : Option (List Nat)
  delivery_only : Bool
  delivery_available : Bool
deriving DecidableEq

/-- `ParsedCard` (parser.py:20-31); `src` is always `"catalog"` and
`status` always `"active"`, so they are left out of the model. -/
structure ParsedCard where
  external_id : Option (List Nat)
  url : List Nat
  title : List Nat
  price : Option Int
  city : Option (List Nat)
  description : Option (List Nat)
  raw : RawMeta
deriving DecidableEq

/-- `_first_text` (parser.py:167-176): the first node, or `None` for an empty
node list (nodes are modelled by their text). -/
def firstText (nodes : List (List Nat)) : Option (List Nat) := nodes.head?

/-- Python `a or b` on an optional string: `b` when `a` is `None` or empty. -/
def orStr (a b : Option (List Nat)) : Option (List Nat) :=
  match a with
  | some s => if s = [] then b else some s
  | none => b

/-- Python `int(s)` on a decimal string: strip, optional sign, digits only;
`None` models a raised `ValueError` (parser.py:143-146).  (The rarely-used
underscore digit grouping of Python's `int` is not modelled.) -/
def pyParseInt (s : List Nat) : Option Int :=
  let t := stripWs s
  match t with
  | [] => none
  | c :: r =>
    let signed : Bool × List Nat :=
      if c = 45 then (true, r) else if c = 43 then (false, r) else (false, c :: r)
    if signed.2 ≠ [] ∧ signed.2.all isDigitCh then
      some ((if signed.1 then -1 else 1) *
        (signed.2.foldl (fun a d => a * 10 + (d - 48)) 0 : Nat))
    else none

/-- `_extract_price` (parser.py:140-152). -/
def extract_price (card : CardNode) : Option Int :=
  let fromText : Option Int :=
    match firstText card.priceTexts with
    | none => none
    | some t =>
      if t = [] then none
      else
        let digits := t.filter isDigitCh
        if digits = [] then none
        else some ((digits.foldl (fun a d => a * 10 + (d - 48)) 0 : Nat) : Int)
  match card.priceMeta with
  | m :: _ =>
    match pyParseInt m with
    | some v => some v
    | none => fromText
  | [] => fromText

/-- `h.split("?")[0]` (parser.py:160,163). -/
def beforeQm (h : List Nat) : List Nat := h.takeWhile (fun c => c != 63)

/-- `_extract_url` (parser.py:155-164): prefer a root-relative link containing
the item id, then any root-relative link, then the bare site root. -/
def extract_url (hrefs : List (List Nat)) (itemId : Option (List Nat)) : List Nat :=
  let anyRel : List Nat :=
    match hrefs.find? (fun h => startsWith ("/".cp) h) with
    | some h => ("https://www.avito.ru").cp ++ beforeQm h
    | none => ("https://www.avito.ru").cp
  match itemId with
  | some i =>
    match hrefs.find? (fun h => startsWith ("/".cp) h && hasSub i h) with
    | some h => ("https://www.avito.ru").cp ++ beforeQm h
    | none => anyRel
  | none => anyRel

/-- First position of `needle` in `hay` (Python `str.find`). -/
def findPosGo (needle : List Nat) : Nat → List Nat → Option Nat
  | i, [] => if needle.isEmpty then some i else none
  | i, c :: t => if startsWith needle (c :: t) then some i else findPosGo needle (i + 1) t

/-- Python `hay.find(needle)` as an optional index. -/
def findPos (needle hay : List Nat) : Option Nat := findPosGo needle 0 hay

/-- `html.unescape`, modelled for the entity subset the embedded-payload
fallback relies on (`&amp;`, `&quot;`, `&lt;`, `&gt;`, `&#34;`, `&#39;`;
parser.py:113-116 double-unescapes `&amp;quot;` into `"`).  Fuel is the input
length; every step consumes at least one character. -/
def htmlUnescapeGo : Nat → List Nat → List Nat
  | _, [] => []
  | 0, l => l
  | fuel + 1, c :: t =>
    if startsWith ("&amp;".cp) (c :: t) then 38 :: htmlUnescapeGo fuel ((c :: t).drop 5)
    else if startsWith ("&quot;".cp) (c :: t) then 34 :: htmlUnescapeGo fuel ((c :: t).drop 6)
    else if startsWith ("&lt;".cp) (c :: t) then 60 :: htmlUnescapeGo fuel ((c :: t).drop 4)
    else if startsWith ("&gt;".cp) (c :: t) then 62 :: htmlUnescapeGo fuel ((c :: t).drop 4)
    else if startsWith ("&#34;".cp) (c :: t) then 34 :: htmlUnescapeGo fuel ((c :: t).drop 5)
    else if startsWith ("&#39;".cp) (c :: t) then 39 :: htmlUnescapeGo fuel ((c :: t).drop 5)
    else c :: htmlUnescapeGo fuel t

/-- Whole-string entity unescape. -/
def htmlUnescape (s : List Nat) : List Nat := htmlUnescapeGo s.length s

/-- Body capture of `_DESC_RE` (parser.py:13): characters up to the first
unescaped quote, where a backslash escapes the following character
(`(?:\\.|[^"\\])*`, with `re.DOTALL`); `none` when the quote never closes. -/
def descCapture : List Nat → Option (List Nat)
  | [] => none
  | 34 :: _ => some []
  | 92 :: d :: u => (descCapture u).map (fun rest => 92 :: d :: rest)
  | [92] => none
  | c :: t => (descCapture t).map (fun rest => c :: rest)

/-- Match of `_DESC_RE` anchored at the head: literal `"description"`, then
`\s*:\s*`, then a quoted body. -/
def matchDescAt (s : List Nat) : Option (List Nat) :=
  if startsWith ("\x22description\x22".cp) s then
    let r1 := (s.drop 13).dropWhile isPySpace
    match r1 with
    | 58 :: r2 =>
      match (r2.dropWhile isPySpace) with
      | 34 :: r3 => descCapture r3
      | _ => none
    | _ => none
  else none

/-- `_DESC_RE.search` (parser.py:119): first position where the description
pattern matches. -/
def descSearchGo : Nat → List Nat → Option (List Nat)
  | _, [] => none
  | 0, _ => none
  | fuel + 1, c :: t =>
    match matchDescAt (c :: t) with
    | some b => some b
    | none => descSearchGo fuel t

/-- Search entry point. -/
def descSearch (s : List Nat) : Option (List Nat) := descSearchGo s.length s

/-- Value of an ASCII hex digit. -/
def hexVal (c : Nat) : Option Nat :=
  if 48 ≤ c ∧ c ≤ 57 then some (c - 48)
  else if 65 ≤ c ∧ c ≤ 70 then some (c - 55)
  else if 97 ≤ c ∧ c ≤ 102 then some (c - 87)
  else none

/-- `bytes(desc, "utf-8").decode("unicode_escape")` (parser.py:125), modelled
for the escape sequences that occur in the embedded payload (`\n`, `\t`,
`\r`, `\\`, `\"`, `\'`, `\uXXXX`); other text is kept unchanged.  (The
latin-1 reinterpretation Python applies to non-ASCII bytes is not modelled;
no claim depends on the decoded value.) -/
def unicodeEscapeGo : Nat → List Nat → List Nat
  | _, [] => []
  | 0, l => l
  | fuel + 1, c :: t =>
    if c = 92 then
      match t with
      | 110 :: u => 10 :: unicodeEscapeGo fuel u
      | 116 :: u => 9 :: unicodeEscapeGo fuel u
      | 114 :: u => 13 :: unicodeEscapeGo fuel u
      | 92 :: u => 92 :: unicodeEscapeGo fuel u
      | 34 :: u => 34 :: unicodeEscapeGo fuel u
      | 39 :: u => 39 :: unicodeEscapeGo fuel u
      | 117 :: a :: b :: d :: e :: u =>
        match hexVal a, hexVal b, hexVal d, hexVal e with
        | some x, some y, some z, some w =>
          (((x * 16 + y) * 16 + z) * 16 + w) :: unicodeEscapeGo fuel u
        | _, _, _, _ => 92 :: unicodeEscapeGo fuel t
      | _ => 92 :: unicodeEscapeGo fuel t
    else c :: unicodeEscapeGo fuel t

/-- Unicode-escape decoding entry point. -/
def unicodeEscape (s : List Nat) : List Nat := unicodeEscapeGo s.length s

/-- Match of `_DELIVERY_TEXT_RE` (parser.py:16) anchored at the head:
case-insensitive `Доставка`, then up to 80 characters other than `"` and
`<`. The matched text keeps the original casing. -/
def deliveryAt (s : List Nat) : Option (List Nat) :=
  if matchLower ("доставка".cp) s then
    some (s.take 8 ++ ((s.drop 8).takeWhile (fun c => c != 34 && c != 60)).take 80)
  else none

/-- `_DELIVERY_TEXT_RE.search` (parser.py:132). -/
def deliverySearchGo : Nat → List Nat → Option (List Nat)
  | _, [] => none
  | 0, _ => none
  | fuel + 1, c :: t =>
    match deliveryAt (c :: t) with
    | some m => some m
    | none => deliverySearchGo fuel t

/-- Search entry point for the delivery text. -/
def deliverySearch (s : List Nat) : Option (List Nat) := deliverySearchGo s.length s

/-- Match of `_ONLY_DELIVERY_RE` (parser.py:17) anchored at the head:
case-insensitive `Только`, one or more whitespace characters, `доставка`. -/
def onlyDeliveryAt (s : List Nat) : Bool :=
  matchLower ("только".cp) s &&
    (let r := s.drop 6
     !(r.takeWhile isPySpace).isEmpty &&
       matchLower ("доставка".cp) (r.dropWhile isPySpace))

/-- `_ONLY_DELIVERY_RE.search` as a Boolean (parser.py:136). -/
def onlyDeliveryScanGo : Nat → List Nat → Bool
  | _, [] => false
  | 0, _ => false
  | fuel + 1, c :: t => onlyDeliveryAt (c :: t) || onlyDeliveryScanGo fuel t

/-- Scan entry point for the delivery-only marker. -/
def onlyDeliveryScan (s : List Nat) : Bool := onlyDeliveryScanGo s.length s

/-- `_norm(x) or None`: normalise and turn an empty result into `None`. -/
def normOrNone (s : List Nat) : Option (List Nat) :=
  let n := norm_join s
  if n = [] then none else some n

/-- `_extract_embedded_by_item_id` (parser.py:94-137): find the item id in
the raw document, slice a ±12000-character window around it, double-unescape
it, and pull out the embedded description, the delivery text (matched against
the raw window) and the delivery-only marker (matched against the unescaped
window). -/
def extract_embedded (html : List Nat) (itemId : Option (List Nat)) :
    Option (List Nat) × Option (List Nat) × Bool :=
  match itemId with
  | none => (none, none, false)
  | some i =>
    match findPos i html with
    | none => (none, none, false)
    | some pos =>
      let w := (html.take (min html.length (pos + 12000))).drop (pos - 12000)
      let wu := htmlUnescape (htmlUnescape w)
      let desc : Option (List Nat) :=
        match descSearch wu with
        | some raw => normOrNone (unicodeEscape raw)
        | none => none
      let dtext : Option (List Nat) :=
        match deliverySearch w with
        | some m => normOrNone m
        | none => none
      (desc, dtext, onlyDeliveryScan wu)

/-- The per-card body of the extraction loop (parser.py:39-90). -/
def extractCard (html : List Nat) (c : CardNode) : ParsedCard :=
  let itemId : Option (List Nat) :=
    let s := stripWs ((c.dataItemId).getD [])
    if s = [] then none else some s
  let title0 := norm_join ((firstText c.nameTexts).getD [])
  let title := if title0 = [] then stripWs (("Avito item ").cp ++ itemId.getD []) else title0
  let url := extract_url c.hrefs itemId
  let price := extract_price c
  let city : Option (List Nat) :=
    match orStr (firstText c.locationTexts) (firstText c.addressTexts) with
    | some s => if s = [] then none else some (norm_join s)
    | none => none
  let descAttr : Option (List Nat) :=
    match c.descContent with
    | v :: _ => some (norm_join v)
    | [] => none
  let descDom : Option (List Nat) :=
    match descAttr with
    | some s => if s = [] then normOrNone ((firstText c.descTexts).getD []) else some s
    | none => normOrNone ((firstText c.descTexts).getD [])
  let emb := extract_embedded html itemId
  let description : Option (List Nat) :=
    match descDom with
    | some s => some s
    | none => emb.1
  let delivery_available := emb.2.1.isSome || emb.2.2
  ⟨itemId, url, title, price, city, description,
    ⟨emb.2.1, emb.2.2, delivery_available⟩⟩

/-- The DOM layer of `parse_catalog_page` (parser.py:35-36): `lxml`'s
`html.fromstring` followed by the card xpath.  It is modelled as an oracle
from the document text to the card nodes; `none` models a raised
`lxml.etree.ParserError` — in particular `html.fromstring` raises
`ParserError("Document is empty")` on an empty or whitespace-only document. -/
def DomOracle : Type := List Nat → Option (List CardNode)

/-- A raised parser error (`parse_catalog_page` has no exception handler, so
it propagates). -/
inductive ParseFail
  | docError
deriving DecidableEq

instance {ε α : Type} [DecidableEq ε] [DecidableEq α] : DecidableEq (Except ε α) :=
  fun a b =>
    match a, b with
    | .ok x, .ok y =>
      if h : x = y then .isTrue (by rw [h]) else .isFalse (by simp [h])
    | .error x, .error y =>
      if h : x = y then .isTrue (by rw [h]) else .isFalse (by simp [h])
    | .ok _, .error _ => .isFalse (by simp)
    | .error _, .ok _ => .isFalse (by simp)

/-- `parse_catalog_page` (parser.py:34-91) over a DOM oracle. -/
def parse_catalog_page (dom : DomOracle) (html : List Nat) :
    Except ParseFail (List ParsedCard) :=
  match dom html with
  | none => .error .docError
  | some cards => .ok (cards.map (extractCard html))

/-! ## Crawler (client.py:188-353) -/

/-- `_looks_like_protection` marker list (client.py:266-277). -/
def protectionMarkers : List (List Nat) :=
  [("captcha").cp, ("recaptcha").cp, ("hcaptcha").cp,
   ("проверка безопасности").cp, ("подтвердите, что вы человек").cp,
   ("мы обнаружили подозрительную активность").cp, ("доступ ограничен").cp,
   ("robot check").cp, ("anti-bot").cp, ("проверка на робота").cp]

/-- `AvitoClient._looks_like_protection` (client.py:260-278). -/
def looks_like_protection (html : List Nat) : Bool :=
  protectionMarkers.any (fun m => hasSub m (pyLower html))

/-- `_looks_like_empty_results` marker list (client.py:286-292). -/
def emptyMarkers : List (List Nat) :=
  [("ничего не найдено").cp, ("по вашему запросу ничего не найдено").cp,
   ("объявлений не найдено").cp, ("нет объявлений").cp,
   ("попробуйте изменить параметры поиска").cp]

/-- `AvitoClient._looks_like_empty_results` (client.py:280-293). -/
def looks_like_empty_results (html : List Nat) : Bool :=
  emptyMarkers.any (fun m => hasSub m (pyLower html))

/-- Environment of one `fetch_pages` sweep: the configured page limit, the
outcome of `fetch_page` for each page number (either the body, or the raised
`AvitoBlockedError`/HTTP failure), and the DOM oracle used by the card
extractor. -/
structure CrawlEnv where
  maxPages : Nat
  fetchBody : Nat → Except FetchRes (List Nat)
  dom : DomOracle

/-- The ways `fetch_pages` can terminate with an exception: a fetch failure
propagated from `fetch_page`, the protection check (client.py:335-337), or a
parse error propagated from `parse_catalog_page`. -/
inductive CrawlErr
  | fetchError (page : Nat) (e : FetchRes)
  | protectionDetected (page : Nat)
  | parseError (page : Nat)
deriving DecidableEq

/-- The page loop of `AvitoClient.fetch_pages` (client.py:321-352), one fuel
unit per page (`p` runs over `1..max_pages`).  Returns the outcome together
with the list of page numbers actually fetched.  The inter-page
`asyncio.sleep` (client.py:348-350) is timing only and is not modelled. -/
def fetchPagesGo (env : CrawlEnv) :
    Nat → Nat → List (List ParsedCard) →
      Except CrawlErr (List (List ParsedCard)) × List Nat
  | 0, _, acc => (.ok acc, [])
  | fuel + 1, p, acc =>
    match env.fetchBody p with
    | .error e => (.error (.fetchError p e), [p])
    | .ok html =>
      if looks_like_protection html then (.error (.protectionDetected p), [p])
      else
        match parse_catalog_page env.dom html with
        | .error _ => (.error (.parseError p), [p])
        | .ok cards =>
          if cards.isEmpty then (.ok acc, [p])
          else
            let r := fetchPagesGo env fuel (p + 1) (acc ++ [cards])
            (r.1, p :: r.2)

/-- `AvitoClient.fetch_pages` (client.py:321-352). -/
def fetch_pages (env : CrawlEnv) :
    Except CrawlErr (List (List ParsedCard)) × List Nat :=
  fetchPagesGo env env.maxPages 1 []

/-! ## URL building (client.py:217-221 and the CPython `urllib.parse`
functions it calls) -/

/-- The result of `urllib.parse.urlsplit` (scheme, netloc, path, query,
fragment). -/
structure SplitUrl where
  scheme : List Nat
  netloc : List Nat
  path : List Nat
  query : List Nat
  fragment : List Nat
deriving DecidableEq

/-- Characters allowed in a URL scheme after the first (letters, digits,
`+`, `-`, `.`). -/
def isSchemeChar (c : Nat) : Bool :=
  (65 ≤ c && c ≤ 90) || (97 ≤ c && c ≤ 122) || (48 ≤ c && c ≤ 57) ||
    c == 43 || c == 45 || c == 46

/-- ASCII letter test (`str.isalpha` on the ASCII range, as `urlsplit`
requires of a scheme's first character). -/
def isAsciiAlpha (c : Nat) : Bool := (65 ≤ c && c ≤ 90) || (97 ≤ c && c ≤ 122)

/-- Split at the first occurrence of a character: `(before, after)`; `none`
when absent. -/
def splitFirst (c : Nat) (s : List Nat) : Option (List Nat × List Nat) :=
  if s.contains c then
    some (s.takeWhile (fun x => x != c), ((s.dropWhile (fun x => x != c)).drop 1))
  else none

/-- `urllib.parse.urlsplit`: remove the unsafe bytes (tab, CR, LF), detect a
scheme (lowercased), then a `//`-netloc (up to the first `/`, `?` or `#`),
then split off the fragment at the first `#` and the query at the first `?`. -/
def urlsplitCp (url : List Nat) : SplitUrl :=
  let u := url.filter (fun c => c != 9 && c != 10 && c != 13)
  let schemeSplit : List Nat × List Nat :=
    match splitFirst 58 u with
    | some (before, after) =>
      match before with
      | [] => ([], u)
      | c0 :: _ =>
        if isAsciiAlpha c0 && before.all isSchemeChar then (pyLower before, after)
        else ([], u)
    | none => ([], u)
  let rest := schemeSplit.2
  let netlocSplit : List Nat × List Nat :=
    if startsWith ("//".cp) rest then
      let r := rest.drop 2
      (r.takeWhile (fun c => c != 47 && c != 63 && c != 35),
       r.dropWhile (fun c => c != 47 && c != 63 && c != 35))
    else ([], rest)
  let fragSplit : List Nat × List Nat :=
    match splitFirst 35 netlocSplit.2 with
    | some (a, b) => (a, b)
    | none => (netlocSplit.2, [])
  let querySplit : List Nat × List Nat :=
    match splitFirst 63 fragSplit.1 with
    | some (a, b) => (a, b)
    | none => (fragSplit.1, [])
  ⟨schemeSplit.1, netlocSplit.1, querySplit.1, querySplit.2, fragSplit.2⟩

/-- `urllib.parse.urlunsplit`. -/
def urlunsplitCp (p : SplitUrl) : List Nat :=
  let url0 := p.path
  let url1 :=
    if p.netloc ≠ [] ∨ startsWith ("//".cp) url0 = true then
      ("//".cp) ++ p.netloc ++
        (if url0 ≠ [] ∧ startsWith ("/".cp) url0 = false then ("/".cp) ++ url0 else url0)
    else url0
  let url2 := if p.scheme ≠ [] then p.scheme ++ [58] ++ url1 else url1
  let url3 := if p.query ≠ [] then url2 ++ [63] ++ p.query else url2
  if p.fragment ≠ [] then url3 ++ [35] ++ p.fragment else url3

/-- The fragment/query stage of `urlsplit` applied to the part following the
authority: split off the fragment at the first `#`, then the query at the
first `?`; returns `(path, query, fragment)`. -/
def urlsplitTail (rest : List Nat) : List Nat × List Nat × List Nat :=
  let fragSplit : List Nat × List Nat :=
    match splitFirst 35 rest with
    | some (a, b) => (a, b)
    | none => (rest, [])
  let querySplit : List Nat × List Nat :=
    match splitFirst 63 fragSplit.1 with
    | some (a, b) => (a, b)
    | none => (fragSplit.1, [])
  (querySplit.1, querySplit.2, fragSplit.2)

/-- The characters `quote` never escapes with the default `safe` set:
ASCII alphanumerics and `_.-~`. -/
def isUnreserved (c : Nat) : Bool :=
  (65 ≤ c && c ≤ 90) || (97 ≤ c && c ≤ 122) || (48 ≤ c && c ≤ 57) ||
    c == 95 || c == 46 || c == 45 || c == 126

/-- UTF-8 encoding of one codepoint. -/
def utf8Encode (c : Nat) : List Nat :=
  if c < 0x80 then [c]
  else if c < 0x800 then [0xC0 + c / 64, 0x80 + c % 64]
  else if c < 0x10000 then [0xE0 + c / 4096, 0x80 + c / 64 % 64, 0x80 + c % 64]
  else [0xF0 + c / 0x40000, 0x80 + c / 0x1000 % 64, 0x80 + c / 64 % 64, 0x80 + c % 64]

/-- Uppercase hex digit of a value below 16. -/
def hexDigit (n : Nat) : Nat := if n < 10 then 48 + n else 55 + n

/-- `urllib.parse.quote_plus` on one character: unreserved characters are
kept, a space becomes `+`, anything else is percent-encoded per UTF-8 byte. -/
def quotePlusChar (c : Nat) : List Nat :=
  if isUnreserved c then [c]
  else if c = 32 then [43]
  else (utf8Encode c).flatMap (fun b => [37, hexDigit (b / 16), hexDigit (b % 16)])

/-- `urllib.parse.quote_plus` on a string. -/
def quotePlus (s : List Nat) : List Nat := s.flatMap quotePlusChar

/-- Is a byte a UTF-8 continuation byte? -/
def isCont (b : Nat) : Bool := 0x80 ≤ b && b ≤ 0xBF

/-- One UTF-8 decoding step for a `C0-DF` lead byte: `(codepoint, rest)`,
with U+FFFD replacement on a malformed sequence. -/
def utf8More1 (b0 : Nat) (t : List Nat) : Nat × List Nat :=
  match t with
  | b1 :: t1 =>
    if isCont b1 ∧ 0x80 ≤ (b0 - 0xC0) * 64 + (b1 - 0x80) then
      ((b0 - 0xC0) * 64 + (b1 - 0x80), t1)
    else (0xFFFD, b1 :: t1)
  | [] => (0xFFFD, [])

/-- One UTF-8 decoding step for an `E0-EF` lead byte. -/
def utf8More2 (b0 : Nat) (t : List Nat) : Nat × List Nat :=
  match t with
  | b1 :: b2 :: t2 =>
    if isCont b1 ∧ isCont b2 ∧
        0x800 ≤ (b0 - 0xE0) * 4096 + (b1 - 0x80) * 64 + (b2 - 0x80) ∧
        ¬(0xD800 ≤ (b0 - 0xE0) * 4096 + (b1 - 0x80) * 64 + (b2 - 0x80) ∧
          (b0 - 0xE0) * 4096 + (b1 - 0x80) * 64 + (b2 - 0x80) ≤ 0xDFFF) then
      ((b0 - 0xE0) * 4096 + (b1 - 0x80) * 64 + (b2 - 0x80), t2)
    else (0xFFFD, b1 :: b2 :: t2)
  | l => (0xFFFD, l)

/-- One UTF-8 decoding step for an `F0-F7` lead byte. -/
def utf8More3 (b0 : Nat) (t : List Nat) : Nat × List Nat :=
  match t with
  | b1 :: b2 :: b3 :: t3 =>
    if isCont b1 ∧ isCont b2 ∧ isCont b3 ∧
        0x10000 ≤ (b0 - 0xF0) * 0x40000 + (b1 - 0x80) * 0x1000 +
          (b2 - 0x80) * 64 + (b3 - 0x80) ∧
        (b0 - 0xF0) * 0x40000 + (b1 - 0x80) * 0x1000 +
          (b2 - 0x80) * 64 + (b3 - 0x80) ≤ 0x10FFFF then
      ((b0 - 0xF0) * 0x40000 + (b1 - 0x80) * 0x1000 +
        (b2 - 0x80) * 64 + (b3 - 0x80), t3)
    else (0xFFFD, b1 :: b2 :: b3 :: t3)
  | l => (0xFFFD, l)

/-- One UTF-8 decoding step: classify the lead byte and consume its
continuation bytes, with U+FFFD replacement on malformed input. -/
def utf8Step (b0 : Nat) (t : List Nat) : Nat × List Nat :=
  if b0 < 0x80 then (b0, t)
  else if 0xC0 ≤ b0 ∧ b0 ≤ 0xDF then utf8More1 b0 t
  else if 0xE0 ≤ b0 ∧ b0 ≤ 0xEF then utf8More2 b0 t
  else if 0xF0 ≤ b0 ∧ b0 ≤ 0xF7 then utf8More3 b0 t
  else (0xFFFD, t)

/-- The decoding loop; every step consumes at least the lead byte, so fuel
equal to the byte count suffices. -/
def utf8DecodeGo : Nat → List Nat → List Nat
  | _, [] => []
  | 0, _ => []
  | fuel + 1, b0 :: t =>
    (utf8Step b0 t).1 :: utf8DecodeGo fuel (utf8Step b0 t).2

/-- UTF-8 decoding with U+FFFD replacement on malformed sequences (Python's
`errors="replace"`; the exact replacement-character count on a malformed run
may differ from CPython, which no claim depends on). -/
def utf8Decode (s : List Nat) : List Nat := utf8DecodeGo s.length s

/-- Percent-decoding scanner: a `%` followed by two hex digits becomes a
byte, everything else stays a character. -/
def unquoteTokens : List Nat → List (Sum Nat Nat)
  | [] => []
  | 37 :: a :: b :: t =>
    match hexVal a, hexVal b with
    | some x, some y => .inr (16 * x + y) :: unquoteTokens t
    | _, _ => .inl 37 :: unquoteTokens (a :: b :: t)
  | c :: t => .inl c :: unquoteTokens t

/-- Decode the token stream: maximal byte runs are decoded as UTF-8 (the
`pend` accumulator holds the current run). -/
def decodeTokensGo (pend : List Nat) : List (Sum Nat Nat) → List Nat
  | [] => utf8Decode pend
  | .inl c :: t => utf8Decode pend ++ c :: decodeTokensGo [] t
  | .inr b :: t => decodeTokensGo (pend ++ [b]) t

/-- `urllib.parse.unquote_plus`: `+` to space, then percent-decode. -/
def unquotePlus (s : List Nat) : List Nat :=
  decodeTokensGo [] (unquoteTokens (s.map (fun c => if c = 43 then 32 else c)))

/-- `urllib.parse.parse_qsl(qs, keep_blank_values=True)`: split on `&`,
skip empty chunks, split each chunk at its first `=` (a chunk with no `=`
keeps a blank value), and unquote names and values. -/
def parse_qsl (qs : List Nat) : List (List Nat × List Nat) :=
  (splitOnChar 38 qs).flatMap fun chunk =>
    if chunk = [] then []
    else
      match splitFirst 61 chunk with
      | some (k, v) => [(unquotePlus k, unquotePlus v)]
      | none => [(unquotePlus chunk, [])]

/-- Insert-or-update on an association list, keeping first-occurrence key
order (Python `dict` update semantics). -/
def upsertAssoc : List (List Nat × List Nat) → List Nat → List Nat →
    List (List Nat × List Nat)
  | [], k, v => [(k, v)]
  | (k0, v0) :: t, k, v =>
    if k0 = k then (k0, v) :: t else (k0, v0) :: upsertAssoc t k v

/-- `dict(pairs)`: first-occurrence key order, last value wins. -/
def dictOfPairs (l : List (List Nat × List Nat)) : List (List Nat × List Nat) :=
  l.foldl (fun acc p => upsertAssoc acc p.1 p.2) []

/-- `urllib.parse.urlencode(q, doseq=True)` on string values. -/
def urlencodeCp (pairs : List (List Nat × List Nat)) : List Nat :=
  List.intercalate [38] (pairs.map (fun p => quotePlus p.1 ++ [61] ++ quotePlus p.2))

/-- `str(page)` for a natural page number. -/
def natDigitsGo : Nat → Nat → List Nat
  | 0, _ => []
  | fuel + 1, n => if n < 10 then [48 + n] else natDigitsGo fuel (n / 10) ++ [48 + n % 10]

/-- Decimal digits of a natural number. -/
def natDigits (n : Nat) : List Nat := natDigitsGo (n + 1) n

/-- `AvitoClient.build_category_url` (client.py:217-221). -/
def build_category_url (category_url : List Nat) (page : Nat) : List Nat :=
  let parts := urlsplitCp (stripWs category_url)
  let q := dictOfPairs (parse_qsl parts.query)
  let q2 := upsertAssoc q ("p".cp) (natDigits page)
  urlunsplitCp ⟨parts.scheme, parts.netloc, parts.path, urlencodeCp q2, parts.fragment⟩

/-! ## Predicates and fixtures used by the verification -/

/-- Characters that every `_norm_text` output consists of: fixed under
lowercasing, not `ё`, fixed under the confusable translation, no tab/CR/LF,
not `×`, not a bar/slash, not underscore, and whitespace only as a plain
space. -/
def goodChar (n : Nat) : Bool :=
  (pyLowerChar n == n) && (n != 0x451) && (translateChar n == n) &&
    !(isTRN n) && (n != 0xD7) && !(isBarSlash n) && (n != 95) &&
    (!(isPySpace n) || n == 32)

/-- No two adjacent characters of the list both satisfy `p`. -/
def noTwoAdj (p : Nat → Bool) (l : List Nat) : Prop :=
  List.Chain' (fun a b => ¬(p a = true ∧ p b = true)) l

/-- Titles that are identical except that one side may use a visually
confusable Cyrillic letter where the other uses the Latin lookalike the
classifier's translation table maps it to. -/
def confusablyEqualB : List Nat → List Nat → Bool
  | [], [] => true
  | a :: s, b :: t =>
    (a == b ||
      (translateChar (pyLowerChar a) != pyLowerChar a &&
        translateChar (pyLowerChar a) == pyLowerChar b)) &&
      confusablyEqualB s t
  | _, _ => false

/-- Outcomes `fetch_page` retries on: a hard-block status, any 3xx it
handles, or a network error. -/
def retryable : FetchOutcome → Bool
  | .resp s _ _ => blockStatuses.contains s || redirectStatuses.contains s
  | .netErr => true

/-- Did `fetch_page` end in one of its `AvitoBlockedError` raise sites? -/
def isBlockedRes : FetchRes → Bool
  | .blockedStatus _ _ _ => true
  | .blockedRedirect _ _ _ => true
  | .blockedNet _ _ _ => true
  | .unreachable _ _ _ => true
  | _ => false

/-- Does an attempt's side-effect group contain a sleep? -/
def hasSleep (g : List FetchEv) : Bool :=
  g.any (fun e => match e with | .slept _ => true | _ => false)

/-- Does a `fetch_page` termination model a raised exception (anything but
the 200 return)? -/
def raisesB : FetchRes → Bool
  | .success _ => false
  | _ => true

/-- A value a Python `str` character can take (a Unicode scalar value;
surrogates excluded). -/
def validCp (c : Nat) : Prop := c < 0x110000 ∧ ¬(0xD800 ≤ c ∧ c ≤ 0xDFFF)

instance (c : Nat) : Decidable (validCp c) :=
  inferInstanceAs (Decidable (c < 0x110000 ∧ ¬(0xD800 ≤ c ∧ c ≤ 0xDFFF)))

/-- Well-formedness of a split URL under which `urlsplit` inverts
`urlunsplit`: a lowercase http(s) scheme, a non-empty netloc free of
delimiters, a path that is empty or root-relative and free of `?`/`#`, a
query free of `#`, no tab/CR/LF anywhere, and query characters that are
Unicode scalar values. -/
def wfUrl (u : SplitUrl) : Prop :=
  (u.scheme = ("http").cp ∨ u.scheme = ("https").cp) ∧
  u.netloc ≠ [] ∧
  (∀ c ∈ u.netloc, c ≠ 47 ∧ c ≠ 63 ∧ c ≠ 35 ∧ c ≠ 9 ∧ c ≠ 10 ∧ c ≠ 13) ∧
  (u.path = [] ∨ startsWith ("/".cp) u.path = true) ∧
  (∀ c ∈ u.path, c ≠ 63 ∧ c ≠ 35 ∧ c ≠ 9 ∧ c ≠ 10 ∧ c ≠ 13) ∧
  (∀ c ∈ u.query, c ≠ 35 ∧ c ≠ 9 ∧ c ≠ 10 ∧ c ≠ 13 ∧ validCp c) ∧
  (∀ c ∈ u.fragment, c ≠ 9 ∧ c ≠ 10 ∧ c ≠ 13)

instance (u : SplitUrl) : Decidable (wfUrl u) := by
  unfold wfUrl
  infer_instance

/-- The classifier index the repository's own unit tests build by hand
(tests/test_classifier.py:19-43): three token aliases, one phrase alias and
the canonical dictionaries. -/
def testClassifierIndex : ClassifierIndex :=
  { token_index :=
      [(("lenovo").cp, [⟨some 1, none, none, .token, ("lenovo").cp, 2⟩]),
       (("thinkpad").cp, [⟨some 1, some 10, none, .token, ("thinkpad").cp, 3⟩]),
       (("t480").cp, [⟨some 1, some 10, some 100, .token, ("t480").cp, 7⟩])],
    phrase_aliases := [⟨some 1, some 10, none, .phrase, ("think pad").cp, 2⟩],
    regex_aliases := [],
    family_to_brand :=
      [(10, 1), (20, 2), (30, 3), (40, 4), (50, 5), (60, 6), (70, 7), (80, 8), (90, 9)],
    variant_to_family := [(100, 10)],
    variant_to_brand := [(100, 1)],
    brand_norm_to_id :=
      [(("acer").cp, 2), (("lenovo").cp, 1), (("samsung").cp, 3), (("apple").cp, 4),
       (("maibenben").cp, 5), (("digma").cp, 6), (("ardor").cp, 7),
       (("roverbook").cp, 8), (("jumper").cp, 9)],
    family_rows :=
      [⟨20, 2, ("acer aspire 5315").cp, ("aceraspire5315").cp⟩,
       ⟨30, 3, ("samsung r528").cp, ("samsungr528").cp⟩,
       ⟨40, 4, ("apple macbook pro 13 2013").cp, ("applemacbookpro132013").cp⟩,
       ⟨50, 5, ("maibenben x558").cp, ("maibenbenx558").cp⟩,
       ⟨60, 6, ("digma eve c5802").cp, ("digmaevec5802").cp⟩,
       ⟨70, 7, ("ardor gaming").cp, ("ardorgaming").cp⟩,
       ⟨80, 8, ("roverbook pro").cp, ("roverbookpro").cp⟩,
       ⟨90, 9, ("jumper ezbook 3 pro").cp, ("jumperezbook3pro").cp⟩] }

/-- An index whose dictionary holds 41 identical phrase aliases, so a single
title produces 41 alias hits. -/
def manyPhraseIdx : ClassifierIndex :=
  { token_index := [],
    phrase_aliases := List.replicate 41 ⟨some 1, none, none, .phrase, ("a").cp, 1⟩,
    regex_aliases := [],
    family_to_brand := [],
    variant_to_family := [],
    variant_to_brand := [],
    brand_norm_to_id := [],
    family_rows := [] }

/-- A fetch environment whose first attempt is rate-limited (429) and whose
second attempt succeeds. -/
def fetchEnv429 : FetchEnv :=
  { outcomes := fun a => if a = 1 then .resp 429 none (("too many requests").cp)
      else .resp 200 none (("ok-body").cp),
    choice := fun l => l.headD [],
    jit := fun _ => 0,
    url := ("https://example.com").cp,
    maxTries := 3,
    baseSleep := 6,
    maxSleep := 120 }

/-- A fetch environment that is rate-limited on every attempt. -/
def fetchEnvAlways429 : FetchEnv :=
  { outcomes := fun _ => .resp 429 none (("too many requests").cp),
    choice := fun l => l.headD [],
    jit := fun _ => 0,
    url := ("https://example.com").cp,
    maxTries := 2,
    baseSleep := 6,
    maxSleep := 120 }

/-- A one-card DOM node used by the crawler fixtures. -/
def cardFixture : CardNode :=
  ⟨some (("123").cp), [("Item").cp], [("/item/123").cp], [], [], [], [], [], []⟩

/-- A card whose name nodes are absent and whose only link is not
root-relative, exercising the title and URL fallbacks. -/
def bareCardFixture : CardNode :=
  ⟨some (("77").cp), [], [("item?x=1").cp], [], [], [], [], [], []⟩

/-- A DOM oracle that fails on the empty document (as `lxml` does), yields a
card for the first fixture page and no cards otherwise. -/
def domFixture : DomOracle := fun html =>
  if html = [] then none
  else if html = ("page-one").cp then some [cardFixture] else some []

/-- Crawl fixture: page 1 has cards, page 2 is a protection interstitial
served with status 200. -/
def crawlEnvProtection : CrawlEnv :=
  { maxPages := 5,
    fetchBody := fun p =>
      if p = 1 then .ok (("page-one").cp) else .ok (("please solve the captcha").cp),
    dom := domFixture }

/-- Crawl fixture: page 1 has cards, page 2 parses to zero cards. -/
def crawlEnvEmpty : CrawlEnv :=
  { maxPages := 5,
    fetchBody := fun p =>
      if p = 1 then .ok (("page-one").cp) else .ok (("ничего не найдено").cp),
    dom := domFixture }

/-- Stage of `_norm_text` after the confusable translation
(classifier.py:61-68). -/
def normStageD (s : List Nat) : List Nat :=
  ((replace_human_spellings (pyLower s)).map yoRepChar).map translateChar

/-- Stage of `_norm_text` after collapsing `[\t\r\n]+` and replacing `×`
(classifier.py:69-70). -/
def normStageF (s : List Nat) : List Nat :=
  (subRunsGo isTRN [32] false (normStageD s)).map timesRepChar

/-- Stage of `_norm_text` after collapsing `[|/\\]+` (classifier.py:71). -/
def normStageG (s : List Nat) : List Nat :=
  subRunsGo isBarSlash [32] false (normStageF s)

/-- Stage of `_norm_text` after collapsing `[-_]+` (classifier.py:72). -/
def normStageH (s : List Nat) : List Nat :=
  subRunsGo isDashU [45] false (normStageG s)

/-- Stage of `_norm_text` after collapsing `\s+` (classifier.py:73). -/
def normStageI (s : List Nat) : List Nat :=
  subRunsGo isPySpace [32] false (normStageH s)

/-! ## Lemmas about the normalisation pipeline -/

theorem pyLowerChar_idem (n : Nat) : pyLowerChar (pyLowerChar n) = pyLowerChar n := by
  unfold pyLowerChar
  split_ifs <;> omega

theorem map_id_of {l : List Nat} {f : Nat → Nat} (h : ∀ c ∈ l, f c = c) :
    l.map f = l := by
  induction l with
  | nil => rfl
  | cons c t ih =>
    simp only [List.map_cons]
    rw [h c (by simp), ih (fun d hd => h d (by simp [hd]))]

theorem subRunsGo_id {p : Nat → Bool} {r : List Nat} {l : List Nat}
    (h : ∀ c ∈ l, p c = false) : ∀ b, subRunsGo p r b l = l := by
  induction l with
  | nil => intro b; rfl
  | cons c t ih =>
    intro b
    have hc : p c = false := h c (by simp)
    simp only [subRunsGo, hc]
    simp only [Bool.false_eq_true, if_false]
    rw [ih (fun d hd => h d (by simp [hd]))]

theorem subRunsGo_mem {p : Nat → Bool} {r : List Nat} :
    ∀ {l : List Nat} {b : Bool} {c : Nat}, c ∈ subRunsGo p r b l → c ∈ l ∨ c ∈ r := by
  intro l
  induction l with
  | nil => intro b c hc; simp [subRunsGo] at hc
  | cons d t ih =>
    intro b c hc
    simp only [subRunsGo] at hc
    by_cases hp : p d = true
    · simp only [hp, if_true] at hc
      cases b with
      | true =>
        rcases ih hc with h | h
        · exact Or.inl (by simp [h])
        · exact Or.inr h
      | false =>
        rcases List.mem_append.mp hc with h | h
        · exact Or.inr h
        · rcases ih h with h2 | h2
          · exact Or.inl (by simp [h2])
          · exact Or.inr h2
    · simp only [hp, if_false] at hc
      rcases List.mem_cons.mp hc with h | h
      · exact Or.inl (by simp [h])
      · rcases ih h with h2 | h2
        · exact Or.inl (by simp [h2])
        · exact Or.inr h2

theorem subRunsGo_pchar {p : Nat → Bool} {r : List Nat} :
    ∀ {l : List Nat} {b : Bool} {c : Nat},
      c ∈ subRunsGo p r b l → p c = true → c ∈ r := by
  intro l
  induction l with
  | nil => intro b c hc; simp [subRunsGo] at hc
  | cons d t ih =>
    intro b c hc hp
    simp only [subRunsGo] at hc
    by_cases hd : p d = true
    · simp only [hd, if_true] at hc
      cases b with
      | true => exact ih hc hp
      | false =>
        rcases List.mem_append.mp hc with h | h
        · exact h
        · exact ih h hp
    · simp only [hd, if_false] at hc
      rcases List.mem_cons.mp hc with h | h
      · exact absurd (h ▸ hp) (by simp [hd])
      · exact ih h hp

theorem subRunsGo_single_id {p : Nat → Bool} {x : Nat} :
    ∀ {l : List Nat}, (∀ c ∈ l, p c = true → c = x) → noTwoAdj p l →
      subRunsGo p [x] false l = l ∧
        ((∀ c, l.head? = some c → p c = false) → subRunsGo p [x] true l = l) := by
  intro l
  induction l with
  | nil => intro _ _; exact ⟨rfl, fun _ => rfl⟩
  | cons c t ih =>
    intro hall hchain
    have hallT : ∀ d ∈ t, p d = true → d = x := fun d hd => hall d (by simp [hd])
    have hchainT : noTwoAdj p t := hchain.tail
    have iht := ih hallT hchainT
    constructor
    · by_cases hp : p c = true
      · have hcx : c = x := hall c (by simp) hp
        have hheadT : ∀ d, t.head? = some d → p d = false := by
          intro d hd
          cases t with
          | nil => simp at hd
          | cons e u =>
            simp at hd
            have := (List.chain'_cons.mp hchain).1
            by_contra hpd
            exact this ⟨hp, by subst hd; simpa using hpd⟩
        simp only [subRunsGo, hp, if_true]
        rw [iht.2 hheadT, hcx]
        rfl
      · simp only [subRunsGo, hp]
        simp only [Bool.false_eq_true, if_false]
        rw [iht.1]
    · intro hhead
      have hp : p c = false := hhead c (by simp)
      simp only [subRunsGo, hp]
      simp only [Bool.false_eq_true, if_false]
      rw [iht.1]

theorem subRunsGo_chain {p : Nat → Bool} {x : Nat} :
    ∀ (l : List Nat) (b : Bool),
      noTwoAdj p (subRunsGo p [x] b l) ∧
        (b = true → ∀ c, (subRunsGo p [x] b l).head? = some c → p c = false) := by
  intro l
  induction l with
  | nil =>
    intro b
    exact ⟨List.chain'_nil, fun _ c hc => by simp [subRunsGo] at hc⟩
  | cons c t ih =>
    intro b
    by_cases hp : p c = true
    · cases b with
      | true =>
        simp only [subRunsGo, hp, if_true]
        exact ⟨(ih true).1, fun _ => (ih true).2 rfl⟩
      | false =>
        simp only [subRunsGo, hp, if_true, Bool.false_eq_true, if_false,
          List.singleton_append]
        constructor
        · have htail := (ih true).1
          have hhead := (ih true).2 rfl
          unfold noTwoAdj at htail ⊢
          rw [List.chain'_cons']
          refine ⟨?_, htail⟩
          intro y hy hcontra
          exact absurd hcontra.2 (by simpa using hhead y (by simpa using hy))
        · intro h
          cases h
    · have hrec := ih false
      simp only [subRunsGo, hp, Bool.false_eq_true, if_false]
      constructor
      · unfold noTwoAdj at hrec ⊢
        rw [List.chain'_cons']
        refine ⟨?_, hrec.1⟩
        intro y _ hcontra
        exact absurd hcontra.1 (by simpa using hp)
      · intro _ d hd
        simp only [List.head?_cons, Option.some.injEq] at hd
        subst hd
        simpa using hp

theorem subRunsGo_preserve_chain {p q : Nat → Bool} {x : Nat} (hqx : q x = false) :
    ∀ (l : List Nat) (b : Bool), noTwoAdj q l →
      noTwoAdj q (subRunsGo p [x] b l) := by
  intro l
  induction l with
  | nil =>
    intro b _
    simp [subRunsGo, noTwoAdj]
  | cons c t ih =>
    intro b hch
    have hchT : noTwoAdj q t := hch.tail
    by_cases hp : p c = true
    · cases b with
      | true =>
        simp only [subRunsGo, hp, if_true]
        exact ih true hchT
      | false =>
        simp only [subRunsGo, hp, if_true, Bool.false_eq_true, if_false,
          List.singleton_append]
        unfold noTwoAdj
        rw [List.chain'_cons']
        refine ⟨?_, ih true hchT⟩
        intro y _ hcontra
        rw [hqx] at hcontra
        exact absurd hcontra.1 (by simp)
    · simp only [subRunsGo, hp, Bool.false_eq_true, if_false]
      unfold noTwoAdj
      rw [List.chain'_cons']
      refine ⟨?_, ih false hchT⟩
      intro y hy
      cases t with
      | nil => simp [subRunsGo] at hy
      | cons d u =>
        by_cases hpd : p d = true
        · have hform : subRunsGo p [x] false (d :: u) = x :: subRunsGo p [x] true u := by
            simp [subRunsGo, hpd]
          rw [hform] at hy
          simp only [List.head?_cons, Option.mem_def, Option.some.injEq] at hy
          subst hy
          intro hcontra
          rw [hqx] at hcontra
          exact absurd hcontra.2 (by simp)
        · have hform : subRunsGo p [x] false (d :: u) = d :: subRunsGo p [x] false u := by
            simp [subRunsGo, hpd]
          rw [hform] at hy
          simp only [List.head?_cons, Option.mem_def, Option.some.injEq] at hy
          subst hy
          have hqcd := (List.chain'_cons.mp hch).1
          exact hqcd

theorem dropWhile_head_not {p : Nat → Bool} :
    ∀ {l : List Nat} {c : Nat}, (l.dropWhile p).head? = some c → p c = false := by
  intro l
  induction l with
  | nil => intro c hc; simp at hc
  | cons d t ih =>
    intro c hc
    rw [List.dropWhile_cons] at hc
    by_cases hd : p d = true
    · rw [if_pos hd] at hc
      exact ih hc
    · rw [if_neg hd] at hc
      simp only [List.head?_cons, Option.some.injEq] at hc
      subst hc
      simpa using hd

theorem dropWhile_id_of_head {p : Nat → Bool} {l : List Nat}
    (h : ∀ c, l.head? = some c → p c = false) : l.dropWhile p = l := by
  cases l with
  | nil => rfl
  | cons c t =>
    rw [List.dropWhile_cons, if_neg]
    simp [h c rfl]

theorem stripWs_id {l : List Nat}
    (hh : ∀ c, l.head? = some c → isPySpace c = false)
    (hl : ∀ c, l.getLast? = some c → isPySpace c = false) : stripWs l = l := by
  unfold stripWs
  rw [dropWhile_id_of_head hh]
  rw [dropWhile_id_of_head (by
    intro c hc
    rw [List.head?_reverse] at hc
    exact hl c hc)]
  exact List.reverse_reverse l

theorem stripWs_mem {l : List Nat} {c : Nat} (h : c ∈ stripWs l) : c ∈ l := by
  unfold stripWs at h
  rw [List.mem_reverse] at h
  have h2 := List.dropWhile_sublist (l := (l.dropWhile isPySpace).reverse) isPySpace
  have h3 := h2.mem h
  rw [List.mem_reverse] at h3
  exact (List.dropWhile_sublist (l := l) isPySpace).mem h3

theorem chain'_dropWhile {R : Nat → Nat → Prop} {p : Nat → Bool} :
    ∀ {l : List Nat}, List.Chain' R l → List.Chain' R (l.dropWhile p) := by
  intro l
  induction l with
  | nil => intro _; simp
  | cons c t ih =>
    intro h
    rw [List.dropWhile_cons]
    by_cases hc : p c = true
    · rw [if_pos hc]
      exact ih h.tail
    · rw [if_neg hc]
      exact h

theorem stripWs_chain {q : Nat → Bool} {l : List Nat} (h : noTwoAdj q l) :
    noTwoAdj q (stripWs l) := by
  unfold stripWs
  unfold noTwoAdj at h ⊢
  have h1 := chain'_dropWhile (p := isPySpace) h
  have h2 : List.Chain' (fun a b => ¬(q a = true ∧ q b = true))
      (l.dropWhile isPySpace).reverse := by
    rw [List.chain'_reverse]
    exact List.Chain'.imp (fun a b hab hc => hab ⟨hc.2, hc.1⟩) h1
  have h3 := chain'_dropWhile (p := isPySpace) h2
  rw [List.chain'_reverse]
  exact List.Chain'.imp (fun a b hab hc => hab ⟨hc.2, hc.1⟩) h3

theorem stripWs_head {l : List Nat} {c : Nat}
    (h : (stripWs l).head? = some c) : isPySpace c = false := by
  unfold stripWs at h
  rw [List.head?_reverse] at h
  have hXrev : ((l.dropWhile isPySpace).reverse).getLast? = some c := by
    obtain ⟨w, hw⟩ :=
      List.dropWhile_suffix (l := (l.dropWhile isPySpace).reverse) (p := isPySpace)
    rw [← hw, List.getLast?_append, h]
    rfl
  rw [List.getLast?_reverse] at hXrev
  exact dropWhile_head_not hXrev

theorem stripWs_last {l : List Nat} {c : Nat}
    (h : (stripWs l).getLast? = some c) : isPySpace c = false := by
  unfold stripWs at h
  rw [List.getLast?_reverse] at h
  exact dropWhile_head_not h

theorem space_cp : (" ").cp = [32] := by decide

theorem dash_cp : ("-").cp = [45] := by decide

theorem yoRep_out (n : Nat) : yoRepChar n = n ∨ yoRepChar n = 0x435 := by
  unfold yoRepChar
  split_ifs <;> simp

theorem yoRep_no_yo (n : Nat) : yoRepChar n ≠ 0x451 := by
  unfold yoRepChar
  split_ifs <;> omega

theorem translate_out (n : Nat) :
    translateChar n = n ∨ translateChar n = 97 ∨ translateChar n = 98 ∨
      translateChar n = 99 ∨ translateChar n = 101 ∨ translateChar n = 107 ∨
      translateChar n = 109 ∨ translateChar n = 104 ∨ translateChar n = 111 ∨
      translateChar n = 112 ∨ translateChar n = 116 ∨ translateChar n = 121 ∨
      translateChar n = 120 := by
  by_cases h1 : n = 0x430
  · subst h1; decide
  by_cases h2 : n = 0x432
  · subst h2; decide
  by_cases h3 : n = 0x441
  · subst h3; decide
  by_cases h4 : n = 0x435
  · subst h4; decide
  by_cases h5 : n = 0x43A
  · subst h5; decide
  by_cases h6 : n = 0x43C
  · subst h6; decide
  by_cases h7 : n = 0x43D
  · subst h7; decide
  by_cases h8 : n = 0x43E
  · subst h8; decide
  by_cases h9 : n = 0x440
  · subst h9; decide
  by_cases h10 : n = 0x442
  · subst h10; decide
  by_cases h11 : n = 0x443
  · subst h11; decide
  by_cases h12 : n = 0x445
  · subst h12; decide
  left
  unfold translateChar
  rw [if_neg h1, if_neg h2, if_neg h3, if_neg h4, if_neg h5, if_neg h6, if_neg h7,
    if_neg h8, if_neg h9, if_neg h10, if_neg h11, if_neg h12]

theorem times_out (n : Nat) : timesRepChar n = n ∨ timesRepChar n = 120 := by
  unfold timesRepChar
  split_ifs <;> simp

theorem times_no_times (n : Nat) : timesRepChar n ≠ 0xD7 := by
  unfold timesRepChar
  split_ifs <;> omega

theorem charOK4_comp (d : Nat) :
    pyLowerChar (timesRepChar (translateChar (yoRepChar (pyLowerChar d)))) =
        timesRepChar (translateChar (yoRepChar (pyLowerChar d))) ∧
      timesRepChar (translateChar (yoRepChar (pyLowerChar d))) ≠ 0x451 ∧
      translateChar (timesRepChar (translateChar (yoRepChar (pyLowerChar d)))) =
        timesRepChar (translateChar (yoRepChar (pyLowerChar d))) ∧
      timesRepChar (translateChar (yoRepChar (pyLowerChar d))) ≠ 0xD7 := by
  have h0 := pyLowerChar_idem d
  have h1 : pyLowerChar (yoRepChar (pyLowerChar d)) = yoRepChar (pyLowerChar d) := by
    rcases yoRep_out (pyLowerChar d) with h | h
    · rw [h, h0]
    · rw [h]; decide
  have h1b := yoRep_no_yo (pyLowerChar d)
  have h2 :
      pyLowerChar (translateChar (yoRepChar (pyLowerChar d))) =
          translateChar (yoRepChar (pyLowerChar d)) ∧
        translateChar (yoRepChar (pyLowerChar d)) ≠ 0x451 ∧
        translateChar (translateChar (yoRepChar (pyLowerChar d))) =
          translateChar (yoRepChar (pyLowerChar d)) := by
    rcases translate_out (yoRepChar (pyLowerChar d)) with
      h | h | h | h | h | h | h | h | h | h | h | h | h
    · refine ⟨?_, ?_, ?_⟩
      · rw [h]; exact h1
      · rw [h]; exact h1b
      · rw [h, h]
    all_goals refine ⟨?_, ?_, ?_⟩ <;> rw [h] <;> decide
  rcases times_out (translateChar (yoRepChar (pyLowerChar d))) with h | h
  · rw [h]
    exact ⟨h2.1, h2.2.1, h2.2.2, h ▸ times_no_times _⟩
  · rw [h]
    exact ⟨by decide, by decide, by decide, by decide⟩

theorem charOK4_repl :
    ∀ pr ∈ humanReplacements, ∀ e ∈ pr.2,
      pyLowerChar (timesRepChar (translateChar (yoRepChar e))) =
          timesRepChar (translateChar (yoRepChar e)) ∧
        timesRepChar (translateChar (yoRepChar e)) ≠ 0x451 ∧
        translateChar (timesRepChar (translateChar (yoRepChar e))) =
          timesRepChar (translateChar (yoRepChar e)) ∧
        timesRepChar (translateChar (yoRepChar e)) ≠ 0xD7 := by
  decide

theorem wbReplaceGo_mem {pat repl : List Nat} :
    ∀ (l : List Nat) (skip : Nat) (b : Bool) (c : Nat),
      c ∈ wbReplaceGo pat repl skip b l → c ∈ l ∨ c ∈ repl := by
  intro l
  induction l with
  | nil =>
    intro skip b c hc
    cases skip <;> simp [wbReplaceGo] at hc
  | cons d t ih =>
    intro skip b c hc
    cases skip with
    | succ k =>
      simp only [wbReplaceGo] at hc
      rcases ih _ _ _ hc with h2 | h2
      · exact Or.inl (by simp [h2])
      · exact Or.inr h2
    | zero =>
      simp only [wbReplaceGo] at hc
      by_cases hcond : (pat ≠ [] ∧ b = false ∧ matchLower pat (d :: t) = true ∧
          headIsWord ((d :: t).drop pat.length) = false)
      · rw [if_pos hcond] at hc
        rcases List.mem_append.mp hc with h | h
        · exact Or.inr h
        · rcases ih _ _ _ h with h2 | h2
          · exact Or.inl (by simp [h2])
          · exact Or.inr h2
      · rw [if_neg hcond] at hc
        rcases List.mem_cons.mp hc with h | h
        · exact Or.inl (by simp [h])
        · rcases ih _ _ _ h with h2 | h2
          · exact Or.inl (by simp [h2])
          · exact Or.inr h2

theorem foldRepl_mem :
    ∀ (rs : List (List Nat × List Nat)) (l : List Nat) (c : Nat),
      c ∈ rs.foldl (fun acc pr => wbReplace pr.1 pr.2 acc) l →
        c ∈ l ∨ ∃ pr ∈ rs, c ∈ pr.2 := by
  intro rs
  induction rs with
  | nil => intro l c hc; exact Or.inl hc
  | cons r rest ih =>
    intro l c hc
    simp only [List.foldl_cons] at hc
    rcases ih _ _ hc with h | ⟨pr, hpr, hpc⟩
    · rcases wbReplaceGo_mem _ _ _ _ h with h2 | h2
      · exact Or.inl h2
      · exact Or.inr ⟨r, by simp, h2⟩
    · exact Or.inr ⟨pr, by simp [hpr], hpc⟩

theorem replace_human_mem {l : List Nat} {c : Nat}
    (h : c ∈ replace_human_spellings l) :
    c ∈ l ∨ ∃ pr ∈ humanReplacements, c ∈ pr.2 :=
  foldRepl_mem _ _ _ h

theorem translate_idem (n : Nat) : translateChar (translateChar n) = translateChar n := by
  rcases translate_out n with h | h | h | h | h | h | h | h | h | h | h | h | h
  · rw [h, h]
  all_goals rw [h]; decide

section NormPipelineProofs

attribute [local irreducible] subRunsGo wbReplaceGo

theorem norm_text_as_stages (s : List Nat) :
    norm_text s = stripWs (normStageI s) := by
  unfold normStageI normStageH normStageG normStageF normStageD norm_text subRuns
  simp only [space_cp, dash_cp]

theorem norm_stageF_ok (s : List Nat) : ∀ c ∈ normStageF s,
    (pyLowerChar c = c ∧ c ≠ 0x451 ∧ translateChar c = c ∧ c ≠ 0xD7) ∧
      isTRN c = false := by
  intro c hc
  unfold normStageF at hc
  rcases List.mem_map.mp hc with ⟨e, he, hce⟩
  have heTRN : isTRN e = false := by
    by_contra hcontra
    have hmem := subRunsGo_pchar he (by simpa using hcontra)
    have he32 : e = 32 := by simpa using hmem
    rw [he32] at hcontra
    exact hcontra (by decide)
  have hcTRN : isTRN c = false := by
    rcases times_out e with ht | ht
    · rw [← hce, ht]
      exact heTRN
    · rw [← hce, ht]
      decide
  have hcok : pyLowerChar c = c ∧ c ≠ 0x451 ∧ translateChar c = c ∧ c ≠ 0xD7 := by
    rcases subRunsGo_mem he with heD | he32
    · unfold normStageD at heD
      rcases List.mem_map.mp heD with ⟨e2, he2, hee2⟩
      rcases List.mem_map.mp he2 with ⟨b, hb, hbe2⟩
      rcases replace_human_mem hb with hbA | ⟨pr, hpr, hprc⟩
      · rcases List.mem_map.mp hbA with ⟨d, _, hdb⟩
        have hcomp := charOK4_comp d
        rw [hdb, hbe2, hee2, hce] at hcomp
        exact hcomp
      · have hcomp := charOK4_repl pr hpr b hprc
        rw [hbe2, hee2, hce] at hcomp
        exact hcomp
    · have he32v : e = 32 := by simpa using he32
      rw [← hce, he32v]
      refine ⟨by decide, by decide, by decide, by decide⟩
  exact ⟨hcok, hcTRN⟩

theorem norm_stageG_ok (s : List Nat) : ∀ c ∈ normStageG s,
    (pyLowerChar c = c ∧ c ≠ 0x451 ∧ translateChar c = c ∧ c ≠ 0xD7) ∧
      isTRN c = false ∧ isBarSlash c = false := by
  intro c hc
  unfold normStageG at hc
  have hbar : isBarSlash c = false := by
    by_contra hcontra
    have hmem := subRunsGo_pchar hc (by simpa using hcontra)
    have : c = 32 := by simpa using hmem
    rw [this] at hcontra
    exact hcontra (by decide)
  rcases subRunsGo_mem hc with hcF | hc32
  · exact ⟨(norm_stageF_ok s c hcF).1, (norm_stageF_ok s c hcF).2, hbar⟩
  · have : c = 32 := by simpa using hc32
    subst this
    exact ⟨⟨by decide, by decide, by decide, by decide⟩, by decide, by decide⟩

theorem norm_stageH_ok (s : List Nat) : ∀ c ∈ normStageH s,
    (pyLowerChar c = c ∧ c ≠ 0x451 ∧ translateChar c = c ∧ c ≠ 0xD7) ∧
      isTRN c = false ∧ isBarSlash c = false ∧ c ≠ 95 := by
  intro c hc
  unfold normStageH at hc
  have h95 : c ≠ 95 := by
    intro hcontra
    have hmem := subRunsGo_pchar hc (by rw [hcontra]; decide)
    have : c = 45 := by simpa using hmem
    omega
  rcases subRunsGo_mem hc with hcG | hc45
  · exact ⟨(norm_stageG_ok s c hcG).1, (norm_stageG_ok s c hcG).2.1,
      (norm_stageG_ok s c hcG).2.2, h95⟩
  · have : c = 45 := by simpa using hc45
    subst this
    exact ⟨⟨by decide, by decide, by decide, by decide⟩, by decide, by decide, by decide⟩

theorem norm_stageI_ok (s : List Nat) : ∀ c ∈ normStageI s, goodChar c = true := by
  intro c hc
  unfold normStageI at hc
  have hsp : isPySpace c = true → c = 32 := by
    intro hcontra
    have hmem := subRunsGo_pchar hc hcontra
    simpa using hmem
  have hrest : (pyLowerChar c = c ∧ c ≠ 0x451 ∧ translateChar c = c ∧ c ≠ 0xD7) ∧
      isTRN c = false ∧ isBarSlash c = false ∧ c ≠ 95 := by
    rcases subRunsGo_mem hc with hcH | hc32
    · exact norm_stageH_ok s c hcH
    · have : c = 32 := by simpa using hc32
      subst this
      exact ⟨⟨by decide, by decide, by decide, by decide⟩, by decide, by decide, by decide⟩
  obtain ⟨⟨hlow, hyo, htr, hd7⟩, htrn, hbar, h95⟩ := hrest
  unfold goodChar
  simp only [hlow, hyo, htr, htrn, hd7, hbar, h95, beq_self_eq_true, Bool.true_and,
    Bool.and_true, bne, Bool.not_false]
  by_cases hspc : isPySpace c = true
  · have := hsp hspc
    subst this
    decide
  · simp [hspc, hyo, hd7, h95]

theorem norm_text_normalized (s : List Nat) :
    (∀ c ∈ norm_text s, goodChar c = true) ∧ noTwoAdj isDashU (norm_text s) ∧
      noTwoAdj isPySpace (norm_text s) ∧
      (∀ c, (norm_text s).head? = some c → isPySpace c = false) ∧
      (∀ c, (norm_text s).getLast? = some c → isPySpace c = false) := by
  have hchainH : noTwoAdj isDashU (normStageH s) := by
    unfold normStageH
    exact (subRunsGo_chain (normStageG s) false).1
  have hchainIdash : noTwoAdj isDashU (normStageI s) := by
    unfold normStageI
    exact subRunsGo_preserve_chain (by decide) (normStageH s) false hchainH
  have hchainIsp : noTwoAdj isPySpace (normStageI s) := by
    unfold normStageI
    exact (subRunsGo_chain (normStageH s) false).1
  rw [norm_text_as_stages s]
  refine ⟨?_, stripWs_chain hchainIdash, stripWs_chain hchainIsp,
    fun c hc => stripWs_head hc, fun c hc => stripWs_last hc⟩
  intro c hc
  exact norm_stageI_ok s c (stripWs_mem hc)


/-- Unpack the `goodChar` invariant into the per-stage identity facts. -/
theorem goodChar_parts {c : Nat} (h : goodChar c = true) :
    pyLowerChar c = c ∧ yoRepChar c = c ∧ translateChar c = c ∧
      isTRN c = false ∧ timesRepChar c = c ∧ isBarSlash c = false ∧
      (isDashU c = true → c = 45) ∧ (isPySpace c = true → c = 32) := by
  unfold goodChar at h
  simp only [Bool.and_eq_true, beq_iff_eq, bne_iff_ne, ne_eq, Bool.not_eq_true',
    Bool.or_eq_true] at h
  obtain ⟨⟨⟨⟨⟨⟨⟨hlow, hyo⟩, htr⟩, htrn⟩, hd7⟩, hbar⟩, h95⟩, hsp⟩ := h
  refine ⟨hlow, ?_, htr, htrn, ?_, hbar, ?_, ?_⟩
  · unfold yoRepChar; rw [if_neg hyo]
  · unfold timesRepChar; rw [if_neg hd7]
  · intro hd
    unfold isDashU at hd
    simp only [Bool.or_eq_true, beq_iff_eq] at hd
    rcases hd with h45 | h95v
    · exact h45
    · exact absurd h95v h95
  · intro hps
    rcases hsp with hns | h32
    · rw [hns] at hps; cases hps
    · exact h32

/-- C2: `_norm_text` is idempotent on every input whose normalised form is a
fixed point of the human-spelling replacement table (amended claim: the
literal claim fails because `_HUMAN_REPLACEMENTS` can fire again on already
normalised text, e.g. `macbook` → `apple macbook` → `apple apple macbook`). -/
theorem norm_text_idem (s : List Nat)
    (h : replace_human_spellings (norm_text s) = norm_text s) :
    norm_text (norm_text s) = norm_text s := by
  obtain ⟨hgood, hdash, hspc, hhead, hlast⟩ := norm_text_normalized s
  have hparts := fun c hc => goodChar_parts (hgood c hc)
  have hD : normStageD (norm_text s) = norm_text s := by
    unfold normStageD
    rw [show pyLower (norm_text s) = norm_text s from
      map_id_of (fun c hc => (hparts c hc).1), h,
      map_id_of (fun c hc => (hparts c hc).2.1),
      map_id_of (fun c hc => (hparts c hc).2.2.1)]
  have hF : normStageF (norm_text s) = norm_text s := by
    unfold normStageF
    rw [hD, subRunsGo_id (fun c hc => (hparts c hc).2.2.2.1) false,
      map_id_of (fun c hc => (hparts c hc).2.2.2.2.1)]
  have hG : normStageG (norm_text s) = norm_text s := by
    unfold normStageG
    rw [hF, subRunsGo_id (fun c hc => (hparts c hc).2.2.2.2.2.1) false]
  have hH : normStageH (norm_text s) = norm_text s := by
    unfold normStageH
    rw [hG]
    exact (subRunsGo_single_id (fun c hc => (hparts c hc).2.2.2.2.2.2.1) hdash).1
  have hI : normStageI (norm_text s) = norm_text s := by
    unfold normStageI
    rw [hH]
    exact (subRunsGo_single_id (fun c hc => (hparts c hc).2.2.2.2.2.2.2) hspc).1
  rw [norm_text_as_stages (norm_text s), hI]
  exact stripWs_id hhead hlast


end NormPipelineProofs

/-- C2 counterexample: on the title `macbook` the normaliser is NOT
idempotent — `_HUMAN_REPLACEMENTS` rewrites `macbook` to `apple macbook`,
and a second pass rewrites it again to `apple apple macbook`. -/
theorem norm_text_not_idem :
    norm_text (norm_text (("macbook").cp)) ≠ norm_text (("macbook").cp) := by
  decide

/-- Witness for C2: the title `lenovo thinkpad t480` satisfies the
fixed-point hypothesis, and normalisation is indeed idempotent on it. -/
theorem norm_text_idem_witness :
    replace_human_spellings (norm_text (("lenovo thinkpad t480").cp)) =
        norm_text (("lenovo thinkpad t480").cp) ∧
      norm_text (norm_text (("lenovo thinkpad t480").cp)) =
        norm_text (("lenovo thinkpad t480").cp) :=
  ⟨by decide, norm_text_idem _ (by decide)⟩

/-- Step 3 of `classify`: when the chosen variant has a canonical family and
that family has a canonical brand, the resolved family and brand are exactly
those canonical values, whatever the directly-scored brand/family were. -/
theorem resolveAncestry_spec (idx : ClassifierIndex) (b f : Option Nat) {vv vf fb : Nat}
    (hvf : alook idx.variant_to_family vv = some vf)
    (hfb : alook idx.family_to_brand vf = some fb) :
    (resolveAncestry idx b f (some vv)).1 = some fb ∧
      (resolveAncestry idx b f (some vv)).2.1 = some vf := by
  unfold resolveAncestry
  rcases hvb : alook idx.variant_to_brand vv with _ | vb <;>
    simp only [hvb, hvf, hfb] <;> split_ifs <;> simp_all <;>
    first
    | rfl
    | (split_ifs <;> simp_all)

/-- Step 4 of `classify` never changes a brand or family that is already
set. -/
theorem fallbackFill_keeps (idx : ClassifierIndex) (text ct : List Nat)
    (tokens : List (List Nat)) (b f : Nat) :
    (fallbackFill idx text ct tokens (some b) (some f)).1 = some b ∧
      (fallbackFill idx text ct tokens (some b) (some f)).2.1 = some f := by
  unfold fallbackFill
  simp

/-- Core of C1 over the normalised text. -/
theorem classifyCore_ancestry (idx : ClassifierIndex) (text : List Nat) {vv vf fb : Nat}
    (hv : (classifyCore idx text).variant_id = some vv)
    (hvf : alook idx.variant_to_family vv = some vf)
    (hfb : alook idx.family_to_brand vf = some fb) :
    (classifyCore idx text).family_id = some vf ∧
      (classifyCore idx text).brand_id = some fb := by
  simp only [classifyCore] at hv ⊢
  split at hv
  · rename_i hcond
    simp [defaultResult] at hv
  · rename_i hcond
    rw [if_neg hcond]
    dsimp only at hv ⊢
    rw [hv] at hcond ⊢
    have hres := resolveAncestry_spec idx
      (maxKey ((collectHits idx text (tokenizeText text)).foldl
        (fun b h => addScore b h.1.brand_id h.1.weight) []))
      (maxKey ((collectHits idx text (tokenizeText text)).foldl
        (fun b h => addScore b h.1.family_id h.1.weight) []))
      hvf hfb
    rw [hres.1, hres.2]
    have hkeep := fallbackFill_keeps idx text (compactText text) (tokenizeText text) fb vf
    exact ⟨hkeep.2, hkeep.1⟩

/-- C1: for every title/description, whenever `classify` returns a variant
that is present in the canonical `variant_to_family` map and whose family is
present in `family_to_brand`, the returned family is the variant's canonical
family and the returned brand is that family's canonical brand. -/
theorem classify_ancestry (idx : ClassifierIndex) (title : List Nat)
    (description : Option (List Nat)) (vv vf fb : Nat)
    (hv : (classify idx title description).variant_id = some vv)
    (hvf : alook idx.variant_to_family vv = some vf)
    (hfb : alook idx.family_to_brand vf = some fb) :
    (classify idx title description).family_id = some vf ∧
      (classify idx title description).brand_id = some fb := by
  unfold classify at hv ⊢
  exact classifyCore_ancestry idx _ hv hvf hfb

/-- Witness for C1 on the unit-test index: the title mentions the variant
`t480` (through its confusable Cyrillic spelling), and the returned family
and brand are the canonical ancestors of variant 100. -/
theorem classify_ancestry_witness :
    (classify testClassifierIndex (("Lenovo ThinkPad т480").cp)
        (some (("рабочий").cp))).variant_id = some 100 ∧
      alook testClassifierIndex.variant_to_family 100 = some 10 ∧
      alook testClassifierIndex.family_to_brand 10 = some 1 ∧
      ((classify testClassifierIndex (("Lenovo ThinkPad т480").cp)
          (some (("рабочий").cp))).family_id = some 10 ∧
        (classify testClassifierIndex (("Lenovo ThinkPad т480").cp)
          (some (("рабочий").cp))).brand_id = some 1) :=
  ⟨by decide, by decide, by decide,
    classify_ancestry testClassifierIndex (("Lenovo ThinkPad т480").cp)
      (some (("рабочий").cp)) 100 10 1 (by decide) (by decide) (by decide)⟩

/-- C8: on the unit-test alias dictionary (token aliases lenovo, thinkpad,
t480 with canonical ancestry), the item `Lenovo ThinkPad т480` / `рабочий`
classifies with all three ids set, scope `variant` and confidence at least
40. -/
theorem classify_test_item :
    (classify testClassifierIndex (("Lenovo ThinkPad т480").cp)
        (some (("рабочий").cp))).brand_id = some 1 ∧
      (classify testClassifierIndex (("Lenovo ThinkPad т480").cp)
        (some (("рабочий").cp))).family_id = some 10 ∧
      (classify testClassifierIndex (("Lenovo ThinkPad т480").cp)
        (some (("рабочий").cp))).variant_id = some 100 ∧
      (classify testClassifierIndex (("Lenovo ThinkPad т480").cp)
        (some (("рабочий").cp))).debug.scope = ("variant").cp ∧
      (40 : Int) ≤ (classify testClassifierIndex (("Lenovo ThinkPad т480").cp)
        (some (("рабочий").cp))).confidence := by
  decide

/-- C5 counterexample: with 41 phrase aliases all matching the title `a`,
matching produces 41 alias hits but the debug payload records only 40 —
`debug["hits"]` is truncated (`hits[:40]`, classifier.py:365), so a hit is
omitted. -/
theorem classify_hits_dropped :
    (collectHits manyPhraseIdx (norm_text (("a").cp ++ " ".cp ++ []))
        (tokenizeText (norm_text (("a").cp ++ " ".cp ++ [])))).length = 41 ∧
      (classify manyPhraseIdx (("a").cp) none).debug.hits.length = 40 := by
  decide

/-- Debug payload of a non-miss run of the classifier core, as a function of
the normalised text. -/
theorem classifyCore_debug (idx : ClassifierIndex) (text : List Nat)
    (h : classifyCore idx text ≠ defaultResult) :
    (classifyCore idx text).debug.hits =
      ((collectHits idx text (tokenizeText text)).map
        (fun p => mkHit p.1 p.2)).take 40 ∧
      (classifyCore idx text).debug.scores =
        some ⟨top5 ((collectHits idx text (tokenizeText text)).foldl
            (fun b p => addScore b p.1.brand_id p.1.weight) []),
          top5 ((collectHits idx text (tokenizeText text)).foldl
            (fun b p => addScore b p.1.family_id p.1.weight) []),
          top5 ((collectHits idx text (tokenizeText text)).foldl
            (fun b p => addScore b p.1.variant_id p.1.weight) [])⟩ := by
  refine ⟨?_, ?_⟩ <;>
  · simp only [classifyCore] at h ⊢
    split at h
    · exact absurd rfl h
    · rename_i hcond
      rw [if_neg hcond]

/-- C5 (amended): for every non-miss classification the debug payload records
the FIRST FORTY alias hits, in matching order, each as its full record
(type, pattern, weight, why and ids); the chosen scope and the per-scope
top-5 score tables are reported alongside.  Hits beyond the fortieth are
dropped. -/
theorem classify_debug_payload (idx : ClassifierIndex) (title : List Nat)
    (description : Option (List Nat))
    (h : classify idx title description ≠ defaultResult) :
    (classify idx title description).debug.hits =
      ((collectHits idx (norm_text (title ++ " ".cp ++ description.getD []))
          (tokenizeText (norm_text (title ++ " ".cp ++ description.getD [])))).map
        (fun p => mkHit p.1 p.2)).take 40 ∧
      (classify idx title description).debug.scores =
        some ⟨top5 ((collectHits idx (norm_text (title ++ " ".cp ++ description.getD []))
            (tokenizeText (norm_text (title ++ " ".cp ++ description.getD [])))).foldl
              (fun b p => addScore b p.1.brand_id p.1.weight) []),
          top5 ((collectHits idx (norm_text (title ++ " ".cp ++ description.getD []))
            (tokenizeText (norm_text (title ++ " ".cp ++ description.getD [])))).foldl
              (fun b p => addScore b p.1.family_id p.1.weight) []),
          top5 ((collectHits idx (norm_text (title ++ " ".cp ++ description.getD []))
            (tokenizeText (norm_text (title ++ " ".cp ++ description.getD [])))).foldl
              (fun b p => addScore b p.1.variant_id p.1.weight) [])⟩ := by
  unfold classify at h ⊢
  exact classifyCore_debug idx (norm_text (title ++ " ".cp ++ description.getD [])) h

/-- Witness for C5 on the unit-test index: the thinkpad title is a non-miss
classification and its debug payload is the 40-truncated hit list with the
top-5 tables. -/
theorem classify_debug_payload_witness :
    classify testClassifierIndex (("lenovo thinkpad").cp) none ≠ defaultResult ∧
      ((classify testClassifierIndex (("lenovo thinkpad").cp) none).debug.hits =
        ((collectHits testClassifierIndex
            (norm_text (("lenovo thinkpad").cp ++ " ".cp ++ (none : Option (List Nat)).getD []))
            (tokenizeText (norm_text (("lenovo thinkpad").cp ++ " ".cp ++
              (none : Option (List Nat)).getD [])))).map
          (fun p => mkHit p.1 p.2)).take 40 ∧
        (classify testClassifierIndex (("lenovo thinkpad").cp) none).debug.scores =
          some ⟨top5 ((collectHits testClassifierIndex
              (norm_text (("lenovo thinkpad").cp ++ " ".cp ++ (none : Option (List Nat)).getD []))
              (tokenizeText (norm_text (("lenovo thinkpad").cp ++ " ".cp ++
                (none : Option (List Nat)).getD [])))).foldl
                (fun b p => addScore b p.1.brand_id p.1.weight) []),
            top5 ((collectHits testClassifierIndex
              (norm_text (("lenovo thinkpad").cp ++ " ".cp ++ (none : Option (List Nat)).getD []))
              (tokenizeText (norm_text (("lenovo thinkpad").cp ++ " ".cp ++
                (none : Option (List Nat)).getD [])))).foldl
                (fun b p => addScore b p.1.family_id p.1.weight) []),
            top5 ((collectHits testClassifierIndex
              (norm_text (("lenovo thinkpad").cp ++ " ".cp ++ (none : Option (List Nat)).getD []))
              (tokenizeText (norm_text (("lenovo thinkpad").cp ++ " ".cp ++
                (none : Option (List Nat)).getD [])))).foldl
                (fun b p => addScore b p.1.variant_id p.1.weight) [])⟩) :=
  ⟨by decide, classify_debug_payload testClassifierIndex (("lenovo thinkpad").cp) none
    (by decide)⟩

/-- Characters related by the confusable table agree after the ё-folding and
translation stages. -/
theorem confusable_char_eq {a b : Nat}
    (h : a = b ∨ (translateChar (pyLowerChar a) ≠ pyLowerChar a ∧
      translateChar (pyLowerChar a) = pyLowerChar b)) :
    translateChar (yoRepChar (pyLowerChar a)) = translateChar (yoRepChar (pyLowerChar b)) := by
  rcases h with h | ⟨hne, heq⟩
  · rw [h]
  · have hyoa : yoRepChar (pyLowerChar a) = pyLowerChar a := by
      unfold yoRepChar
      rw [if_neg]
      intro hcontra
      rw [hcontra] at hne
      exact hne (by decide)
    have hb451 : pyLowerChar b ≠ 0x451 := by
      rw [← heq]
      rcases translate_out (pyLowerChar a) with h0 | h0 | h0 | h0 | h0 | h0 | h0 | h0
        | h0 | h0 | h0 | h0 | h0
      · exact absurd h0 hne
      all_goals rw [h0]; decide
    have hyob : yoRepChar (pyLowerChar b) = pyLowerChar b := by
      unfold yoRepChar
      rw [if_neg hb451]
    rw [hyoa, hyob, ← heq, translate_idem]

/-- Confusably-equal strings coincide after the translation stage of
`_norm_text`. -/
theorem confusable_translated :
    ∀ {s t : List Nat}, confusablyEqualB s t = true →
      ((pyLower s).map yoRepChar).map translateChar =
        ((pyLower t).map yoRepChar).map translateChar := by
  intro s
  induction s with
  | nil =>
    intro t h
    cases t with
    | nil => rfl
    | cons c u => simp [confusablyEqualB] at h
  | cons a s ih =>
    intro t h
    cases t with
    | nil => simp [confusablyEqualB] at h
    | cons b u =>
      simp only [confusablyEqualB, Bool.and_eq_true, Bool.or_eq_true, beq_iff_eq,
        bne_iff_ne, ne_eq] at h
      have hchar := confusable_char_eq (a := a) (b := b) (by tauto)
      simp only [pyLower, List.map_cons]
      rw [hchar]
      have := ih h.2
      simp only [pyLower] at this
      rw [this]

/-- C7 (amended): two items identical except for visually-confusable Cyrillic
letters in place of their Latin lookalikes classify identically, PROVIDED the
human-spelling replacement table fires on neither lowercased input; without
that proviso the claim fails, because `_HUMAN_REPLACEMENTS` runs before the
confusable translation and sees the two spellings differently. -/
theorem classify_confusable (idx : ClassifierIndex) (t1 t2 : List Nat)
    (d : Option (List Nat))
    (hceq : confusablyEqualB (t1 ++ " ".cp ++ d.getD []) (t2 ++ " ".cp ++ d.getD []) = true)
    (h1 : replace_human_spellings (pyLower (t1 ++ " ".cp ++ d.getD [])) =
      pyLower (t1 ++ " ".cp ++ d.getD []))
    (h2 : replace_human_spellings (pyLower (t2 ++ " ".cp ++ d.getD [])) =
      pyLower (t2 ++ " ".cp ++ d.getD [])) :
    classify idx t1 d = classify idx t2 d := by
  have hD : normStageD (t1 ++ " ".cp ++ d.getD []) = normStageD (t2 ++ " ".cp ++ d.getD []) := by
    unfold normStageD
    rw [h1, h2]
    exact confusable_translated hceq
  have hnorm : norm_text (t1 ++ " ".cp ++ d.getD []) = norm_text (t2 ++ " ".cp ++ d.getD []) := by
    rw [norm_text_as_stages, norm_text_as_stages]
    unfold normStageI normStageH normStageG normStageF
    rw [hD]
  unfold classify
  rw [hnorm]

/-- C7 counterexample: the titles `леново` and `лehobo` are confusably equal,
yet they classify differently on the unit-test index — the human-spelling
table rewrites the all-Cyrillic form to `lenovo` before translation, while
the mixed form never matches it. -/
theorem classify_confusable_cex :
    confusablyEqualB (("леново").cp) (("лehobo").cp) = true ∧
      classify testClassifierIndex (("леново").cp) none ≠
        classify testClassifierIndex (("лehobo").cp) none := by
  decide

/-- Witness for C7: `т480` versus `t480` with an empty description satisfy
the fixed-point hypotheses and classify identically. -/
theorem classify_confusable_witness :
    confusablyEqualB (("т480").cp ++ " ".cp ++ (none : Option (List Nat)).getD [])
        (("t480").cp ++ " ".cp ++ (none : Option (List Nat)).getD []) = true ∧
      replace_human_spellings (pyLower (("т480").cp ++ " ".cp ++
          (none : Option (List Nat)).getD [])) =
        pyLower (("т480").cp ++ " ".cp ++ (none : Option (List Nat)).getD []) ∧
      replace_human_spellings (pyLower (("t480").cp ++ " ".cp ++
          (none : Option (List Nat)).getD [])) =
        pyLower (("t480").cp ++ " ".cp ++ (none : Option (List Nat)).getD []) ∧
      classify testClassifierIndex (("т480").cp) none =
        classify testClassifierIndex (("t480").cp) none :=
  ⟨by decide, by decide, by decide,
    classify_confusable testClassifierIndex (("т480").cp) (("t480").cp) none
      (by decide) (by decide) (by decide)⟩

/-- The last element of a cons is the last element of its non-empty tail. -/
theorem getLastQ_cons {α : Type} {l : List α} (h : l ≠ []) (a : α) :
    (a :: l).getLast? = l.getLast? := by
  cases l with
  | nil => exact absurd rfl h
  | cons b t => rw [List.getLast?_cons_cons]

/-- C3: an attempt of `fetch_page` that receives a hard-block status rotates
the user agent exactly once — to an agent different from the current one when
the pool has an alternative — sleeps exactly 60 seconds and retries the same
request environment at the next attempt; on the last allowed attempt it fails
with `AvitoBlockedError` carrying the status, URL and location, with no
sleep. -/
theorem fetch_blocked_rotation (env : FetchEnv) (fuel attempt : Nat) (ua : List Nat)
    (lastS : Option Nat) (lastL : Option (List Nat)) (status : Nat)
    (loc : Option (List Nat)) (body : List Nat)
    (hout : env.outcomes attempt = .resp status loc body)
    (hstatus : status ∈ blockStatuses)
    (hchoice : ∀ l : List (List Nat), l ≠ [] → env.choice l ∈ l)
    (halt : ∃ u ∈ userAgentPool, u ≠ ua) :
    rotate_user_agent env.choice ua ≠ ua ∧
      (attempt ≠ env.maxTries →
        fetchGo env (fuel + 1) attempt ua lastS lastL =
          ((fetchGo env fuel (attempt + 1) (rotate_user_agent env.choice ua)
              (some status) loc).1,
            [FetchEv.rotated (rotate_user_agent env.choice ua), FetchEv.slept 60] ::
              (fetchGo env fuel (attempt + 1) (rotate_user_agent env.choice ua)
                (some status) loc).2)) ∧
      (attempt = env.maxTries →
        fetchGo env (fuel + 1) attempt ua lastS lastL =
          (.blockedStatus status env.url loc,
            [[FetchEv.rotated (rotate_user_agent env.choice ua)]])) := by
  have hne200 : ¬(status = 200) := by
    simp only [blockStatuses, List.mem_cons, List.not_mem_nil, or_false] at hstatus
    rcases hstatus with h | h | h <;> omega
  refine ⟨?_, ?_, ?_⟩
  · obtain ⟨u, hu, hune⟩ := halt
    unfold rotate_user_agent pickCandidates
    have hmem : u ∈ userAgentPool.filter (fun v => v != ua) :=
      List.mem_filter.mpr ⟨hu, by simpa using hune⟩
    have hnnil : userAgentPool.filter (fun v => v != ua) ≠ [] := by
      intro hc
      rw [hc] at hmem
      exact absurd hmem (List.not_mem_nil u)
    have hempty : (userAgentPool.filter (fun v => v != ua)).isEmpty = false := by
      cases hflt : userAgentPool.filter (fun v => v != ua) with
      | nil => exact absurd hflt hnnil
      | cons a t => rfl
    simp only [hempty, Bool.false_eq_true, if_false]
    have hch := hchoice (userAgentPool.filter (fun v => v != ua)) hnnil
    have hprop := List.mem_filter.mp hch
    simpa using hprop.2
  · intro hnlast
    simp only [fetchGo, hout]
    rw [if_neg hne200, if_pos hstatus, if_neg hnlast]
  · intro hlast
    simp only [fetchGo, hout]
    rw [if_neg hne200, if_pos hstatus, if_pos hlast]

/-- Witness for C3 on the rate-limited fixture: attempt 1 receives 429,
rotates away from the initial user agent, emits exactly one rotation and one
60-second sleep, and retries attempt 2. -/
theorem fetch_blocked_rotation_witness :
    fetchEnv429.outcomes 1 = .resp 429 none (("too many requests").cp) ∧
      429 ∈ blockStatuses ∧
      rotate_user_agent fetchEnv429.choice (("UA-INITIAL").cp) ≠ ("UA-INITIAL").cp ∧
      fetchGo fetchEnv429 2 1 (("UA-INITIAL").cp) none none =
        ((fetchGo fetchEnv429 1 2
            (rotate_user_agent fetchEnv429.choice (("UA-INITIAL").cp)) (some 429) none).1,
          [FetchEv.rotated (rotate_user_agent fetchEnv429.choice (("UA-INITIAL").cp)),
            FetchEv.slept 60] ::
            (fetchGo fetchEnv429 1 2
              (rotate_user_agent fetchEnv429.choice (("UA-INITIAL").cp)) (some 429) none).2) :=
  ⟨by decide, by decide,
    (fetch_blocked_rotation fetchEnv429 1 1 (("UA-INITIAL").cp) none none 429 none
      (("too many requests").cp) (by decide) (by decide)
      (fun l hl => by
        cases l with
        | nil => exact absurd rfl hl
        | cons a t => exact List.mem_cons_self a t)
      ⟨userAgentPool.headD [], by decide, by decide⟩).1,
    (fetch_blocked_rotation fetchEnv429 1 1 (("UA-INITIAL").cp) none none 429 none
      (("too many requests").cp) (by decide) (by decide)
      (fun l hl => by
        cases l with
        | nil => exact absurd rfl hl
        | cons a t => exact List.mem_cons_self a t)
      ⟨userAgentPool.headD [], by decide, by decide⟩).2.1 (by decide)⟩

/-- The attempt loop performs at most `fuel` attempts (one side-effect group
per attempt). -/
theorem fetchGo_len (env : FetchEnv) :
    ∀ (fuel attempt : Nat) (ua : List Nat) (lastS : Option Nat)
      (lastL : Option (List Nat)),
      (fetchGo env fuel attempt ua lastS lastL).2.length ≤ fuel := by
  intro fuel
  induction fuel with
  | zero => intro attempt ua lastS lastL; simp [fetchGo]
  | succ n ih =>
    intro attempt ua lastS lastL
    cases hout : env.outcomes attempt with
    | netErr =>
      by_cases hlast : attempt = env.maxTries
      · simp only [fetchGo, hout]
        rw [if_pos hlast]
        simp
      · simp only [fetchGo, hout]
        rw [if_neg hlast]
        simpa using Nat.succ_le_succ (ih (attempt + 1) ua lastS lastL)
    | resp status loc body =>
      by_cases h200 : status = 200
      · simp [fetchGo, hout, h200]
      · by_cases hblock : status ∈ blockStatuses
        · by_cases hlast : attempt = env.maxTries
          · simp only [fetchGo, hout]
            rw [if_neg h200, if_pos hblock, if_pos hlast]
            simp
          · simp only [fetchGo, hout]
            rw [if_neg h200, if_pos hblock, if_neg hlast]
            simpa using Nat.succ_le_succ
              (ih (attempt + 1) (rotate_user_agent env.choice ua) (some status) loc)
        · by_cases hred : status ∈ redirectStatuses
          · by_cases hloc : looksLikeBlockLoc (loc.getD []) = true
            · by_cases hlast : attempt = env.maxTries
              · simp only [fetchGo, hout]
                rw [if_neg h200, if_neg hblock, if_pos hred, if_pos hloc, if_pos hlast]
                simp
              · simp only [fetchGo, hout]
                rw [if_neg h200, if_neg hblock, if_pos hred, if_pos hloc, if_neg hlast]
                simpa using Nat.succ_le_succ
                  (ih (attempt + 1) (rotate_user_agent env.choice ua) (some status) loc)
            · by_cases hlast : attempt = env.maxTries
              · simp only [fetchGo, hout]
                rw [if_neg h200, if_neg hblock, if_pos hred, if_neg hloc, if_pos hlast]
                simp
              · simp only [fetchGo, hout]
                rw [if_neg h200, if_neg hblock, if_pos hred, if_neg hloc, if_neg hlast]
                simpa using Nat.succ_le_succ (ih (attempt + 1) ua (some status) loc)
          · simp only [fetchGo, hout]
            rw [if_neg h200, if_neg hblock, if_neg hred]
            simp

/-- Every run of the attempt loop either returns the body of a 200 response
received by one of its attempts, or ends in a raise. -/
theorem fetchGo_success_source (env : FetchEnv) :
    ∀ (fuel attempt : Nat) (ua : List Nat) (lastS : Option Nat)
      (lastL : Option (List Nat)),
      (∃ body, (fetchGo env fuel attempt ua lastS lastL).1 = .success body ∧
        ∃ a loc, attempt ≤ a ∧ a < attempt + fuel ∧
          env.outcomes a = .resp 200 loc body) ∨
      raisesB (fetchGo env fuel attempt ua lastS lastL).1 = true := by
  intro fuel
  induction fuel with
  | zero => intro attempt ua lastS lastL; right; rfl
  | succ n ih =>
    intro attempt ua lastS lastL
    cases hout : env.outcomes attempt with
    | netErr =>
      by_cases hlast : attempt = env.maxTries
      · right
        simp only [fetchGo, hout]
        rw [if_pos hlast]
        rfl
      · simp only [fetchGo, hout]
        rw [if_neg hlast]
        rcases ih (attempt + 1) ua lastS lastL with ⟨body, hb, a, loc2, h1, h2, h3⟩ | hr
        · exact Or.inl ⟨body, hb, a, loc2, by omega, by omega, h3⟩
        · exact Or.inr hr
    | resp status loc body =>
      by_cases h200 : status = 200
      · left
        subst h200
        refine ⟨body, ?_, attempt, loc, le_refl _, by omega, hout⟩
        simp only [fetchGo, hout]
        simp
      · by_cases hblock : status ∈ blockStatuses
        · by_cases hlast : attempt = env.maxTries
          · right
            simp only [fetchGo, hout]
            rw [if_neg h200, if_pos hblock, if_pos hlast]
            rfl
          · simp only [fetchGo, hout]
            rw [if_neg h200, if_pos hblock, if_neg hlast]
            rcases ih (attempt + 1) (rotate_user_agent env.choice ua) (some status) loc
              with ⟨b2, hb, a, l2, h1, h2, h3⟩ | hr
            · exact Or.inl ⟨b2, hb, a, l2, by omega, by omega, h3⟩
            · exact Or.inr hr
        · by_cases hred : status ∈ redirectStatuses
          · by_cases hloc : looksLikeBlockLoc (loc.getD []) = true
            · by_cases hlast : attempt = env.maxTries
              · right
                simp only [fetchGo, hout]
                rw [if_neg h200, if_neg hblock, if_pos hred, if_pos hloc, if_pos hlast]
                rfl
              · simp only [fetchGo, hout]
                rw [if_neg h200, if_neg hblock, if_pos hred, if_pos hloc, if_neg hlast]
                rcases ih (attempt + 1) (rotate_user_agent env.choice ua) (some status) loc
                  with ⟨b2, hb, a, l2, h1, h2, h3⟩ | hr
                · exact Or.inl ⟨b2, hb, a, l2, by omega, by omega, h3⟩
                · exact Or.inr hr
            · by_cases hlast : attempt = env.maxTries
              · right
                simp only [fetchGo, hout]
                rw [if_neg h200, if_neg hblock, if_pos hred, if_neg hloc, if_pos hlast]
                rfl
              · simp only [fetchGo, hout]
                rw [if_neg h200, if_neg hblock, if_pos hred, if_neg hloc, if_neg hlast]
                rcases ih (attempt + 1) ua (some status) loc
                  with ⟨b2, hb, a, l2, h1, h2, h3⟩ | hr
                · exact Or.inl ⟨b2, hb, a, l2, by omega, by omega, h3⟩
                · exact Or.inr hr
          · right
            simp only [fetchGo, hout]
            rw [if_neg h200, if_neg hblock, if_neg hred]
            rfl

/-- When every attempt up to `max_tries` ends retryable, the loop performs
exactly its remaining attempts, raises a blocked error, and the final
attempt's side-effect group contains no sleep. -/
theorem fetchGo_all_retryable (env : FetchEnv) :
    ∀ (fuel attempt : Nat) (ua : List Nat) (lastS : Option Nat)
      (lastL : Option (List Nat)),
      1 ≤ fuel → attempt + fuel = env.maxTries + 1 →
      (∀ a, attempt ≤ a → a ≤ env.maxTries → retryable (env.outcomes a) = true) →
      isBlockedRes (fetchGo env fuel attempt ua lastS lastL).1 = true ∧
        (fetchGo env fuel attempt ua lastS lastL).2.length = fuel ∧
        ∀ g, (fetchGo env fuel attempt ua lastS lastL).2.getLast? = some g →
          hasSleep g = false := by
  intro fuel
  induction fuel with
  | zero => intro attempt ua lastS lastL h1; omega
  | succ n ih =>
    intro attempt ua lastS lastL h1 hsum hall
    have hattle : attempt ≤ env.maxTries := by omega
    have hretry := hall attempt (le_refl attempt) hattle
    cases hout : env.outcomes attempt with
    | netErr =>
      by_cases hlast : attempt = env.maxTries
      · simp only [fetchGo, hout]
        rw [if_pos hlast]
        refine ⟨rfl, by simp; omega, ?_⟩
        intro g hg
        simp at hg
        subst hg
        rfl
      · have hrec := ih (attempt + 1) ua lastS lastL (by omega) (by omega)
          (fun a ha1 ha2 => hall a (by omega) ha2)
        simp only [fetchGo, hout]
        rw [if_neg hlast]
        refine ⟨hrec.1, by simp [hrec.2.1], ?_⟩
        intro g hg
        have hne : (fetchGo env n (attempt + 1) ua lastS lastL).2 ≠ [] := by
          intro hc
          have hlen := hrec.2.1
          rw [hc] at hlen
          simp at hlen
          omega
        rw [getLastQ_cons hne] at hg
        exact hrec.2.2 g hg
    | resp status loc body =>
      rw [hout] at hretry
      simp [retryable, blockStatuses, redirectStatuses] at hretry
      have h200 : ¬(status = 200) := by omega
      by_cases hblock : status ∈ blockStatuses
      · by_cases hlast : attempt = env.maxTries
        · simp only [fetchGo, hout]
          rw [if_neg h200, if_pos hblock, if_pos hlast]
          refine ⟨rfl, by simp; omega, ?_⟩
          intro g hg
          simp at hg
          subst hg
          rfl
        · have hrec := ih (attempt + 1) (rotate_user_agent env.choice ua)
            (some status) loc (by omega) (by omega)
            (fun a ha1 ha2 => hall a (by omega) ha2)
          simp only [fetchGo, hout]
          rw [if_neg h200, if_pos hblock, if_neg hlast]
          refine ⟨hrec.1, by simp [hrec.2.1], ?_⟩
          intro g hg
          have hne : (fetchGo env n (attempt + 1) (rotate_user_agent env.choice ua)
              (some status) loc).2 ≠ [] := by
            intro hc
            have hlen := hrec.2.1
            rw [hc] at hlen
            simp at hlen
            omega
          rw [getLastQ_cons hne] at hg
          exact hrec.2.2 g hg
      · have hred : status ∈ redirectStatuses := by
          simp [blockStatuses] at hblock
          simp [redirectStatuses]
          omega
        by_cases hloc : looksLikeBlockLoc (loc.getD []) = true
        · by_cases hlast : attempt = env.maxTries
          · simp only [fetchGo, hout]
            rw [if_neg h200, if_neg hblock, if_pos hred, if_pos hloc, if_pos hlast]
            refine ⟨rfl, by simp; omega, ?_⟩
            intro g hg
            simp at hg
            subst hg
            rfl
          · have hrec := ih (attempt + 1) (rotate_user_agent env.choice ua)
              (some status) loc (by omega) (by omega)
              (fun a ha1 ha2 => hall a (by omega) ha2)
            simp only [fetchGo, hout]
            rw [if_neg h200, if_neg hblock, if_pos hred, if_pos hloc, if_neg hlast]
            refine ⟨hrec.1, by simp [hrec.2.1], ?_⟩
            intro g hg
            have hne : (fetchGo env n (attempt + 1) (rotate_user_agent env.choice ua)
                (some status) loc).2 ≠ [] := by
              intro hc
              have hlen := hrec.2.1
              rw [hc] at hlen
              simp at hlen
              omega
            rw [getLastQ_cons hne] at hg
            exact hrec.2.2 g hg
        · by_cases hlast : attempt = env.maxTries
          · simp only [fetchGo, hout]
            rw [if_neg h200, if_neg hblock, if_pos hred, if_neg hloc, if_pos hlast]
            refine ⟨rfl, by simp; omega, ?_⟩
            intro g hg
            simp at hg
            subst hg
            rfl
          · have hrec := ih (attempt + 1) ua (some status) loc (by omega) (by omega)
              (fun a ha1 ha2 => hall a (by omega) ha2)
            simp only [fetchGo, hout]
            rw [if_neg h200, if_neg hblock, if_pos hred, if_neg hloc, if_neg hlast]
            refine ⟨hrec.1, by simp [hrec.2.1], ?_⟩
            intro g hg
            have hne : (fetchGo env n (attempt + 1) ua (some status) loc).2 ≠ [] := by
              intro hc
              have hlen := hrec.2.1
              rw [hc] at hlen
              simp at hlen
              omega
            rw [getLastQ_cons hne] at hg
            exact hrec.2.2 g hg

/-- C10: `fetch_page` performs at most `max_tries` attempts; it either
returns the body of a 200 response received by one of those attempts or ends
in a raise, and when every allowed attempt ends retryable it raises
`AvitoBlockedError` with no sleep after the final attempt. -/
theorem fetch_page_terminates (env : FetchEnv) (ua : List Nat) :
    (fetch_page env ua).2.length ≤ env.maxTries ∧
      ((∃ body, (fetch_page env ua).1 = .success body ∧
          ∃ a loc, 1 ≤ a ∧ a ≤ env.maxTries ∧
            env.outcomes a = .resp 200 loc body) ∨
        raisesB (fetch_page env ua).1 = true) ∧
      (1 ≤ env.maxTries →
        (∀ a, 1 ≤ a → a ≤ env.maxTries → retryable (env.outcomes a) = true) →
        isBlockedRes (fetch_page env ua).1 = true ∧
          ∀ g, (fetch_page env ua).2.getLast? = some g → hasSleep g = false) := by
  unfold fetch_page
  refine ⟨fetchGo_len env env.maxTries 1 ua none none, ?_, ?_⟩
  · rcases fetchGo_success_source env env.maxTries 1 ua none none with
      ⟨body, hb, a, loc, ha1, ha2, ha3⟩ | hr
    · exact Or.inl ⟨body, hb, a, loc, ha1, by omega, ha3⟩
    · exact Or.inr hr
  · intro hm hall
    have h := fetchGo_all_retryable env env.maxTries 1 ua none none hm (by omega) hall
    exact ⟨h.1, h.2.2⟩

/-- Witness for C10 on the always-rate-limited fixture: the run raises a
blocked error and its final attempt slept not at all. -/
theorem fetch_page_terminates_witness :
    isBlockedRes (fetch_page fetchEnvAlways429 (("UA-INITIAL").cp)).1 = true ∧
      hasSleep ((fetch_page fetchEnvAlways429
        (("UA-INITIAL").cp)).2.getLast?.getD []) = false :=
  ⟨((fetch_page_terminates fetchEnvAlways429 (("UA-INITIAL").cp)).2.2 (by decide)
      (fun a h1 h2 => rfl)).1,
    ((fetch_page_terminates fetchEnvAlways429 (("UA-INITIAL").cp)).2.2 (by decide)
      (fun a h1 h2 => rfl)).2 _ (by decide)⟩

/-- Run of the page loop up to the first stopping page `q`: pages before `q`
fetch, pass the protection check and parse to non-empty card lists; page `q`
then either trips the protection check (aborting with the blocked error) or
parses to zero cards (stopping normally with the accumulated pages). -/
theorem fetchPagesGo_run (env : CrawlEnv) (bodies : Nat → List Nat)
    (cardsOf : Nat → List ParsedCard) :
    ∀ (fuel start q : Nat) (acc : List (List ParsedCard)),
      start ≤ q → q < start + fuel →
      (∀ p, start ≤ p → p < q →
        env.fetchBody p = .ok (bodies p) ∧
        looks_like_protection (bodies p) = false ∧
        parse_catalog_page env.dom (bodies p) = .ok (cardsOf p) ∧
        cardsOf p ≠ []) →
      env.fetchBody q = .ok (bodies q) →
      (looks_like_protection (bodies q) = true →
        fetchPagesGo env fuel start acc =
          (.error (.protectionDetected q), List.range' start (q - start + 1))) ∧
      (looks_like_protection (bodies q) = false →
        parse_catalog_page env.dom (bodies q) = .ok [] →
        fetchPagesGo env fuel start acc =
          (.ok (acc ++ (List.range' start (q - start)).map cardsOf),
            List.range' start (q - start + 1))) := by
  intro fuel
  induction fuel with
  | zero => intro start q acc hle hlt; omega
  | succ n ih =>
    intro start q acc hle hlt hpre hq
    by_cases heq : start = q
    · subst heq
      constructor
      · intro hprot
        simp only [fetchPagesGo, hq, hprot, if_true]
        simp
      · intro hnoprot hparse
        simp only [fetchPagesGo, hq]
        rw [if_neg (by simp [hnoprot])]
        simp only [hparse]
        simp
    · have hlt2 : start < q := by omega
      obtain ⟨hfb, hnp, hpc, hne⟩ := hpre start (le_refl _) hlt2
      have hrec := ih (start + 1) q (acc ++ [cardsOf start]) (by omega) (by omega)
        (fun p hp1 hp2 => hpre p (by omega) hp2) hq
      rw [show q - (start + 1) + 1 = q - start from by omega] at hrec
      have hemp : (cardsOf start).isEmpty = false := by
        cases hcs : cardsOf start with
        | nil => exact absurd hcs hne
        | cons a t => rfl
      have hcons : List.range' start (q - start + 1) =
          start :: List.range' (start + 1) (q - start) := rfl
      simp only [fetchPagesGo, hfb]
      rw [if_neg (by simp [hnp])]
      simp only [hpc, hemp, Bool.false_eq_true, if_false]
      constructor
      · intro hprot
        rw [hrec.1 hprot, hcons]
      · intro hnoprot hparse
        rw [hrec.2 hnoprot hparse, hcons]
        have hcons2 : List.range' start (q - start) =
            start :: List.range' (start + 1) (q - start - 1) := by
          obtain ⟨k, hk⟩ : ∃ k, q - start = k + 1 := ⟨q - start - 1, by omega⟩
          rw [hk]
          rfl
        rw [show q - (start + 1) = q - start - 1 from by omega, hcons2]
        simp

/-- C4: in a paginated sweep, the first page whose body matches a protection
marker (even though it arrived with status 200) aborts the source with the
blocked error and no page beyond it is fetched, whereas a first page that
parses to zero cards stops the sweep normally, returning the pages
accumulated so far without an error. -/
theorem fetch_pages_stop (env : CrawlEnv) (bodies : Nat → List Nat)
    (cardsOf : Nat → List ParsedCard) (q : Nat)
    (h1 : 1 ≤ q) (h2 : q ≤ env.maxPages)
    (hpre : ∀ p, 1 ≤ p → p < q →
      env.fetchBody p = .ok (bodies p) ∧
      looks_like_protection (bodies p) = false ∧
      parse_catalog_page env.dom (bodies p) = .ok (cardsOf p) ∧
      cardsOf p ≠ [])
    (hq : env.fetchBody q = .ok (bodies q)) :
    (looks_like_protection (bodies q) = true →
      fetch_pages env = (.error (.protectionDetected q), List.range' 1 q)) ∧
    (looks_like_protection (bodies q) = false →
      parse_catalog_page env.dom (bodies q) = .ok [] →
      fetch_pages env =
        (.ok ((List.range' 1 (q - 1)).map cardsOf), List.range' 1 q)) := by
  unfold fetch_pages
  have h := fetchPagesGo_run env bodies cardsOf env.maxPages 1 q [] h1 (by omega)
    hpre hq
  rw [show q - 1 + 1 = q from by omega] at h
  constructor
  · exact h.1
  · intro hnoprot hparse
    have := h.2 hnoprot hparse
    simpa using this

/-- Witness for C4 on the two crawl fixtures: the protection interstitial on
page 2 aborts with the blocked error after fetching pages 1-2, while the
no-cards page 2 ends the sweep normally with page 1's cards. -/
theorem fetch_pages_stop_witness :
    fetch_pages crawlEnvProtection =
      (.error (.protectionDetected 2), List.range' 1 2) ∧
    fetch_pages crawlEnvEmpty =
      (.ok ((List.range' 1 (2 - 1)).map
          (fun _ => [extractCard (("page-one").cp) cardFixture])),
        List.range' 1 2) :=
  ⟨(fetch_pages_stop crawlEnvProtection
      (fun p => if p = 1 then ("page-one").cp else ("please solve the captcha").cp)
      (fun _ => [extractCard (("page-one").cp) cardFixture]) 2 (by decide) (by decide)
      (fun p hp1 hp2 => by
        have hp : p = 1 := by omega
        subst hp
        exact ⟨rfl, by decide, by decide, by decide⟩)
      rfl).1 (by decide),
    (fetch_pages_stop crawlEnvEmpty
      (fun p => if p = 1 then ("page-one").cp else ("ничего не найдено").cp)
      (fun _ => [extractCard (("page-one").cp) cardFixture]) 2 (by decide) (by decide)
      (fun p hp1 hp2 => by
        have hp : p = 1 := by omega
        subst hp
        exact ⟨rfl, by decide, by decide, by decide⟩)
      rfl).2 (by decide) (by decide)⟩

/-- `_extract_url` falls back to the bare site root when no href is
root-relative. -/
theorem extract_url_no_rel (hrefs : List (List Nat)) (itemId : Option (List Nat))
    (hre : ∀ h ∈ hrefs, startsWith ("/".cp) h = false) :
    extract_url hrefs itemId = ("https://www.avito.ru").cp := by
  have hf : hrefs.find? (fun h => startsWith ("/".cp) h) = none :=
    List.find?_eq_none.mpr (fun x hx => by simp [hre x hx])
  unfold extract_url
  cases itemId with
  | none => simp [hf]
  | some i =>
    have hf2 : hrefs.find? (fun h => startsWith ("/".cp) h && hasSub i h) = none :=
      List.find?_eq_none.mpr (fun x hx => by simp [hre x hx])
    simp [hf, hf2]

/-- C6: the extractor's robustness claim.  The per-card fallbacks do hold —
a card with an empty (or absent) title gets the synthetic `Avito item <id>`
title, and a card with no root-relative link still gets the bare site root as
its URL — but `parse_catalog_page` is NOT total: it calls `lxml`'s
`html.fromstring` with no exception handler, and on the empty document that
call raises `ParserError`, so the claim that it never throws is a code bug.
The DOM layer is the oracle `dom`; `dom [] = none` states the `lxml`
behaviour on the empty document. -/
theorem parse_catalog_robustness (dom : DomOracle) (hdom : dom [] = none) :
    parse_catalog_page dom [] = .error .docError ∧
      (∀ (html : List Nat) (c : CardNode),
        norm_join ((firstText c.nameTexts).getD []) = [] →
        (extractCard html c).title =
          stripWs (("Avito item ").cp ++ ((extractCard html c).external_id).getD [])) ∧
      (∀ (html : List Nat) (c : CardNode),
        (∀ h ∈ c.hrefs, startsWith ("/".cp) h = false) →
        (extractCard html c).url = ("https://www.avito.ru").cp) := by
  refine ⟨?_, ?_, ?_⟩
  · unfold parse_catalog_page
    rw [hdom]
  · intro html c h
    simp only [extractCard]
    rw [if_pos h]
  · intro html c hre
    simp only [extractCard]
    exact extract_url_no_rel _ _ hre

/-- Witness for C6: the fixture DOM fails on the empty document and the two
fallbacks fire on a bare card. -/
theorem parse_catalog_robustness_witness :
    domFixture [] = none ∧
      parse_catalog_page domFixture [] = .error .docError ∧
      (extractCard [] bareCardFixture).title =
        stripWs (("Avito item ").cp ++ ((extractCard [] bareCardFixture).external_id).getD []) ∧
      (extractCard [] bareCardFixture).url = ("https://www.avito.ru").cp :=
  ⟨by decide, (parse_catalog_robustness domFixture (by decide)).1,
    (parse_catalog_robustness domFixture (by decide)).2.1 [] bareCardFixture (by decide),
    (parse_catalog_robustness domFixture (by decide)).2.2 [] bareCardFixture (by decide)⟩

/-- `takeWhile` passes over a fully-satisfying prefix. -/
theorem takeWhile_append_all {p : Nat → Bool} :
    ∀ {a b : List Nat}, (∀ c ∈ a, p c = true) →
      (a ++ b).takeWhile p = a ++ b.takeWhile p := by
  intro a
  induction a with
  | nil => intro b _; rfl
  | cons x t ih =>
    intro b h
    simp only [List.cons_append, List.takeWhile_cons, h x (List.mem_cons_self x t),
      if_true]
    rw [ih (fun c hc => h c (List.mem_cons_of_mem x hc))]

/-- `dropWhile` drops a fully-satisfying prefix. -/
theorem dropWhile_append_all {p : Nat → Bool} :
    ∀ {a b : List Nat}, (∀ c ∈ a, p c = true) →
      (a ++ b).dropWhile p = b.dropWhile p := by
  intro a
  induction a with
  | nil => intro b _; rfl
  | cons x t ih =>
    intro b h
    simp only [List.cons_append, List.dropWhile_cons, h x (List.mem_cons_self x t),
      if_true]
    exact ih (fun c hc => h c (List.mem_cons_of_mem x hc))

/-- `takeWhile`/`dropWhile` when the suffix starts with a failing character. -/
theorem takeWhile_append_stop {p : Nat → Bool} {a b : List Nat}
    (ha : ∀ c ∈ a, p c = true) (hb : ∀ c, b.head? = some c → p c = false) :
    (a ++ b).takeWhile p = a ∧ (a ++ b).dropWhile p = b := by
  constructor
  · rw [takeWhile_append_all ha]
    cases b with
    | nil => simp
    | cons x t =>
      rw [List.takeWhile_cons, if_neg (by simp [hb x rfl])]
      simp
  · rw [dropWhile_append_all ha]
    exact dropWhile_id_of_head hb

/-- Splitting at the first delimiter occurrence. -/
theorem splitFirst_append {c : Nat} {a b : List Nat} (ha : c ∉ a) :
    splitFirst c (a ++ c :: b) = some (a, b) := by
  unfold splitFirst
  have hc : (a ++ c :: b).contains c = true := by simp
  rw [if_pos hc]
  have hall : ∀ x ∈ a, (x != c) = true :=
    fun x hx => bne_iff_ne.mpr (fun he => ha (he ▸ hx))
  have hstop := takeWhile_append_stop (b := c :: b) hall
    (fun x hx => by
      simp only [List.head?_cons, Option.some.injEq] at hx
      subst hx
      simp)
  rw [hstop.1, hstop.2]
  simp

/-- No delimiter, no split. -/
theorem splitFirst_none {c : Nat} {l : List Nat} (h : c ∉ l) :
    splitFirst c l = none := by
  unfold splitFirst
  rw [if_neg (by simpa using h)]


/-- Shape of `urlunsplit` for an http(s)-style split with an authority. -/
theorem urlunsplit_shape (scheme netloc path query fragment : List Nat)
    (hn : netloc ≠ [])
    (hp : path = [] ∨ startsWith ("/".cp) path = true)
    (hsne : scheme ≠ []) :
    urlunsplitCp ⟨scheme, netloc, path, query, fragment⟩ =
      scheme ++ 58 :: 47 :: 47 :: (netloc ++ path ++
        (if query = [] then [] else 63 :: query) ++
        (if fragment = [] then [] else 35 :: fragment)) := by
  unfold urlunsplitCp
  dsimp only
  have hcond : ¬(path ≠ [] ∧ startsWith ("/".cp) path = false) := by
    rcases hp with h | h
    · intro hc; exact hc.1 h
    · intro hc; rw [h] at hc; cases hc.2
  rw [if_pos (Or.inl hn), if_neg hcond, if_pos hsne]
  by_cases hqe : query = [] <;> by_cases hfe : fragment = []
  · rw [if_neg (by simp [hfe]), if_neg (by simp [hqe])]
    simp [hqe, hfe, show ("//").cp = [47, 47] from by decide]
  · rw [if_pos hfe, if_neg (by simp [hqe])]
    simp [hqe, hfe, show ("//").cp = [47, 47] from by decide]
  · rw [if_neg (by simp [hfe]), if_pos hqe]
    simp [hqe, hfe, show ("//").cp = [47, 47] from by decide]
  · rw [if_pos hfe, if_pos hqe]
    simp [hqe, hfe, show ("//").cp = [47, 47] from by decide]

/-- `urlsplit` over a reassembled authority URL: scheme and netloc are
recovered and the remainder is handled by the tail stage. -/
theorem urlsplit_core (scheme netloc rest2 : List Nat)
    (hsne : scheme ≠ []) (hs58 : (58 : Nat) ∉ scheme)
    (hsTRN : ∀ c ∈ scheme, c ≠ 9 ∧ c ≠ 10 ∧ c ≠ 13)
    (hshead : ∀ c, scheme.head? = some c → isAsciiAlpha c = true)
    (hschars : scheme.all isSchemeChar = true)
    (hslow : pyLower scheme = scheme)
    (hnc : ∀ c ∈ netloc, c ≠ 47 ∧ c ≠ 63 ∧ c ≠ 35 ∧ c ≠ 9 ∧ c ≠ 10 ∧ c ≠ 13)
    (hr2head : ∀ c, rest2.head? = some c → c = 47 ∨ c = 63 ∨ c = 35)
    (hr2TRN : ∀ c ∈ rest2, c ≠ 9 ∧ c ≠ 10 ∧ c ≠ 13) :
    urlsplitCp (scheme ++ 58 :: 47 :: 47 :: (netloc ++ rest2)) =
      ⟨scheme, netloc, (urlsplitTail rest2).1, (urlsplitTail rest2).2.1,
        (urlsplitTail rest2).2.2⟩ := by
  simp only [urlsplitCp, urlsplitTail]
  have hfil : (scheme ++ 58 :: 47 :: 47 :: (netloc ++ rest2)).filter
      (fun c => c != 9 && c != 10 && c != 13) =
      scheme ++ 58 :: 47 :: 47 :: (netloc ++ rest2) := by
    rw [List.filter_eq_self]
    intro c hc
    simp only [List.mem_append, List.mem_cons] at hc
    have hcne : c ≠ 9 ∧ c ≠ 10 ∧ c ≠ 13 := by
      rcases hc with h | h | h | h | h | h
      · exact hsTRN c h
      · subst h; exact ⟨by omega, by omega, by omega⟩
      · subst h; exact ⟨by omega, by omega, by omega⟩
      · subst h; exact ⟨by omega, by omega, by omega⟩
      · have := hnc c h; exact ⟨this.2.2.2.1, this.2.2.2.2.1, this.2.2.2.2.2⟩
      · exact hr2TRN c h
    simp [hcne.1, hcne.2.1, hcne.2.2]
  rw [hfil, splitFirst_append hs58]
  cases scheme with
  | nil => exact absurd rfl hsne
  | cons c0 s0 =>
    have hA : isAsciiAlpha c0 = true := hshead c0 rfl
    have hcond : (isAsciiAlpha c0 && (c0 :: s0).all isSchemeChar) = true := by
      simp [hA, hschars]
    dsimp only
    rw [if_pos hcond, hslow]
    have hsw : startsWith ("//".cp) (47 :: 47 :: (netloc ++ rest2)) = true := by
      rw [show ("//").cp = [47, 47] from by decide]
      simp [startsWith]
    rw [if_pos hsw]
    simp only [List.drop_succ_cons, List.drop_zero]
    have hstop := takeWhile_append_stop (a := netloc) (b := rest2)
      (p := fun c => c != 47 && c != 63 && c != 35)
      (fun c hc => by
        have := hnc c hc
        simp [this.1, this.2.1, this.2.2.1])
      (fun c hc => by
        rcases hr2head c hc with h | h | h <;> subst h <;> decide)
    rw [hstop.1, hstop.2]

/-- Tail stage with neither query nor fragment. -/
theorem urlsplitTail_plain (path : List Nat)
    (hpc : ∀ c ∈ path, c ≠ 63 ∧ c ≠ 35) :
    urlsplitTail path = (path, [], []) := by
  unfold urlsplitTail
  rw [splitFirst_none (fun h => (hpc 35 h).2 rfl)]
  dsimp only
  rw [splitFirst_none (fun h => (hpc 63 h).1 rfl)]

/-- Tail stage with a query and no fragment. -/
theorem urlsplitTail_query (path query : List Nat)
    (hpc : ∀ c ∈ path, c ≠ 63 ∧ c ≠ 35)
    (hq35 : ∀ c ∈ query, c ≠ 35) :
    urlsplitTail (path ++ 63 :: query) = (path, query, []) := by
  unfold urlsplitTail
  rw [splitFirst_none (l := path ++ 63 :: query) (fun h => by
    simp only [List.mem_append, List.mem_cons] at h
    rcases h with h | h | h
    · exact (hpc 35 h).2 rfl
    · omega
    · exact hq35 35 h rfl)]
  dsimp only
  rw [splitFirst_append (fun h => (hpc 63 h).1 rfl)]

/-- Tail stage with a fragment and no query. -/
theorem urlsplitTail_frag (path fragment : List Nat)
    (hpc : ∀ c ∈ path, c ≠ 63 ∧ c ≠ 35) :
    urlsplitTail (path ++ 35 :: fragment) = (path, [], fragment) := by
  unfold urlsplitTail
  rw [splitFirst_append (fun h => (hpc 35 h).2 rfl)]
  dsimp only
  rw [splitFirst_none (fun h => (hpc 63 h).1 rfl)]

/-- Tail stage with both query and fragment. -/
theorem urlsplitTail_both (path query fragment : List Nat)
    (hpc : ∀ c ∈ path, c ≠ 63 ∧ c ≠ 35)
    (hq35 : ∀ c ∈ query, c ≠ 35) :
    urlsplitTail (path ++ 63 :: (query ++ 35 :: fragment)) =
      (path, query, fragment) := by
  unfold urlsplitTail
  have hsh : path ++ 63 :: (query ++ 35 :: fragment) =
      (path ++ 63 :: query) ++ 35 :: fragment := by simp
  rw [hsh, splitFirst_append (fun h => by
    simp only [List.mem_append, List.mem_cons] at h
    rcases h with h | h | h
    · exact (hpc 35 h).2 rfl
    · omega
    · exact hq35 35 h rfl)]
  dsimp only
  rw [splitFirst_append (fun h => (hpc 63 h).1 rfl)]

/-- `urlsplit` inverts `urlunsplit` on well-formed http(s) components. -/
theorem urlsplit_roundtrip (u : SplitUrl)
    (hs : u.scheme = ("http").cp ∨ u.scheme = ("https").cp)
    (hn : u.netloc ≠ [])
    (hnc : ∀ c ∈ u.netloc, c ≠ 47 ∧ c ≠ 63 ∧ c ≠ 35 ∧ c ≠ 9 ∧ c ≠ 10 ∧ c ≠ 13)
    (hp : u.path = [] ∨ startsWith ("/".cp) u.path = true)
    (hpc : ∀ c ∈ u.path, c ≠ 63 ∧ c ≠ 35 ∧ c ≠ 9 ∧ c ≠ 10 ∧ c ≠ 13)
    (hq : ∀ c ∈ u.query, c ≠ 35 ∧ c ≠ 9 ∧ c ≠ 10 ∧ c ≠ 13)
    (hf : ∀ c ∈ u.fragment, c ≠ 9 ∧ c ≠ 10 ∧ c ≠ 13) :
    urlsplitCp (urlunsplitCp u) = u := by
  obtain ⟨scheme, netloc, path, query, fragment⟩ := u
  simp only at hs hn hnc hp hpc hq hf
  have hsne : scheme ≠ [] := by rcases hs with h | h <;> rw [h] <;> decide
  rw [urlunsplit_shape scheme netloc path query fragment hn hp hsne]
  have hs58 : (58 : Nat) ∉ scheme := by rcases hs with h | h <;> rw [h] <;> decide
  have hsTRN : ∀ c ∈ scheme, c ≠ 9 ∧ c ≠ 10 ∧ c ≠ 13 := by
    intro c hc
    rcases hs with h | h <;> rw [h] at hc
    · rw [show ("http").cp = [104, 116, 116, 112] from by decide] at hc
      simp at hc
      omega
    · rw [show ("https").cp = [104, 116, 116, 112, 115] from by decide] at hc
      simp at hc
      omega
  have hshead : ∀ c, scheme.head? = some c → isAsciiAlpha c = true := by
    intro c hc
    have hd : scheme.headD 0 = c := by
      rw [List.headD_eq_head?, hc]
      rfl
    rw [← hd]
    rcases hs with h | h <;> rw [h] <;> decide
  have hschars : scheme.all isSchemeChar = true := by
    rcases hs with h | h <;> rw [h] <;> decide
  have hslow : pyLower scheme = scheme := by
    rcases hs with h | h <;> rw [h] <;> decide
  have hr2head : ∀ c, (path ++ ((if query = [] then [] else 63 :: query) ++
      (if fragment = [] then [] else 35 :: fragment))).head? = some c →
      c = 47 ∨ c = 63 ∨ c = 35 := by
    intro c hc
    cases path with
    | cons p0 pt =>
      simp only [List.cons_append, List.head?_cons, Option.some.injEq] at hc
      subst hc
      left
      rcases hp with h | h
      · simp at h
      · rw [show ("/").cp = [47] from by decide] at h
        simp [startsWith] at h
        omega
    | nil =>
      simp only [List.nil_append] at hc
      by_cases hqe : query = []
      · rw [if_pos hqe] at hc
        simp only [List.nil_append] at hc
        by_cases hfe : fragment = []
        · rw [if_pos hfe] at hc
          simp at hc
        · rw [if_neg hfe] at hc
          simp at hc
          omega
      · rw [if_neg hqe] at hc
        simp at hc
        omega
  have hr2TRN : ∀ c ∈ (path ++ ((if query = [] then [] else 63 :: query) ++
      (if fragment = [] then [] else 35 :: fragment))),
      c ≠ 9 ∧ c ≠ 10 ∧ c ≠ 13 := by
    intro c hc
    simp only [List.mem_append] at hc
    rcases hc with h | h | h
    · have := hpc c h
      exact ⟨this.2.2.1, this.2.2.2.1, this.2.2.2.2⟩
    · by_cases hqe : query = []
      · rw [if_pos hqe] at h
        simp at h
      · rw [if_neg hqe] at h
        rcases List.mem_cons.mp h with h2 | h2
        · subst h2; exact ⟨by omega, by omega, by omega⟩
        · have := hq c h2
          exact ⟨this.2.1, this.2.2.1, this.2.2.2⟩
    · by_cases hfe : fragment = []
      · rw [if_pos hfe] at h
        simp at h
      · rw [if_neg hfe] at h
        rcases List.mem_cons.mp h with h2 | h2
        · subst h2; exact ⟨by omega, by omega, by omega⟩
        · exact hf c h2
  rw [show netloc ++ path ++ (if query = [] then [] else 63 :: query) ++
      (if fragment = [] then [] else 35 :: fragment) =
    netloc ++ (path ++ ((if query = [] then [] else 63 :: query) ++
      (if fragment = [] then [] else 35 :: fragment))) from by
    simp [List.append_assoc]]
  rw [urlsplit_core scheme netloc _ hsne hs58 hsTRN hshead hschars hslow hnc
    hr2head hr2TRN]
  by_cases hqe : query = [] <;> by_cases hfe : fragment = []
  · rw [if_pos hqe, if_pos hfe]
    simp only [List.append_nil]
    rw [urlsplitTail_plain path
      (fun c hc => ⟨(hpc c hc).1, (hpc c hc).2.1⟩), hqe, hfe]
  · rw [if_pos hqe, if_neg hfe]
    simp only [List.nil_append]
    rw [urlsplitTail_frag path fragment
      (fun c hc => ⟨(hpc c hc).1, (hpc c hc).2.1⟩), hqe]
  · rw [if_neg hqe, if_pos hfe]
    simp only [List.append_nil]
    rw [urlsplitTail_query path query
      (fun c hc => ⟨(hpc c hc).1, (hpc c hc).2.1⟩)
      (fun c hc => (hq c hc).1), hfe]
  · rw [if_neg hqe, if_neg hfe]
    rw [show (63 :: query) ++ (35 :: fragment) = 63 :: (query ++ 35 :: fragment)
      from by simp]
    rw [urlsplitTail_both path query fragment
      (fun c hc => ⟨(hpc c hc).1, (hpc c hc).2.1⟩)
      (fun c hc => (hq c hc).1)]

/-- `hexVal` inverts `hexDigit` below 16. -/
theorem hexVal_hexDigit {n : Nat} (h : n < 16) : hexVal (hexDigit n) = some n := by
  unfold hexVal hexDigit
  split_ifs <;>
    first
    | (exfalso; omega)
    | (congr 1; omega)

/-- UTF-8 encoding of a Unicode scalar value produces bytes. -/
theorem utf8Encode_bytes {c : Nat} (h : validCp c) : ∀ b ∈ utf8Encode c, b < 256 := by
  obtain ⟨h1, h2⟩ := h
  unfold utf8Encode
  split_ifs with hA hB hC <;> intro b hb <;> simp at hb <;>
    rcases hb with hb | hb | hb | hb <;> omega

/-- A decoding step consumes no more than the available continuation. -/
theorem utf8Step_len (b0 : Nat) (t : List Nat) :
    (utf8Step b0 t).2.length ≤ t.length := by
  unfold utf8Step
  split_ifs with hA hB hC hD
  · simp
  · unfold utf8More1
    rcases t with _ | ⟨b1, t1⟩
    · simp
    · dsimp only
      split_ifs <;> simp <;> omega
  · unfold utf8More2
    rcases t with _ | ⟨b1, _ | ⟨b2, t2⟩⟩
    · simp
    · simp
    · dsimp only
      split_ifs <;> simp <;> omega
  · unfold utf8More3
    rcases t with _ | ⟨b1, _ | ⟨b2, _ | ⟨b3, t3⟩⟩⟩
    · simp
    · simp
    · simp
    · dsimp only
      split_ifs <;> simp <;> omega
  · simp

/-- The decode loop is insensitive to surplus fuel. -/
theorem utf8DecodeGo_stable : ∀ (fuel : Nat) (l : List Nat), l.length ≤ fuel →
    utf8DecodeGo fuel l = utf8DecodeGo l.length l := by
  intro fuel
  induction fuel using Nat.strong_induction_on with
  | _ fuel ih =>
    intro l hl
    cases fuel with
    | zero =>
      cases l with
      | nil => rfl
      | cons b t => simp at hl
    | succ n =>
      cases l with
      | nil => rfl
      | cons b0 t =>
        simp only [List.length_cons, utf8DecodeGo]
        congr 1
        have hs := utf8Step_len b0 t
        have hln : t.length ≤ n := by simpa using hl
        rw [ih n (by omega) _ (by omega), ih t.length (by omega) _ (by omega)]

/-- Decoding a valid codepoint's UTF-8 bytes at the head of a stream yields
the codepoint and continues. -/
theorem utf8Decode_encode_append {c : Nat} (h : validCp c) (bs : List Nat) :
    utf8Decode (utf8Encode c ++ bs) = c :: utf8Decode bs := by
  obtain ⟨h1, h2⟩ := h
  unfold utf8Decode
  by_cases hA : c < 0x80
  · rw [show utf8Encode c = [c] from by unfold utf8Encode; rw [if_pos hA],
      show [c] ++ bs = c :: bs from rfl]
    simp only [List.length_cons, utf8DecodeGo]
    rw [show utf8Step c bs = (c, bs) from by unfold utf8Step; rw [if_pos hA]]
  · by_cases hB : c < 0x800
    · rw [show utf8Encode c = [0xC0 + c / 64, 0x80 + c % 64] from by
        unfold utf8Encode; rw [if_neg hA, if_pos hB],
        show [0xC0 + c / 64, 0x80 + c % 64] ++ bs =
          (0xC0 + c / 64) :: (0x80 + c % 64) :: bs from rfl]
      simp only [List.length_cons, utf8DecodeGo]
      have hstep : utf8Step (0xC0 + c / 64) ((0x80 + c % 64) :: bs) = (c, bs) := by
        unfold utf8Step
        rw [if_neg (by omega), if_pos (⟨by omega, by omega⟩ : (0xC0:Nat) ≤ _ ∧ _ ≤ 0xDF)]
        unfold utf8More1
        dsimp only
        rw [if_pos ⟨by simp [isCont]; omega, by omega⟩,
          show (0xC0 + c / 64 - 0xC0) * 64 + (0x80 + c % 64 - 0x80) = c from by omega]
      rw [hstep]
      rw [utf8DecodeGo_stable (bs.length + 1) bs (by omega)]
    · by_cases hC : c < 0x10000
      · rw [show utf8Encode c = [0xE0 + c / 4096, 0x80 + c / 64 % 64, 0x80 + c % 64]
          from by unfold utf8Encode; rw [if_neg hA, if_neg hB, if_pos hC],
          show [0xE0 + c / 4096, 0x80 + c / 64 % 64, 0x80 + c % 64] ++ bs =
            (0xE0 + c / 4096) :: (0x80 + c / 64 % 64) :: (0x80 + c % 64) :: bs
            from rfl]
        simp only [List.length_cons, utf8DecodeGo]
        have hstep : utf8Step (0xE0 + c / 4096)
            ((0x80 + c / 64 % 64) :: (0x80 + c % 64) :: bs) = (c, bs) := by
          unfold utf8Step
          rw [if_neg (by omega), if_neg (by omega),
            if_pos (⟨by omega, by omega⟩ : (0xE0:Nat) ≤ _ ∧ _ ≤ 0xEF)]
          unfold utf8More2
          dsimp only
          rw [if_pos ⟨by simp [isCont]; omega, by simp [isCont]; omega,
            by omega, by omega⟩,
            show (0xE0 + c / 4096 - 0xE0) * 4096 + (0x80 + c / 64 % 64 - 0x80) * 64 +
              (0x80 + c % 64 - 0x80) = c from by omega]
        rw [hstep]
        rw [utf8DecodeGo_stable (bs.length + 2) bs (by omega)]
      · rw [show utf8Encode c = [0xF0 + c / 0x40000, 0x80 + c / 0x1000 % 64,
            0x80 + c / 64 % 64, 0x80 + c % 64] from by
          unfold utf8Encode; rw [if_neg hA, if_neg hB, if_neg hC],
          show [0xF0 + c / 0x40000, 0x80 + c / 0x1000 % 64, 0x80 + c / 64 % 64,
              0x80 + c % 64] ++ bs =
            (0xF0 + c / 0x40000) :: (0x80 + c / 0x1000 % 64) ::
              (0x80 + c / 64 % 64) :: (0x80 + c % 64) :: bs from rfl]
        simp only [List.length_cons, utf8DecodeGo]
        have hstep : utf8Step (0xF0 + c / 0x40000)
            ((0x80 + c / 0x1000 % 64) :: (0x80 + c / 64 % 64) ::
              (0x80 + c % 64) :: bs) = (c, bs) := by
          unfold utf8Step
          rw [if_neg (by omega), if_neg (by omega), if_neg (by omega),
            if_pos (⟨by omega, by omega⟩ : (0xF0:Nat) ≤ _ ∧ _ ≤ 0xF7)]
          unfold utf8More3
          dsimp only
          rw [if_pos ⟨by simp [isCont]; omega, by simp [isCont]; omega,
            by simp [isCont]; omega, by omega, by omega⟩,
            show (0xF0 + c / 0x40000 - 0xF0) * 0x40000 +
              (0x80 + c / 0x1000 % 64 - 0x80) * 0x1000 +
              (0x80 + c / 64 % 64 - 0x80) * 64 + (0x80 + c % 64 - 0x80) = c
              from by omega]
        rw [hstep]
        rw [utf8DecodeGo_stable (bs.length + 3) bs (by omega)]

/-- Decoding a concatenation of valid encodings recovers the codepoints. -/
theorem utf8Decode_flat (pref : List Nat) (h : ∀ c ∈ pref, validCp c) :
    utf8Decode (pref.flatMap utf8Encode) = pref := by
  induction pref with
  | nil => rfl
  | cons c t ih =>
    simp only [List.flatMap_cons]
    rw [utf8Decode_encode_append (h c (by simp))]
    rw [ih (fun d hd => h d (by simp [hd]))]

/-- Every codepoint a decoding step emits is a Unicode scalar value. -/
theorem utf8Step_valid (b0 : Nat) (t : List Nat) : validCp (utf8Step b0 t).1 := by
  unfold utf8Step
  split_ifs with hA hB hC hD
  · exact ⟨by omega, by omega⟩
  · unfold utf8More1
    rcases t with _ | ⟨b1, t1⟩ <;> dsimp only
    · exact ⟨by omega, by omega⟩
    · split_ifs with h
      · obtain ⟨hc1, hv⟩ := h
        simp [isCont] at hc1
        exact ⟨by omega, by omega⟩
      · exact ⟨by omega, by omega⟩
  · unfold utf8More2
    rcases t with _ | ⟨b1, _ | ⟨b2, t2⟩⟩ <;> dsimp only
    · exact ⟨by omega, by omega⟩
    · exact ⟨by omega, by omega⟩
    · split_ifs with h
      · obtain ⟨hc1, hc2, hv, hsur⟩ := h
        simp [isCont] at hc1 hc2
        exact ⟨by omega, by omega⟩
      · exact ⟨by omega, by omega⟩
  · unfold utf8More3
    rcases t with _ | ⟨b1, _ | ⟨b2, _ | ⟨b3, t3⟩⟩⟩ <;> dsimp only
    · exact ⟨by omega, by omega⟩
    · exact ⟨by omega, by omega⟩
    · exact ⟨by omega, by omega⟩
    · split_ifs with h
      · obtain ⟨hc1, hc2, hc3, hv, hub⟩ := h
        exact ⟨by omega, by omega⟩
      · exact ⟨by omega, by omega⟩
  · exact ⟨by omega, by omega⟩

/-- Every codepoint the decode loop emits is a Unicode scalar value. -/
theorem utf8DecodeGo_valid : ∀ (fuel : Nat) (l : List Nat),
    ∀ c ∈ utf8DecodeGo fuel l, validCp c := by
  intro fuel
  induction fuel with
  | zero =>
    intro l c hc
    cases l <;> simp [utf8DecodeGo] at hc
  | succ n ih =>
    intro l c hc
    cases l with
    | nil => simp [utf8DecodeGo] at hc
    | cons b0 t =>
      simp only [utf8DecodeGo, List.mem_cons] at hc
      rcases hc with h | h
      · subst h
        exact utf8Step_valid b0 t
      · exact ih _ c h

/-- A non-percent character scans as itself. -/
theorem unquoteTokens_cons_ne {c : Nat} (hne : c ≠ 37) (t : List Nat) :
    unquoteTokens (c :: t) = .inl c :: unquoteTokens t := by
  rw [unquoteTokens.eq_def]
  split
  · rename_i heq
    cases heq
  · rename_i a b t' heq
    rw [List.cons.injEq] at heq
    exact absurd heq.1 hne
  · rename_i c' t' heq
    rw [List.cons.injEq] at heq
    rw [heq.1, heq.2]

/-- A percent triple produced from a byte scans as that byte. -/
theorem unquote_bytes (bs : List Nat) (hbs : ∀ b ∈ bs, b < 256) (rest : List Nat) :
    unquoteTokens ((bs.flatMap
        (fun b => [37, hexDigit (b / 16), hexDigit (b % 16)])) ++ rest) =
      bs.map Sum.inr ++ unquoteTokens rest := by
  induction bs with
  | nil => rfl
  | cons b t ih =>
    have hb := hbs b (List.mem_cons_self b t)
    simp only [List.flatMap_cons, List.append_assoc, List.cons_append,
      List.nil_append, List.map_cons]
    rw [unquoteTokens]
    rw [hexVal_hexDigit (by omega), hexVal_hexDigit (by omega)]
    dsimp only
    rw [ih (fun x hx => hbs x (List.mem_cons_of_mem b hx))]
    rw [show 16 * (b / 16) + b % 16 = b from by omega]

/-- A run of byte tokens extends the pending byte accumulator. -/
theorem decodeTokensGo_inr (bs : List Nat) :
    ∀ (pend : List Nat) (T : List (Sum Nat Nat)),
      decodeTokensGo pend (bs.map Sum.inr ++ T) = decodeTokensGo (pend ++ bs) T := by
  induction bs with
  | nil => intro pend T; simp
  | cons b t ih =>
    intro pend T
    simp only [List.map_cons, List.cons_append, decodeTokensGo, List.append_eq]
    rw [ih]
    simp [List.append_assoc]

/-- Decoding the plus-mapped `quote_plus` output appends the original string
to the already-decoded prefix. -/
theorem decode_quote_go : ∀ (s : List Nat), (∀ c ∈ s, validCp c) →
    ∀ pref : List Nat, (∀ c ∈ pref, validCp c) →
      decodeTokensGo (pref.flatMap utf8Encode)
        (unquoteTokens ((quotePlus s).map (fun c => if c = 43 then 32 else c))) =
      pref ++ s := by
  intro s
  induction s with
  | nil =>
    intro hs pref hpref
    simp only [quotePlus, List.flatMap_nil, List.map_nil]
    show utf8Decode (pref.flatMap utf8Encode) = pref ++ []
    rw [utf8Decode_flat pref hpref]
    simp
  | cons c t ih =>
    intro hs pref hpref
    have hc := hs c (List.mem_cons_self c t)
    have hst : ∀ d ∈ t, validCp d := fun d hd => hs d (List.mem_cons_of_mem c hd)
    simp only [quotePlus, List.flatMap_cons, List.map_append]
    by_cases h1 : isUnreserved c = true
    · have hc43 : c ≠ 43 := by
        intro he
        subst he
        exact absurd h1 (by decide)
      have hc37 : c ≠ 37 := by
        intro he
        subst he
        exact absurd h1 (by decide)
      have hqc : quotePlusChar c = [c] := by
        unfold quotePlusChar
        rw [if_pos h1]
      rw [hqc, show ([c] : List Nat).map (fun x => if x = 43 then 32 else x) = [c]
        from by simp [hc43]]
      simp only [List.singleton_append]
      rw [unquoteTokens_cons_ne hc37]
      simp only [decodeTokensGo]
      rw [utf8Decode_flat pref hpref]
      have h2 := ih hst [] (fun d hd => absurd hd (List.not_mem_nil d))
      simp only [List.flatMap_nil, quotePlus] at h2
      rw [h2]
      simp
    · by_cases h2 : c = 32
      · subst h2
        have hqc : quotePlusChar 32 = [43] := by
          unfold quotePlusChar
          rw [if_neg (by simp [h1]), if_pos rfl]
        rw [hqc, show ([43] : List Nat).map (fun x => if x = 43 then 32 else x) = [32]
          from by simp]
        simp only [List.singleton_append]
        rw [unquoteTokens_cons_ne (by omega)]
        simp only [decodeTokensGo]
        rw [utf8Decode_flat pref hpref]
        have h3 := ih hst [] (fun d hd => absurd hd (List.not_mem_nil d))
        simp only [List.flatMap_nil, quotePlus] at h3
        rw [h3]
        simp
      · have hqc : quotePlusChar c = (utf8Encode c).flatMap
            (fun b => [37, hexDigit (b / 16), hexDigit (b % 16)]) := by
          unfold quotePlusChar
          rw [if_neg h1, if_neg h2]
        rw [hqc]
        rw [map_id_of (l := (utf8Encode c).flatMap
            (fun b => [37, hexDigit (b / 16), hexDigit (b % 16)])) (by
          intro x hx
          simp only [List.mem_flatMap, List.mem_cons] at hx
          obtain ⟨b, hbmem, hxmem⟩ := hx
          have hx43 : x ≠ 43 := by
            rcases hxmem with h | h | h | h
            · omega
            · subst h; unfold hexDigit; split_ifs <;> omega
            · subst h; unfold hexDigit; split_ifs <;> omega
            · simp at h
          rw [if_neg hx43])]
        rw [unquote_bytes (utf8Encode c) (utf8Encode_bytes hc) _]
        rw [decodeTokensGo_inr]
        rw [show pref.flatMap utf8Encode ++ utf8Encode c =
            (pref ++ [c]).flatMap utf8Encode from by simp]
        have h4 := ih hst (pref ++ [c]) (by
          intro d hd
          rcases List.mem_append.mp hd with h | h
          · exact hpref d h
          · simp at h
            subst h
            exact hc)
        simp only [quotePlus] at h4
        rw [h4]
        simp

/-- `unquote_plus` inverts `quote_plus` on Unicode scalar values. -/
theorem unquote_quote (s : List Nat) (hs : ∀ c ∈ s, validCp c) :
    unquotePlus (quotePlus s) = s := by
  unfold unquotePlus
  have h := decode_quote_go s hs [] (fun d hd => absurd hd (List.not_mem_nil d))
  simpa using h

/-- Splitting a delimiter-free string yields one chunk. -/
theorem splitOnChar_no {d : Nat} : ∀ {l : List Nat}, (∀ x ∈ l, x ≠ d) →
    splitOnChar d l = [l] := by
  intro l
  induction l with
  | nil => intro _; rfl
  | cons a t ih =>
    intro h
    simp only [splitOnChar]
    rw [if_neg (h a (List.mem_cons_self a t))]
    rw [ih (fun x hx => h x (List.mem_cons_of_mem a hx))]

/-- Splitting at the first delimiter chunks off the prefix. -/
theorem splitOnChar_append {d : Nat} : ∀ {a b : List Nat}, (∀ x ∈ a, x ≠ d) →
    splitOnChar d (a ++ d :: b) = a :: splitOnChar d b := by
  intro a
  induction a with
  | nil =>
    intro b _
    simp [splitOnChar]
  | cons x t ih =>
    intro b h
    simp only [List.cons_append, splitOnChar, List.append_eq]
    rw [if_neg (h x (List.mem_cons_self x t))]
    rw [ih (fun y hy => h y (List.mem_cons_of_mem x hy))]

/-- Two-chunk unfolding of `intercalate`. -/
theorem intercalate_cons_cons (ch ch2 : List Nat) (rest : List (List Nat)) :
    List.intercalate [38] (ch :: ch2 :: rest) =
      ch ++ 38 :: List.intercalate [38] (ch2 :: rest) := by
  simp [List.intercalate, List.intersperse]

/-- Splitting an intercalation of delimiter-free chunks recovers them. -/
theorem splitOn_intercalate : ∀ (chunks : List (List Nat)), chunks ≠ [] →
    (∀ ch ∈ chunks, ∀ x ∈ ch, x ≠ 38) →
    splitOnChar 38 (List.intercalate [38] chunks) = chunks := by
  intro chunks
  induction chunks with
  | nil => intro h; exact absurd rfl h
  | cons ch rest ih =>
    intro _ hfree
    cases rest with
    | nil =>
      rw [show List.intercalate [38] [ch] = ch from by simp [List.intercalate]]
      exact splitOnChar_no (hfree ch (List.mem_cons_self ch []))
    | cons ch2 rest2 =>
      rw [intercalate_cons_cons,
        splitOnChar_append (hfree ch (List.mem_cons_self ch _)),
        ih (by simp) (fun d hd x hx => hfree d (List.mem_cons_of_mem ch hd) x hx)]

/-- Character classes occurring in `quote_plus` output. -/
theorem quotePlus_chars {s : List Nat} (hs : ∀ c ∈ s, validCp c) : ∀ x ∈ quotePlus s,
    isUnreserved x = true ∨ x = 43 ∨ x = 37 ∨ (48 ≤ x ∧ x ≤ 57) ∨
      (65 ≤ x ∧ x ≤ 70) := by
  unfold quotePlus
  intro x hx
  simp only [List.mem_flatMap] at hx
  obtain ⟨c, hcmem, hxmem⟩ := hx
  unfold quotePlusChar at hxmem
  split_ifs at hxmem with hu h32
  · simp at hxmem
    subst hxmem
    exact Or.inl hu
  · simp at hxmem
    subst hxmem
    exact Or.inr (Or.inl rfl)
  · simp only [List.mem_flatMap, List.mem_cons] at hxmem
    obtain ⟨b, hbmem, hm⟩ := hxmem
    have hb256 : b < 256 := utf8Encode_bytes (hs c hcmem) b hbmem
    rcases hm with h | h | h | h
    · subst h; exact Or.inr (Or.inr (Or.inl rfl))
    · subst h
      unfold hexDigit
      split_ifs with hlt
      · exact Or.inr (Or.inr (Or.inr (Or.inl ⟨by omega, by omega⟩)))
      · exact Or.inr (Or.inr (Or.inr (Or.inr ⟨by omega, by omega⟩)))
    · subst h
      unfold hexDigit
      split_ifs with hlt
      · exact Or.inr (Or.inr (Or.inr (Or.inl ⟨by omega, by omega⟩)))
      · exact Or.inr (Or.inr (Or.inr (Or.inr ⟨by omega, by omega⟩)))
    · simp at h

/-- `quote_plus` output avoids all URL delimiters and unsafe bytes. -/
theorem quotePlus_safe {s : List Nat} (hs : ∀ c ∈ s, validCp c) : ∀ x ∈ quotePlus s,
    x ≠ 38 ∧ x ≠ 61 ∧ x ≠ 35 ∧ x ≠ 63 ∧ x ≠ 9 ∧ x ≠ 10 ∧ x ≠ 13 := by
  intro x hx
  rcases quotePlus_chars hs x hx with h | h | h | h | h
  · unfold isUnreserved at h
    simp at h
    rcases h with h | h | h | h
    all_goals refine ⟨by omega, by omega, by omega, by omega, by omega, by omega,
      by omega⟩
  all_goals refine ⟨by omega, by omega, by omega, by omega, by omega, by omega,
    by omega⟩

/-- Literal characters in the scanned token stream come from the input. -/
theorem unquoteTokens_inl :
    ∀ (s : List Nat) (c : Nat), .inl c ∈ unquoteTokens s → c ∈ s := by
  suffices h : ∀ (n : Nat) (s : List Nat), s.length ≤ n → ∀ c,
      .inl c ∈ unquoteTokens s → c ∈ s by
    exact fun s c hc => h s.length s (le_refl _) c hc
  intro n
  induction n with
  | zero =>
    intro s hs c hc
    cases s with
    | nil => simp [unquoteTokens] at hc
    | cons a t => simp at hs
  | succ n ih =>
    intro s hs c hc
    cases s with
    | nil => simp [unquoteTokens] at hc
    | cons a t =>
      by_cases ha : a = 37
      · subst ha
        rcases t with _ | ⟨x, _ | ⟨y, u⟩⟩
        · rw [unquoteTokens.eq_def] at hc
          simp [unquoteTokens] at hc
          simp [hc]
        · rw [unquoteTokens.eq_def] at hc
          simp only [List.mem_cons] at hc
          rcases hc with h | h
          · simp at h
            simp [h]
          · have := ih [x] (by simp at hs ⊢; omega) c h
            simp at this
            simp [this]
        · rw [unquoteTokens.eq_def] at hc
          rcases hhx : hexVal x with _ | vx <;> rcases hhy : hexVal y with _ | vy <;>
            simp only [hhx, hhy] at hc <;>
            simp only [List.mem_cons] at hc
          · rcases hc with h | h
            · simp at h
              simp [h]
            · have := ih (x :: y :: u) (by simp at hs ⊢; omega) c h
              simp at this
              rcases this with h2 | h2 | h2 <;> simp [h2]
          · rcases hc with h | h
            · simp at h
              simp [h]
            · have := ih (x :: y :: u) (by simp at hs ⊢; omega) c h
              simp at this
              rcases this with h2 | h2 | h2 <;> simp [h2]
          · rcases hc with h | h
            · simp at h
              simp [h]
            · have := ih (x :: y :: u) (by simp at hs ⊢; omega) c h
              simp at this
              rcases this with h2 | h2 | h2 <;> simp [h2]
          · rcases hc with h | h
            · simp at h
            · have := ih u (by simp at hs ⊢; omega) c h
              simp [this]
      · rw [unquoteTokens_cons_ne ha] at hc
        rcases List.mem_cons.mp hc with h | h
        · simp at h
          simp [h]
        · exact List.mem_cons_of_mem a
            (ih t (by simp at hs ⊢; omega) c h)

/-- Everything the token decoder emits is a scalar value, provided the
literal tokens are. -/
theorem decodeTokensGo_mem_valid :
    ∀ (T : List (Sum Nat Nat)) (pend : List Nat),
      (∀ c, .inl c ∈ T → validCp c) → ∀ c ∈ decodeTokensGo pend T, validCp c := by
  intro T
  induction T with
  | nil =>
    intro pend _ c hc
    simp only [decodeTokensGo] at hc
    exact utf8DecodeGo_valid _ _ c hc
  | cons tok T ih =>
    intro pend h c hc
    cases tok with
    | inl a =>
      simp only [decodeTokensGo, List.mem_append, List.mem_cons] at hc
      rcases hc with h1 | h1 | h1
      · exact utf8DecodeGo_valid _ _ c h1
      · subst h1
        exact h c (List.mem_cons_self _ _)
      · exact ih [] (fun d hd => h d (List.mem_cons_of_mem _ hd)) c h1
    | inr b =>
      simp only [decodeTokensGo] at hc
      exact ih _ (fun d hd => h d (List.mem_cons_of_mem _ hd)) c hc

/-- `unquote_plus` of a string of scalar values yields scalar values. -/
theorem unquotePlus_valid (s : List Nat) (hs : ∀ c ∈ s, validCp c) :
    ∀ c ∈ unquotePlus s, validCp c := by
  intro c hc
  unfold unquotePlus at hc
  refine decodeTokensGo_mem_valid _ [] ?_ c hc
  intro d hd
  have hmem := unquoteTokens_inl _ d hd
  simp only [List.mem_map] at hmem
  obtain ⟨e, hemem, hee⟩ := hmem
  by_cases he : e = 43
  · rw [if_pos he] at hee
    subst hee
    exact ⟨by omega, by omega⟩
  · rw [if_neg he] at hee
    subst hee
    exact hs e hemem

/-- Members of the two halves of a first-delimiter split are members of the
whole. -/
theorem splitFirst_mem {d : Nat} {l a b : List Nat}
    (h : splitFirst d l = some (a, b)) :
    (∀ x ∈ a, x ∈ l) ∧ (∀ x ∈ b, x ∈ l) := by
  unfold splitFirst at h
  split_ifs at h with hc
  · simp only [Option.some.injEq, Prod.mk.injEq] at h
    obtain ⟨ha, hb⟩ := h
    constructor
    · intro x hx
      rw [← ha] at hx
      exact (List.takeWhile_sublist _).mem hx
    · intro x hx
      rw [← hb] at hx
      exact ((List.drop_sublist 1 _).trans (List.dropWhile_sublist _)).mem hx

/-- Members of a chunk of `splitOnChar` are members of the string. -/
theorem splitOnChar_mem {d : Nat} : ∀ {l ch : List Nat}, ch ∈ splitOnChar d l →
    ∀ x ∈ ch, x ∈ l := by
  intro l
  induction l with
  | nil =>
    intro ch hch x hx
    simp [splitOnChar] at hch
    subst hch
    cases hx
  | cons a t ih =>
    intro ch hch x hx
    simp only [splitOnChar] at hch
    by_cases hac : a = d
    · rw [if_pos hac] at hch
      rcases List.mem_cons.mp hch with h | h
      · subst h
        cases hx
      · exact List.mem_cons_of_mem a (ih h x hx)
    · rw [if_neg hac] at hch
      cases hr : splitOnChar d t with
      | nil =>
        rw [hr] at hch
        simp at hch
        subst hch
        simp at hx
        simp [hx]
      | cons h0 tl =>
        rw [hr] at hch
        rcases List.mem_cons.mp hch with h | h
        · subst h
          rcases List.mem_cons.mp hx with h2 | h2
          · simp [h2]
          · exact List.mem_cons_of_mem a
              (ih (show h0 ∈ splitOnChar d t from by
                rw [hr]; exact List.mem_cons_self h0 tl) x h2)
        · exact List.mem_cons_of_mem a
            (ih (show ch ∈ splitOnChar d t from by
              rw [hr]; exact List.mem_cons_of_mem h0 h) x hx)

/-- Decimal digits are scalar values. -/
theorem natDigitsGo_valid : ∀ (fuel n : Nat), ∀ c ∈ natDigitsGo fuel n, validCp c := by
  intro fuel
  induction fuel with
  | zero =>
    intro n c hc
    simp [natDigitsGo] at hc
  | succ f ih =>
    intro n c hc
    simp only [natDigitsGo] at hc
    split_ifs at hc with h
    · simp at hc
      subst hc
      exact ⟨by omega, by omega⟩
    · rcases List.mem_append.mp hc with h2 | h2
      · exact ih _ c h2
      · simp at h2
        subst h2
        exact ⟨by omega, by omega⟩

/-- Insert-or-update preserves per-pair validity. -/
theorem upsertAssoc_valid :
    ∀ (l : List (List Nat × List Nat)) (k v : List Nat),
      (∀ p ∈ l, (∀ c ∈ p.1, validCp c) ∧ (∀ c ∈ p.2, validCp c)) →
      (∀ c ∈ k, validCp c) → (∀ c ∈ v, validCp c) →
      ∀ p ∈ upsertAssoc l k v, (∀ c ∈ p.1, validCp c) ∧ (∀ c ∈ p.2, validCp c) := by
  intro l
  induction l with
  | nil =>
    intro k v _ hk hv p hp
    simp [upsertAssoc] at hp
    subst hp
    exact ⟨hk, hv⟩
  | cons q t ih =>
    intro k v hl hk hv p hp
    obtain ⟨k0, v0⟩ := q
    simp only [upsertAssoc] at hp
    split_ifs at hp with h
    · rcases List.mem_cons.mp hp with h2 | h2
      · subst h2
        exact ⟨(hl (k0, v0) (List.mem_cons_self _ _)).1, hv⟩
      · exact hl p (List.mem_cons_of_mem _ h2)
    · rcases List.mem_cons.mp hp with h2 | h2
      · subst h2
        exact hl (k0, v0) (List.mem_cons_self _ _)
      · exact ih k v (fun r hr => hl r (List.mem_cons_of_mem _ hr)) hk hv p h2

/-- `dict(...)` preserves per-pair validity. -/
theorem dictOfPairs_valid (l : List (List Nat × List Nat))
    (hl : ∀ p ∈ l, (∀ c ∈ p.1, validCp c) ∧ (∀ c ∈ p.2, validCp c)) :
    ∀ p ∈ dictOfPairs l, (∀ c ∈ p.1, validCp c) ∧ (∀ c ∈ p.2, validCp c) := by
  unfold dictOfPairs
  suffices h : ∀ (acc : List (List Nat × List Nat)),
      (∀ p ∈ acc, (∀ c ∈ p.1, validCp c) ∧ (∀ c ∈ p.2, validCp c)) →
      (∀ p ∈ l, (∀ c ∈ p.1, validCp c) ∧ (∀ c ∈ p.2, validCp c)) →
      ∀ p ∈ l.foldl (fun acc p => upsertAssoc acc p.1 p.2) acc,
        (∀ c ∈ p.1, validCp c) ∧ (∀ c ∈ p.2, validCp c) by
    exact h [] (fun p hp => absurd hp (List.not_mem_nil p)) hl
  clear hl
  induction l with
  | nil => intro acc hacc _ p hp; exact hacc p hp
  | cons q t ih =>
    intro acc hacc hl p hp
    simp only [List.foldl_cons] at hp
    exact ih (upsertAssoc acc q.1 q.2)
      (upsertAssoc_valid acc q.1 q.2 hacc
        (hl q (List.mem_cons_self _ _)).1 (hl q (List.mem_cons_self _ _)).2)
      (fun r hr => hl r (List.mem_cons_of_mem _ hr)) p hp

/-- The pairs `parse_qsl` produces from a scalar-valued query are
scalar-valued. -/
theorem parse_qsl_valid (qs : List Nat) (hqs : ∀ c ∈ qs, validCp c) :
    ∀ p ∈ parse_qsl qs, (∀ c ∈ p.1, validCp c) ∧ (∀ c ∈ p.2, validCp c) := by
  intro p hp
  unfold parse_qsl at hp
  simp only [List.mem_flatMap] at hp
  obtain ⟨chunk, hchunk, hpmem⟩ := hp
  have hchv : ∀ c ∈ chunk, validCp c := fun c hc =>
    hqs c (splitOnChar_mem hchunk c hc)
  by_cases hce : chunk = []
  · rw [if_pos hce] at hpmem
    simp at hpmem
  · rw [if_neg hce] at hpmem
    cases hsf : splitFirst 61 chunk with
    | some kv =>
      obtain ⟨k, v⟩ := kv
      rw [hsf] at hpmem
      simp at hpmem
      subst hpmem
      have hmem := splitFirst_mem hsf
      exact ⟨unquotePlus_valid k (fun c hc => hchv c (hmem.1 c hc)),
        unquotePlus_valid v (fun c hc => hchv c (hmem.2 c hc))⟩
    | none =>
      rw [hsf] at hpmem
      simp at hpmem
      subst hpmem
      refine ⟨unquotePlus_valid chunk hchv, ?_⟩
      intro c hc
      cases hc

/-- Re-parsing the encoded pairs recovers them, pair by pair. -/
theorem qsl_chunks : ∀ (l : List (List Nat × List Nat)),
    (∀ p ∈ l, (∀ c ∈ p.1, validCp c) ∧ (∀ c ∈ p.2, validCp c)) →
    (l.map (fun p => quotePlus p.1 ++ [61] ++ quotePlus p.2)).flatMap
      (fun chunk => if chunk = [] then []
        else match splitFirst 61 chunk with
          | some (k, v) => [(unquotePlus k, unquotePlus v)]
          | none => [(unquotePlus chunk, [])]) = l := by
  intro l
  induction l with
  | nil => intro _; rfl
  | cons p rest ih =>
    intro hval
    simp only [List.map_cons, List.flatMap_cons]
    have hne : quotePlus p.1 ++ [61] ++ quotePlus p.2 ≠ [] := by simp
    rw [if_neg hne]
    have hsplit : splitFirst 61 (quotePlus p.1 ++ [61] ++ quotePlus p.2) =
        some (quotePlus p.1, quotePlus p.2) := by
      rw [show quotePlus p.1 ++ [61] ++ quotePlus p.2 =
          quotePlus p.1 ++ 61 :: quotePlus p.2 from by simp]
      exact splitFirst_append
        (fun h => (quotePlus_safe (hval p (List.mem_cons_self p rest)).1 61 h).2.1 rfl)
    rw [hsplit]
    dsimp only
    rw [unquote_quote _ (hval p (List.mem_cons_self p rest)).1,
      unquote_quote _ (hval p (List.mem_cons_self p rest)).2]
    rw [ih (fun r hr => hval r (List.mem_cons_of_mem p hr))]
    simp

/-- `parse_qsl` inverts `urlencode` on scalar-valued pairs. -/
theorem parse_qsl_urlencode (pairs : List (List Nat × List Nat))
    (hval : ∀ p ∈ pairs, (∀ c ∈ p.1, validCp c) ∧ (∀ c ∈ p.2, validCp c)) :
    parse_qsl (urlencodeCp pairs) = pairs := by
  unfold parse_qsl urlencodeCp
  cases pairs with
  | nil => rfl
  | cons p0 rest =>
    rw [splitOn_intercalate _ (by simp) (by
      intro ch hch x hx
      simp only [List.mem_map] at hch
      obtain ⟨p, hp, hpch⟩ := hch
      rw [← hpch] at hx
      simp only [List.mem_append, List.mem_cons] at hx
      rcases hx with (h | h) | h
      · exact (quotePlus_safe (hval p hp).1 x h).1
      · simp at h
        omega
      · exact (quotePlus_safe (hval p hp).2 x h).1)]
    exact qsl_chunks (p0 :: rest) hval

/-- Members of an `&`-intercalation are the separator or chunk members. -/
theorem intercalate_mem : ∀ (l : List (List Nat)) (x : Nat),
    x ∈ List.intercalate [38] l → x = 38 ∨ ∃ ch ∈ l, x ∈ ch := by
  intro l
  induction l with
  | nil =>
    intro x hx
    simp [List.intercalate] at hx
  | cons ch rest ih =>
    intro x hx
    cases rest with
    | nil =>
      rw [show List.intercalate [38] [ch] = ch from by simp [List.intercalate]] at hx
      exact Or.inr ⟨ch, List.mem_cons_self ch [], hx⟩
    | cons ch2 rest2 =>
      rw [intercalate_cons_cons] at hx
      simp only [List.mem_append, List.mem_cons] at hx
      rcases hx with h | h | h
      · exact Or.inr ⟨ch, List.mem_cons_self _ _, h⟩
      · exact Or.inl h
      · rcases ih x h with h2 | ⟨ch3, hc3, hx3⟩
        · exact Or.inl h2
        · exact Or.inr ⟨ch3, List.mem_cons_of_mem _ hc3, hx3⟩

/-- `urlencode` output is free of `#` and unsafe bytes. -/
theorem urlencode_safe (pairs : List (List Nat × List Nat))
    (hval : ∀ p ∈ pairs, (∀ c ∈ p.1, validCp c) ∧ (∀ c ∈ p.2, validCp c)) :
    ∀ x ∈ urlencodeCp pairs, x ≠ 35 ∧ x ≠ 9 ∧ x ≠ 10 ∧ x ≠ 13 := by
  intro x hx
  unfold urlencodeCp at hx
  rcases intercalate_mem _ x hx with h | ⟨ch, hch, hxch⟩
  · subst h
    exact ⟨by omega, by omega, by omega, by omega⟩
  · simp only [List.mem_map] at hch
    obtain ⟨p, hp, hpch⟩ := hch
    rw [← hpch] at hxch
    simp only [List.mem_append, List.mem_cons] at hxch
    rcases hxch with (h | h) | h
    · have := quotePlus_safe (hval p hp).1 x h
      exact ⟨this.2.2.1, this.2.2.2.2.1, this.2.2.2.2.2.1, this.2.2.2.2.2.2⟩
    · simp at h
      subst h
      exact ⟨by omega, by omega, by omega, by omega⟩
    · have := quotePlus_safe (hval p hp).2 x h
      exact ⟨this.2.2.1, this.2.2.2.2.1, this.2.2.2.2.2.1, this.2.2.2.2.2.2⟩

section BuildUrlProof

attribute [local irreducible] urlsplitCp stripWs parse_qsl urlencodeCp
  upsertAssoc dictOfPairs quotePlus unquotePlus splitFirst

/-- C9 (amended): on a well-formed absolute http(s) category URL,
`build_category_url` preserves the scheme, host, path and fragment verbatim,
and the query it emits parses back exactly to the original parameters — as
collapsed by `dict(parse_qsl(...))`, which keeps for each repeated name only
its last value — with `p` set to the page number.  The literal claim fails
for repeated query parameters, which the `dict(...)` step collapses. -/
theorem build_category_url_spec (url : List Nat) (page : Nat)
    (hwf : wfUrl (urlsplitCp (stripWs url))) :
    (urlsplitCp (build_category_url url page)).scheme =
        (urlsplitCp (stripWs url)).scheme ∧
      (urlsplitCp (build_category_url url page)).netloc =
        (urlsplitCp (stripWs url)).netloc ∧
      (urlsplitCp (build_category_url url page)).path =
        (urlsplitCp (stripWs url)).path ∧
      (urlsplitCp (build_category_url url page)).fragment =
        (urlsplitCp (stripWs url)).fragment ∧
      parse_qsl (urlsplitCp (build_category_url url page)).query =
        upsertAssoc (dictOfPairs (parse_qsl (urlsplitCp (stripWs url)).query))
          ("p".cp) (natDigits page) := by
  obtain ⟨hs, hn, hnc, hp, hpc, hq, hf⟩ := hwf
  have hqv : ∀ c ∈ (urlsplitCp (stripWs url)).query, validCp c :=
    fun c hc => (hq c hc).2.2.2.2
  have hq2 := upsertAssoc_valid
    (dictOfPairs (parse_qsl (urlsplitCp (stripWs url)).query)) ("p".cp)
    (natDigits page)
    (dictOfPairs_valid _ (parse_qsl_valid _ hqv))
    (by decide) (fun c hc => natDigitsGo_valid _ _ c hc)
  have hround := urlsplit_roundtrip
    ⟨(urlsplitCp (stripWs url)).scheme, (urlsplitCp (stripWs url)).netloc,
      (urlsplitCp (stripWs url)).path,
      urlencodeCp (upsertAssoc
        (dictOfPairs (parse_qsl (urlsplitCp (stripWs url)).query))
        ("p".cp) (natDigits page)),
      (urlsplitCp (stripWs url)).fragment⟩
    hs hn hnc hp hpc
    (fun c hc => urlencode_safe _ hq2 c hc) hf
  unfold build_category_url
  rw [hround]
  exact ⟨rfl, rfl, rfl, rfl, parse_qsl_urlencode _ hq2⟩

end BuildUrlProof

/-- C9 counterexample: a repeated query parameter does NOT survive —
`dict(parse_qsl(...))` keeps only the last `x`, so the pair `x=1` present in
the original query is absent from the rebuilt one. -/
theorem build_category_url_cex :
    (("x").cp, ("1").cp) ∈ parse_qsl (urlsplitCp (("https://a/b?x=1&x=2").cp)).query ∧
      ¬((("x").cp, ("1").cp) ∈
        parse_qsl (urlsplitCp (build_category_url (("https://a/b?x=1&x=2").cp) 5)).query) := by
  decide

/-- Witness for C9 on a realistic catalog URL. -/
theorem build_category_url_spec_witness :
    (urlsplitCp (build_category_url
        (("https://www.avito.ru/moskva/noutbuki?cd=1&q=dell xps").cp) 3)).scheme =
        (urlsplitCp (stripWs (("https://www.avito.ru/moskva/noutbuki?cd=1&q=dell xps").cp))).scheme ∧
      (urlsplitCp (build_category_url
        (("https://www.avito.ru/moskva/noutbuki?cd=1&q=dell xps").cp) 3)).netloc =
        (urlsplitCp (stripWs (("https://www.avito.ru/moskva/noutbuki?cd=1&q=dell xps").cp))).netloc ∧
      (urlsplitCp (build_category_url
        (("https://www.avito.ru/moskva/noutbuki?cd=1&q=dell xps").cp) 3)).path =
        (urlsplitCp (stripWs (("https://www.avito.ru/moskva/noutbuki?cd=1&q=dell xps").cp))).path ∧
      (urlsplitCp (build_category_url
        (("https://www.avito.ru/moskva/noutbuki?cd=1&q=dell xps").cp) 3)).fragment =
        (urlsplitCp (stripWs (("https://www.avito.ru/moskva/noutbuki?cd=1&q=dell xps").cp))).fragment ∧
      parse_qsl (urlsplitCp (build_category_url
        (("https://www.avito.ru/moskva/noutbuki?cd=1&q=dell xps").cp) 3)).query =
        upsertAssoc (dictOfPairs (parse_qsl
          (urlsplitCp (stripWs (("https://www.avito.ru/moskva/noutbuki?cd=1&q=dell xps").cp))).query))
          ("p".cp) (natDigits 3) :=
  build_category_url_spec (("https://www.avito.ru/moskva/noutbuki?cd=1&q=dell xps").cp) 3
    (by decide)
